import Mathlib

/-!
# PunyGo: a shallow embedding of the lexer, the parser and the evaluator

Go strings are byte sequences; they are embedded as `List Nat` (one `Nat` below 256 per
byte).  Pointers that may be `nil` are embedded by an explicit `nil` constructor, mutable
state (the lexer cursor, the parser, the environment) by state passing, and a Go runtime
panic by the `none` of an `Option` result of the evaluator and of the printers.
The recursion of the parser is bounded by a fuel argument; `none` of a parsing function
means that the fuel ran out, which does not happen on the budget that ParseProgram gives
(`Parser.parse_total`).
-/

namespace PunyGo

/-! ## Strings -/

/-- UTF-8 encoding of the code point `c`; on a byte `b` this is Go's conversion `string(b)`. -/
def utf8 (c : Nat) : List Nat :=
  if c < 0x80 then [c]
  else if c < 0x800 then [0xC0 + c / 64, 0x80 + c % 64]
  else if c < 0x10000 then [0xE0 + c / 4096, 0x80 + c / 64 % 64, 0x80 + c % 64]
  else [0xF0 + c / 262144, 0x80 + c / 4096 % 64, 0x80 + c / 64 % 64, 0x80 + c % 64]

/-- The bytes of a text (UTF-8), used to write Go string constants. -/
def bytesOf (s : String) : List Nat :=
  s.toList.flatMap (fun c => utf8 c.toNat)

/-! ## pkg/token -/

/-- The token kinds of `token.go`; `TokenType.str` gives the Go string constant of each. -/
inductive TokenType
  | ILLEGAL | EOF | IDENT | INT
  | ASSIGN | PLUS | MINUS | BANG | ASTERISK | SLASH
  | LT | GT | EQ | NOT_EQ
  | COMMA | SEMICOLON | LPAREN | RPAREN | LBRACE | RBRACE
  | FUNCTION | LET
  deriving DecidableEq, Repr

/-- The string value of a token kind constant. -/
def TokenType.str : TokenType → List Nat
  | .ILLEGAL => bytesOf "ILLEGAL"
  | .EOF => bytesOf "EOF"
  | .IDENT => bytesOf "IDENT"
  | .INT => bytesOf "INT"
  | .ASSIGN => bytesOf "="
  | .PLUS => bytesOf "+"
  | .MINUS => bytesOf "-"
  | .BANG => bytesOf "!"
  | .ASTERISK => bytesOf "*"
  | .SLASH => bytesOf "/"
  | .LT => bytesOf "<"
  | .GT => bytesOf ">"
  | .EQ => bytesOf "=="
  | .NOT_EQ => bytesOf "!="
  | .COMMA => bytesOf ","
  | .SEMICOLON => bytesOf ";"
  | .LPAREN => bytesOf "("
  | .RPAREN => bytesOf ")"
  | .LBRACE => [123]
  | .RBRACE => [125]
  | .FUNCTION => bytesOf "FUNCTION"
  | .LET => bytesOf "LET"

/-- A token: its kind and its literal text. -/
structure Token where
  Typ : TokenType
  Literal : List Nat
  deriving DecidableEq, Repr

/-- LookupIdent: the keyword table, `fn` and `let`; every other literal is an identifier. -/
def LookupIdent (ident : List Nat) : TokenType :=
  if ident = bytesOf "fn" then .FUNCTION
  else if ident = bytesOf "let" then .LET
  else .IDENT

/-! ## pkg/lexer -/

/-- The lexer state: the input, the offset of the current byte, the offset of the next
byte, and the current byte (0 past the end). -/
structure Lexer where
  input : List Nat
  position : Nat
  readPosition : Nat
  ch : Nat
  deriving DecidableEq, Repr

/-- isLetter: `a`..`z`, `A`..`Z` or `_`. -/
def isLetter (ch : Nat) : Bool :=
  (97 ≤ ch && ch ≤ 122) || (65 ≤ ch && ch ≤ 90) || ch == 95

/-- isDigit: `0`..`9`. -/
def isDigit (ch : Nat) : Bool :=
  48 ≤ ch && ch ≤ 57

/-- The loop condition of skipWhitespace: space, tab, newline, carriage return. -/
def isWhitespace (ch : Nat) : Bool :=
  ch == 32 || ch == 9 || ch == 10 || ch == 13

namespace Lexer

/-- readChar: load the next byte (0 at the end of the input) and advance both offsets. -/
def readChar (l : Lexer) : Lexer :=
  { input := l.input
    ch := if l.readPosition ≥ l.input.length then 0 else l.input.getD l.readPosition 0
    position := l.readPosition
    readPosition := l.readPosition + 1 }

/-- peekChar: the next byte, without moving. -/
def peekChar (l : Lexer) : Nat :=
  if l.readPosition ≥ l.input.length then 0 else l.input.getD l.readPosition 0

/-- The loop `for cond(l.ch) { l.readChar() }`, at most `n` iterations. -/
def readWhile (cond : Nat → Bool) : Nat → Lexer → Lexer
  | 0, l => l
  | n + 1, l => if cond l.ch then readWhile cond n l.readChar else l

/-- skipWhitespace; the loop ends within `len(input) + 1` iterations because the current
byte is 0 from the end of the input on. -/
def skipWhitespace (l : Lexer) : Lexer :=
  readWhile isWhitespace (l.input.length + 1) l

/-- The slice `l.input[start:stop]`. -/
def slice (input : List Nat) (start stop : Nat) : List Nat :=
  (input.drop start).take (stop - start)

/-- readIdentifier: advance over the letters, return them and the new state. -/
def readIdentifier (l : Lexer) : List Nat × Lexer :=
  let l1 := readWhile isLetter (l.input.length + 1) l
  (slice l.input l.position l1.position, l1)

/-- readNumber: advance over the digits, return them and the new state. -/
def readNumber (l : Lexer) : List Nat × Lexer :=
  let l1 := readWhile isDigit (l.input.length + 1) l
  (slice l.input l.position l1.position, l1)

/-- newToken: a token whose literal is `string(ch)`. -/
def newToken (tokenType : TokenType) (ch : Nat) : Token :=
  ⟨tokenType, utf8 ch⟩

/-- New: the lexer on `input`, its first byte loaded. -/
def New (input : List Nat) : Lexer :=
  readChar { input := input, position := 0, readPosition := 0, ch := 0 }

/-- NextToken: skip the whitespace, classify the current byte, and return the token with
the advanced lexer. -/
def NextToken (l0 : Lexer) : Token × Lexer :=
  let l := l0.skipWhitespace
  if l.ch = 61 then -- '='
    if l.peekChar = 61 then
      let l1 := l.readChar
      (⟨.EQ, utf8 l.ch ++ utf8 l1.ch⟩, l1.readChar)
    else (newToken .ASSIGN l.ch, l.readChar)
  else if l.ch = 43 then (newToken .PLUS l.ch, l.readChar) -- '+'
  else if l.ch = 45 then (newToken .MINUS l.ch, l.readChar) -- '-'
  else if l.ch = 33 then -- '!'
    if l.peekChar = 61 then
      let l1 := l.readChar
      (⟨.NOT_EQ, utf8 l.ch ++ utf8 l1.ch⟩, l1.readChar)
    else (newToken .BANG l.ch, l.readChar)
  else if l.ch = 47 then (newToken .SLASH l.ch, l.readChar) -- '/'
  else if l.ch = 42 then (newToken .ASTERISK l.ch, l.readChar) -- '*'
  else if l.ch = 60 then (newToken .LT l.ch, l.readChar) -- '<'
  else if l.ch = 62 then (newToken .GT l.ch, l.readChar) -- '>'
  else if l.ch = 59 then (newToken .SEMICOLON l.ch, l.readChar) -- ';'
  else if l.ch = 44 then (newToken .COMMA l.ch, l.readChar) -- ','
  else if l.ch = 40 then (newToken .LPAREN l.ch, l.readChar) -- '('
  else if l.ch = 41 then (newToken .RPAREN l.ch, l.readChar) -- ')'
  else if l.ch = 123 then (newToken .LBRACE l.ch, l.readChar) -- left brace
  else if l.ch = 125 then (newToken .RBRACE l.ch, l.readChar) -- right brace
  else if l.ch = 0 then (⟨.EOF, []⟩, l.readChar)
  else if isLetter l.ch then
    let r := l.readIdentifier
    (⟨LookupIdent r.1, r.1⟩, r.2)
  else if isDigit l.ch then
    let r := l.readNumber
    (⟨.INT, r.1⟩, r.2)
  else (newToken .ILLEGAL l.ch, l.readChar)

end Lexer

/-! ## pkg/ast -/

/-- The node `ast.Identifier`. -/
structure Identifier where
  Token : Token
  Value : List Nat
  deriving DecidableEq, Repr

/-- A value of the interface `ast.Expression`: the nil interface, or one of the four
expression nodes. -/
inductive Expression
  | nil
  | Identifier (Token : Token) (Value : List Nat)
  | IntegerLiteral (Token : Token) (Value : Int)
  | PrefixExpression (Token : Token) (Operator : List Nat) (Right : Expression)
  | InfixExpression (Token : Token) (Left : Expression) (Operator : List Nat)
      (Right : Expression)
  deriving DecidableEq, Repr

/-- A value of the interface `ast.Statement`: the nil interface, a `*LetStatement` (whose
`Name` pointer may be nil), a nil `*LetStatement` stored in the interface (in Go such an
interface value is not equal to nil), or an `*ExpressionStatement`. -/
inductive Statement
  | nil
  | LetStatement (Token : Token) (Name : Option Identifier) (Value : Expression)
  | nilLetStatement
  | ExpressionStatement (Token : Token) (Expression : Expression)
  deriving DecidableEq, Repr

/-- The root node: the list of statements. -/
structure Program where
  Statements : List Statement
  deriving DecidableEq, Repr

/-- String of an expression node; `none` is the nil dereference of a missing operand. -/
def Expression.String : Expression → Option (List Nat)
  | .nil => none
  | .Identifier _ v => some v
  | .IntegerLiteral tok _ => some tok.Literal
  | .PrefixExpression _ op right =>
    match right.String with
    | none => none
    | some r => some (bytesOf "(" ++ op ++ r ++ bytesOf ")")
  | .InfixExpression _ left op right =>
    match left.String with
    | none => none
    | some l =>
      match right.String with
      | none => none
      | some r => some (bytesOf "(" ++ l ++ (bytesOf " " ++ op ++ bytesOf " ") ++ r ++ bytesOf ")")

/-- String of a statement; `none` is a nil dereference. -/
def Statement.String : Statement → Option (List Nat)
  | .nil => none
  | .nilLetStatement => none
  | .LetStatement tok name value =>
    match name with
    | none => none
    | some n =>
      if value ≠ .nil then
        match value.String with
        | none => none
        | some v => some (tok.Literal ++ bytesOf " " ++ n.Value ++ bytesOf " = " ++ v ++ bytesOf ";")
      else some (tok.Literal ++ bytesOf " " ++ n.Value ++ bytesOf " = " ++ bytesOf ";")
  | .ExpressionStatement _ e =>
    if e ≠ .nil then e.String else some []

/-- The concatenation of the statements' strings, left to right. -/
def stringsConcat : List Statement → Option (List Nat)
  | [] => some []
  | s :: rest =>
    match s.String with
    | none => none
    | some a =>
      match stringsConcat rest with
      | none => none
      | some b => some (a ++ b)

/-- String of a program. -/
def Program.String (p : Program) : Option (List Nat) :=
  stringsConcat p.Statements

/-! ## pkg/parser -/

/-- The loop of `strconv.ParseUint` over the digits of a number in base `base`, with its
overflow checks for 64 bits; `none` is an error (syntax or range). -/
def parseUintLoop (base : Nat) : List Nat → Nat → Option Nat
  | [], n => some n
  | c :: cs, n =>
    if isDigit c then
      if c - 48 ≥ base then none
      else if n ≥ (2 ^ 64 - 1) / base + 1 then none
      else if n * base + (c - 48) ≥ 2 ^ 64 then none
      else parseUintLoop base cs (n * base + (c - 48))
    else none

/-- The call `strconv.ParseInt(s, 0, 64)` of the Go standard library, on the literals the
lexer produces, which are runs of decimal digits: a leading `0` selects base 8 for the
digits after it, any other first digit base 10; a digit outside the base and a value
from `2^63` on are errors (`none`).  A string with a byte that is not a decimal digit is
never passed by the parser and is reported as an error here. -/
def ParseInt (s : List Nat) : Option Int :=
  match s with
  | [] => none
  | c :: cs =>
    match (if c = 48 then parseUintLoop 8 cs 0 else parseUintLoop 10 (c :: cs) 0) with
    | none => none
    | some un => if un ≥ 2 ^ 63 then none else some (Int.ofNat un)

/-- The precedence levels. -/
def LOWEST : Nat := 1
def EQUALS : Nat := 2
def LESSGREATER : Nat := 3
def SUM : Nat := 4
def PRODUCT : Nat := 5
def PREFIX : Nat := 6
def CALL : Nat := 7

/-- The map `precedences`. -/
def precedences : TokenType → Option Nat
  | .EQ => some EQUALS
  | .NOT_EQ => some EQUALS
  | .LT => some LESSGREATER
  | .GT => some LESSGREATER
  | .PLUS => some SUM
  | .MINUS => some SUM
  | .SLASH => some PRODUCT
  | .ASTERISK => some PRODUCT
  | _ => none

/-- The parser state; the two handler maps are fixed after `New` and are the functions
`prefixParseFns` and `infixParseFns` below. -/
structure Parser where
  lex : Lexer
  errors : List (List Nat)
  curToken : Token
  peekToken : Token
  deriving DecidableEq, Repr

/-- The result of a parsing function: a node and the parser state after it. -/
abbrev Parsed (α : Type) := Option (α × Parser)

namespace Parser

/-- nextToken: shift the lookahead and pull one token from the lexer. -/
def nextToken (p : Parser) : Parser :=
  { lex := p.lex.NextToken.2
    errors := p.errors
    curToken := p.peekToken
    peekToken := p.lex.NextToken.1 }

def curTokenIs (p : Parser) (t : TokenType) : Bool := p.curToken.Typ == t

def peekTokenIs (p : Parser) (t : TokenType) : Bool := p.peekToken.Typ == t

/-- peekError: append the expect-token message. -/
def peekError (p : Parser) (t : TokenType) : Parser :=
  { p with errors := p.errors ++
      [bytesOf "expected next token to be " ++ t.str ++ bytesOf ", got " ++
        p.peekToken.Typ.str ++ bytesOf " instead"] }

/-- expectPeek: advance when the next token has kind `t`, else record the error. -/
def expectPeek (p : Parser) (t : TokenType) : Bool × Parser :=
  if p.peekTokenIs t then (true, p.nextToken) else (false, p.peekError t)

/-- noPrefixParseFnError. -/
def noPrefixParseFnError (p : Parser) (t : TokenType) : Parser :=
  { p with errors := p.errors ++
      [bytesOf "no prefix parse function for " ++ t.str ++ bytesOf " found"] }

def peekPrecedence (p : Parser) : Nat :=
  match precedences p.peekToken.Typ with
  | some x => x
  | none => LOWEST

def curPrecedence (p : Parser) : Nat :=
  match precedences p.curToken.Typ with
  | some x => x
  | none => LOWEST

/-- parseIdentifier. -/
def parseIdentifier (p : Parser) : Parsed Expression :=
  some (.Identifier p.curToken p.curToken.Literal, p)

/-- parseIntegerLiteral; the `%q` of a run of digits is the run between double quotes. -/
def parseIntegerLiteral (p : Parser) : Parsed Expression :=
  match ParseInt p.curToken.Literal with
  | none =>
    some (.nil, { p with errors := p.errors ++
      [bytesOf "could not parse " ++ ([34] ++ p.curToken.Literal ++ [34]) ++
        bytesOf " as integer"] })
  | some value => some (.IntegerLiteral p.curToken value, p)

/-- parsePrefixExpression; `parseExpression` is the recursive call. -/
def parsePrefixExpression (parseExpression : Nat → Parser → Parsed Expression)
    (p : Parser) : Parsed Expression :=
  match parseExpression PREFIX p.nextToken with
  | none => none
  | some (right, p1) => some (.PrefixExpression p.curToken p.curToken.Literal right, p1)

/-- parseInfixExpression; `parseExpression` is the recursive call. -/
def parseInfixExpression (parseExpression : Nat → Parser → Parsed Expression)
    (left : Expression) (p : Parser) : Parsed Expression :=
  match parseExpression p.curPrecedence p.nextToken with
  | none => none
  | some (right, p1) => some (.InfixExpression p.curToken left p.curToken.Literal right, p1)

/-- parseGroupedExpression; `parseExpression` is the recursive call. -/
def parseGroupedExpression (parseExpression : Nat → Parser → Parsed Expression)
    (p : Parser) : Parsed Expression :=
  match parseExpression LOWEST p.nextToken with
  | none => none
  | some (exp, p1) =>
    if (p1.expectPeek .RPAREN).1 then some (exp, (p1.expectPeek .RPAREN).2)
    else some (.nil, (p1.expectPeek .RPAREN).2)

/-- The map `prefixParseFns` as registered by `New`. -/
def prefixParseFns (parseExpression : Nat → Parser → Parsed Expression) :
    TokenType → Option (Parser → Parsed Expression)
  | .IDENT => some parseIdentifier
  | .INT => some parseIntegerLiteral
  | .BANG => some (parsePrefixExpression parseExpression)
  | .MINUS => some (parsePrefixExpression parseExpression)
  | .LPAREN => some (parseGroupedExpression parseExpression)
  | _ => none

/-- The map `infixParseFns` as registered by `New`. -/
def infixParseFns (parseExpression : Nat → Parser → Parsed Expression) :
    TokenType → Option (Expression → Parser → Parsed Expression)
  | .PLUS => some (parseInfixExpression parseExpression)
  | .MINUS => some (parseInfixExpression parseExpression)
  | .SLASH => some (parseInfixExpression parseExpression)
  | .ASTERISK => some (parseInfixExpression parseExpression)
  | .EQ => some (parseInfixExpression parseExpression)
  | .NOT_EQ => some (parseInfixExpression parseExpression)
  | .LT => some (parseInfixExpression parseExpression)
  | .GT => some (parseInfixExpression parseExpression)
  | _ => none

mutual
/-- parseExpression with recursion budget `fuel`: the handler of the current token, then
the loop over the infix operators that bind tighter than `precedence`. -/
def parseExpression : Nat → Nat → Parser → Parsed Expression
  | 0, _, _ => none
  | fuel + 1, precedence, p =>
    match prefixParseFns (parseExpression fuel) p.curToken.Typ with
    | none => some (.nil, p.noPrefixParseFnError p.curToken.Typ)
    | some handler =>
      match handler p with
      | none => none
      | some (leftExp, p1) => parseExpressionLoop fuel precedence leftExp p1
/-- The `for` loop of parseExpression. -/
def parseExpressionLoop : Nat → Nat → Expression → Parser → Parsed Expression
  | 0, _, _, _ => none
  | fuel + 1, precedence, leftExp, p =>
    if !p.peekTokenIs .SEMICOLON && precedence < p.peekPrecedence then
      match infixParseFns (parseExpression fuel) p.peekToken.Typ with
      | none => some (leftExp, p)
      | some handler =>
        match handler leftExp p.nextToken with
        | none => none
        | some (leftExp1, p1) => parseExpressionLoop fuel precedence leftExp1 p1
    else some (leftExp, p)
end

/-- parseLetStatement with the budget `fuel` for its expression.  A failed expectPeek
returns the nil `*LetStatement`. -/
def parseLetStatement (fuel : Nat) (p : Parser) : Parsed Statement :=
  if (p.expectPeek .IDENT).1 then
    let p1 := (p.expectPeek .IDENT).2
    if (p1.expectPeek .ASSIGN).1 then
      let p2 := (p1.expectPeek .ASSIGN).2
      match parseExpression fuel LOWEST p2.nextToken with
      | none => none
      | some (value, p3) =>
        some (.LetStatement p.curToken (some ⟨p1.curToken, p1.curToken.Literal⟩) value,
          if p3.peekTokenIs .SEMICOLON then p3.nextToken else p3)
    else some (.nilLetStatement, (p1.expectPeek .ASSIGN).2)
  else some (.nilLetStatement, (p.expectPeek .IDENT).2)

/-- parseExpressionStatement with the budget `fuel` for its expression. -/
def parseExpressionStatement (fuel : Nat) (p : Parser) : Parsed Statement :=
  match parseExpression fuel LOWEST p with
  | none => none
  | some (e, p1) =>
    some (.ExpressionStatement p.curToken e,
      if p1.peekTokenIs .SEMICOLON then p1.nextToken else p1)

/-- parseStatement: the result of either rule, converted to the Statement interface. -/
def parseStatement (fuel : Nat) (p : Parser) : Parsed Statement :=
  if p.curToken.Typ = .LET then parseLetStatement fuel p
  else parseExpressionStatement fuel p

/-- The statement loop of ParseProgram: at most `n` iterations, each statement parsed with
the budget `fuel`. -/
def parseProgramLoop (fuel : Nat) : Nat → List Statement → Parser → Parsed (List Statement)
  | 0, _, _ => none
  | n + 1, statements, p =>
    if p.curToken.Typ ≠ .EOF then
      match parseStatement fuel p with
      | none => none
      | some (stmt, p1) =>
        parseProgramLoop fuel n (if stmt ≠ .nil then statements ++ [stmt] else statements)
          p1.nextToken
    else some (statements, p)

/-- New: the parser on a lexer, both lookahead tokens loaded.  (The two zero tokens of
the fresh struct are overwritten by the two calls of nextToken.) -/
def New (lex : Lexer) : Parser :=
  nextToken (nextToken
    { lex := lex, errors := [], curToken := ⟨.ILLEGAL, []⟩, peekToken := ⟨.ILLEGAL, []⟩ })

/-- The recursion budget given to ParseProgram: twice the input length plus eight.  It is
never used up (see `Parser.parse_total`). -/
def budget (p : Parser) : Nat := 2 * p.lex.input.length + 8

/-- ParseProgram: the program and the parser state after it (which holds `Errors()`). -/
def ParseProgram (p : Parser) : Option (Program × Parser) :=
  match parseProgramLoop (budget p) (budget p) [] p with
  | none => none
  | some (statements, p1) => some (⟨statements⟩, p1)

/-- Errors. -/
def Errors (p : Parser) : List (List Nat) := p.errors

end Parser

/-- Lexing and parsing a source text, as the REPL does: the program and `Errors()`. -/
def parse (src : List Nat) : Option (Program × List (List Nat)) :=
  match (Parser.New (Lexer.New src)).ParseProgram with
  | none => none
  | some (program, p) => some (program, p.Errors)

/-! ## pkg/object -/

/-- A value of the interface `object.Object`: the nil interface, or one of the three
objects.  An `Integer` holds an int64, embedded as an `Int` in `[-2^63, 2^63)`. -/
inductive Object
  | nil
  | Integer (Value : Int)
  | Error (Message : List Nat)
  | ReturnValue (Value : Object)
  deriving DecidableEq, Repr

/-- The method `Type()`; `none` is the panic of a call on the nil interface. -/
def Object.Typ : Object → Option (List Nat)
  | .nil => none
  | .Integer _ => some (bytesOf "INTEGER")
  | .Error _ => some (bytesOf "ERROR")
  | .ReturnValue _ => some (bytesOf "RETURN_VALUE")

/-- The decimal text of an integer, as the verb `%d` prints it. -/
def formatInt (v : Int) : List Nat :=
  if v < 0 then 45 :: (Nat.toDigits 10 v.natAbs).map Char.toNat
  else (Nat.toDigits 10 v.toNat).map Char.toNat

/-- The method `Inspect()`; `none` is the panic of a call on the nil interface. -/
def Object.Inspect : Object → Option (List Nat)
  | .nil => none
  | .Integer v => some (formatInt v)
  | .Error m => some (bytesOf "ERROR: " ++ m)
  | .ReturnValue v => v.Inspect

/-- The map `store`: at most one entry per name. -/
abbrev Store := List (List Nat × Object)

/-- The environment: its own bindings and the enclosing environment (`none` is nil). -/
inductive Environment
  | mk (store : Store) (outer : Option Environment)
  deriving Repr

namespace Environment

/-- NewEnvironment. -/
def NewEnvironment (env : Option Environment) : Environment := .mk [] env

def store : Environment → Store
  | .mk s _ => s

def outer : Environment → Option Environment
  | .mk _ o => o

/-- Get: `some obj` when the name is bound in this scope or in an enclosing one (the `ok`
of the Go result), `none` when it is not. -/
def Get : Environment → List Nat → Option Object
  | .mk store outer, name =>
    match store.lookup name with
    | some obj => some obj
    | none =>
      match outer with
      | none => none
      | some o => o.Get name

/-- Set: write the binding into this scope, replacing the entry of the same name. -/
def Set : Environment → List Nat → Object → Environment
  | .mk store outer, name, val => .mk ((name, val) :: store.filter (fun kv => kv.1 != name)) outer

end Environment

/-! ## pkg/evaluator -/

/-- Reduction of an integer to the int64 range (two's complement wrap-around). -/
def wrap64 (x : Int) : Int := (x + 2 ^ 63) % 2 ^ 64 - 2 ^ 63

/-- The formatting `fmt.Sprintf(format, operands...)` with string operands, for the verbs
`%s` and `%%`; a verb without an operand prints as `%!c(MISSING)` and a `%` that ends the
format as `%!(NOVERB)`.  (Flags, widths and indexes after a `%` are outside this model; no
format constant of the evaluator has them.) -/
def Sprintf : List Nat → List (List Nat) → List Nat
  | [], _ => []
  | [c], _ => if c = 37 then bytesOf "%!(NOVERB)" else [c]
  | c :: d :: rest, operands =>
    if c = 37 then
      if d = 37 then 37 :: Sprintf rest operands
      else
        match operands with
        | [] => bytesOf "%!" ++ [d] ++ bytesOf "(MISSING)" ++ Sprintf rest []
        | a :: more => a ++ Sprintf rest more
    else c :: Sprintf (d :: rest) operands

/-- newError. -/
def newError (format : List Nat) (a : List (List Nat)) : Object :=
  .Error (Sprintf format a)

/-- isError: not nil and of type ERROR. -/
def isError : Object → Bool
  | .Error _ => true
  | _ => false

/-- evalBangOperatorExpression; `none` is the panic of `Type()` on nil. -/
def evalBangOperatorExpression (right : Object) : Option Object :=
  match right.Typ with
  | none => none
  | some t => some (newError (bytesOf "unknown operator: !%s") [t])

/-- evalMinusPrefixOperatorExpression; the negation is that of int64. -/
def evalMinusPrefixOperatorExpression (right : Object) : Option Object :=
  match right with
  | .Integer value => some (.Integer (wrap64 (-value)))
  | _ =>
    match right.Typ with
    | none => none
    | some t => some (newError (bytesOf "unknown operator: -%s") [t])

/-- evalPrefixExpression. -/
def evalPrefixExpression (operator : List Nat) (right : Object) : Option Object :=
  if operator = bytesOf "!" then evalBangOperatorExpression right
  else if operator = bytesOf "-" then evalMinusPrefixOperatorExpression right
  else
    match right.Typ with
    | none => none
    | some t => some (newError (bytesOf "unknown operator: %s%s") [operator, t])

/-- evalIntegerInfixExpression on the two int64 values; `none` is the runtime panic of an
integer division by zero.  Go's `/` truncates toward zero. -/
def evalIntegerInfixExpression (operator : List Nat) (leftVal rightVal : Int) :
    Option Object :=
  if operator = bytesOf "+" then some (.Integer (wrap64 (leftVal + rightVal)))
  else if operator = bytesOf "-" then some (.Integer (wrap64 (leftVal - rightVal)))
  else if operator = bytesOf "*" then some (.Integer (wrap64 (leftVal * rightVal)))
  else if operator = bytesOf "/" then
    if rightVal = 0 then none else some (.Integer (wrap64 (Int.tdiv leftVal rightVal)))
  else some (newError (bytesOf "unknown operator: %s %s %s")
    [bytesOf "INTEGER", operator, bytesOf "INTEGER"])

/-- evalInfixExpression; `none` is a panic (`Type()` on nil, or division by zero). -/
def evalInfixExpression (operator : List Nat) (left right : Object) : Option Object :=
  match left, right with
  | .Integer a, .Integer b => evalIntegerInfixExpression operator a b
  | _, _ =>
    match left.Typ, right.Typ with
    | some lt, some rt => some (newError (bytesOf "type mismatch: %s %s %s") [lt, operator, rt])
    | _, _ => none

/-- evalIdentifier. -/
def evalIdentifier (name : List Nat) (env : Environment) : Object :=
  match env.Get name with
  | some val => val
  | none => newError (bytesOf "identifier not found: " ++ name) []

/-- The result of an evaluation: the object returned and the environment afterwards;
`none` is a runtime panic. -/
abbrev Evaluated := Option (Object × Environment)

/-- Eval on an expression node (the nil interface falls to the `default` case). -/
def EvalExpression : Expression → Environment → Evaluated
  | .nil, env => some (.nil, env)
  | .IntegerLiteral _ value, env => some (.Integer value, env)
  | .Identifier _ name, env => some (evalIdentifier name env, env)
  | .PrefixExpression _ operator right, env =>
    match EvalExpression right env with
    | none => none
    | some (r, env1) =>
      if isError r then some (r, env1)
      else
        match evalPrefixExpression operator r with
        | none => none
        | some v => some (v, env1)
  | .InfixExpression _ left operator right, env =>
    match EvalExpression left env with
    | none => none
    | some (l, env1) =>
      if isError l then some (l, env1)
      else
        match EvalExpression right env1 with
        | none => none
        | some (r, env2) =>
          if isError r then some (r, env2)
          else
            match evalInfixExpression operator l r with
            | none => none
            | some v => some (v, env2)

/-- Eval on a statement node. -/
def EvalStatement : Statement → Environment → Evaluated
  | .nil, env => some (.nil, env)
  | .nilLetStatement, _ => none
  | .ExpressionStatement _ e, env => EvalExpression e env
  | .LetStatement _ name value, env =>
    match EvalExpression value env with
    | none => none
    | some (val, env1) =>
      if isError val then some (val, env1)
      else
        match name with
        | none => none
        | some n => some (.nil, env1.Set n.Value val)

/-- The loop of evalProgram, `result` being the object of the last statement so far. -/
def evalProgramLoop : Object → List Statement → Environment → Evaluated
  | result, [], env => some (result, env)
  | _, statement :: rest, env =>
    match EvalStatement statement env with
    | none => none
    | some (.ReturnValue v, env1) => some (v, env1)
    | some (.Error m, env1) => some (.Error m, env1)
    | some (r, env1) => evalProgramLoop r rest env1

/-- evalProgram. -/
def evalProgram (stmts : List Statement) (env : Environment) : Evaluated :=
  evalProgramLoop .nil stmts env

/-- The argument of Eval: a value of the interface `ast.Node`. -/
inductive Node
  | Program (p : Program)
  | Statement (s : Statement)
  | Expression (e : Expression)

/-- Eval. -/
def Eval : Node → Environment → Evaluated
  | .Program p, env => evalProgram p.Statements env
  | .Statement s, env => EvalStatement s env
  | .Expression e, env => EvalExpression e env

/-! ## pkg/repl -/

/-- The prompt. -/
def PROMPT : List Nat := bytesOf ">> "

/-- printParserErrors: each message on a line of its own after a tab. -/
def printParserErrors (errors : List (List Nat)) : List Nat :=
  errors.flatMap (fun msg => bytesOf "\t" ++ msg ++ bytesOf "\n")

/-- The loop of Start over the lines that the scanner delivers, with the environment and
the output written so far; the result is the whole output and the environment at the end of
the input.  `none` is a runtime panic. -/
def startLoop : List (List Nat) → Environment → List Nat → Option (List Nat × Environment)
  | [], env, out => some (out ++ PROMPT, env)
  | line :: rest, env, out =>
    match parse line with
    | none => none
    | some (program, errors) =>
      if errors.length ≠ 0 then
        startLoop rest env (out ++ PROMPT ++ printParserErrors errors)
      else
        match program.String with
        | none => none
        | some text =>
          match Eval (.Program program) env with
          | none => none
          | some (evaluated, env1) =>
            if evaluated ≠ .nil then
              match evaluated.Inspect with
              | none => none
              | some shown =>
                startLoop rest env1
                  (out ++ PROMPT ++ text ++ bytesOf "\n" ++ shown ++ bytesOf "\n")
            else startLoop rest env1 (out ++ PROMPT ++ text ++ bytesOf "\n")

/-- Start on the lines of the input: the output and the environment at the end. -/
def Start (lines : List (List Nat)) : Option (List Nat × Environment) :=
  startLoop lines (Environment.NewEnvironment none) []

/-! ## Auxiliary definitions of the proofs -/

namespace Lexer

/-- The cursor invariant: the next offset follows the current one, and the current byte is
the byte at the current offset (0 past the end). -/
def Inv (l : Lexer) : Prop :=
  l.readPosition = l.position + 1 ∧ l.ch = l.input.getD l.position 0

/-- The lexer stands before the text `s`: the invariant holds and `s` is the input from the
current offset on. -/
def At (l : Lexer) (s : List Nat) : Prop :=
  l.Inv ∧ l.input.drop l.position = s

end Lexer

/-- The first token of the text `s` and the text after it: the function that NextToken
computes on the unread part of the input (see `Lexer.At.NextToken_scan`). -/
def scan (s : List Nat) : Token × List Nat :=
  match s.dropWhile isWhitespace with
  | [] => (⟨.EOF, []⟩, [])
  | c :: r =>
    if c = 61 then
      if r.headD 0 = 61 then (⟨.EQ, [61, 61]⟩, r.tail) else (⟨.ASSIGN, [61]⟩, r)
    else if c = 43 then (⟨.PLUS, [43]⟩, r)
    else if c = 45 then (⟨.MINUS, [45]⟩, r)
    else if c = 33 then
      if r.headD 0 = 61 then (⟨.NOT_EQ, [33, 61]⟩, r.tail) else (⟨.BANG, [33]⟩, r)
    else if c = 47 then (⟨.SLASH, [47]⟩, r)
    else if c = 42 then (⟨.ASTERISK, [42]⟩, r)
    else if c = 60 then (⟨.LT, [60]⟩, r)
    else if c = 62 then (⟨.GT, [62]⟩, r)
    else if c = 59 then (⟨.SEMICOLON, [59]⟩, r)
    else if c = 44 then (⟨.COMMA, [44]⟩, r)
    else if c = 40 then (⟨.LPAREN, [40]⟩, r)
    else if c = 41 then (⟨.RPAREN, [41]⟩, r)
    else if c = 123 then (⟨.LBRACE, [123]⟩, r)
    else if c = 125 then (⟨.RBRACE, [125]⟩, r)
    else if c = 0 then (⟨.EOF, []⟩, r)
    else if isLetter c then
      (⟨LookupIdent ((c :: r).takeWhile isLetter), (c :: r).takeWhile isLetter⟩,
        (c :: r).dropWhile isLetter)
    else if isDigit c then
      (⟨.INT, (c :: r).takeWhile isDigit⟩, (c :: r).dropWhile isDigit)
    else (⟨.ILLEGAL, utf8 c⟩, r)

namespace Parser

/-- The lookahead token is the first token of the text `s`, and the lexer stands after it. -/
def PeekAt (p : Parser) (s : List Nat) : Prop :=
  p.peekToken = (scan s).1 ∧ p.lex.At (scan s).2

/-- The current token is the first token of the text `s`, the lookahead the second. -/
def CurAt (p : Parser) (s : List Nat) : Prop :=
  p.curToken = (scan s).1 ∧ p.PeekAt (scan s).2

end Parser

/-- The value of a string of digits read in base `base`, from the accumulator `acc`. -/
def digitsValue (base : Nat) (acc : Nat) (s : List Nat) : Nat :=
  s.foldl (fun a c => a * base + (c - 48)) acc

/-- The decimal value of a string of decimal digits. -/
def decimalValue (s : List Nat) : Nat := digitsValue 10 0 s

/-- The text is a non-keyword identifier: a non-empty run of letters other than `fn` and
`let`. -/
def IsIdentText (a : List Nat) : Prop :=
  a ≠ [] ∧ (∀ c ∈ a, isLetter c = true) ∧ LookupIdent a = .IDENT

/-- The text is a parseable integer literal with value `v`: a non-empty run of digits that
ParseInt accepts. -/
def IsIntText (a : List Nat) (v : Int) : Prop :=
  a ≠ [] ∧ (∀ c ∈ a, isDigit c = true) ∧ ParseInt a = some v

/-- The text `a` is an atomic operand and `e` is its node. -/
def IsAtom (a : List Nat) (e : Expression) : Prop :=
  (IsIdentText a ∧ e = .Identifier ⟨.IDENT, a⟩ a) ∨
  (∃ v, IsIntText a v ∧ e = .IntegerLiteral ⟨.INT, a⟩ v)

/-- The text starts with neither a letter nor a digit (or is empty). -/
def Delimited (s : List Nat) : Prop :=
  isLetter (s.headD 0) = false ∧ isDigit (s.headD 0) = false

/-- The statements `pre` run to completion from `env`: each is evaluated in the environment
left by the one before, none panics, none yields an Error or a ReturnValue; the result is
the environment after the last one. -/
def runThrough : List Statement → Environment → Option Environment
  | [], env => some env
  | s :: rest, env =>
    match EvalStatement s env with
    | none => none
    | some (.ReturnValue _, _) => none
    | some (.Error _, _) => none
    | some (_, env1) => runThrough rest env1

/-- The statements of a source text (empty when the budget of the parser runs out). -/
def statementsOf (src : String) : List Statement :=
  match parse (bytesOf src) with
  | some (program, _) => program.Statements
  | none => []

/-- The identifier node of a name. -/
def ident (name : String) : Expression :=
  .Identifier ⟨.IDENT, bytesOf name⟩ (bytesOf name)

/-- The integer literal node of a literal text and its value. -/
def intLit (text : String) (value : Int) : Expression :=
  .IntegerLiteral ⟨.INT, bytesOf text⟩ value

/-- The infix node of an operator token kind, whose literal is the kind's string. -/
def binop (op : TokenType) (left right : Expression) : Expression :=
  .InfixExpression ⟨op, op.str⟩ left op.str right

/-- The prefix node of an operator token kind. -/
def unop (op : TokenType) (right : Expression) : Expression :=
  .PrefixExpression ⟨op, op.str⟩ op.str right

/-- The let statement node of a name and a value. -/
def letStmt (name : String) (value : Expression) : Statement :=
  .LetStatement ⟨.LET, bytesOf "let"⟩ (some ⟨⟨.IDENT, bytesOf name⟩, bytesOf name⟩) value

/-- The fresh environment of the REPL. -/
def freshEnv : Environment := Environment.NewEnvironment none

/-- The text is an atomic operand: a non-keyword identifier or a parseable integer
literal. -/
def IsOperand (a : List Nat) : Prop :=
  IsIdentText a ∨ ∃ v, IsIntText a v

/-- The token is one of the two prefix operators as the lexer produces it. -/
def IsPrefixToken (t : Token) : Prop :=
  (t.Typ = .BANG ∨ t.Typ = .MINUS) ∧ t.Literal = t.Typ.str

/-- The token is one of the eight infix operators as the lexer produces it. -/
def IsInfixToken (t : Token) : Prop :=
  (precedences t.Typ).isSome = true ∧ t.Literal = t.Typ.str

/-- The expression is one that the parser builds from lexer tokens without an error: no
nil operand, identifiers and literals carry their token's text, operators their token's
literal. -/
def WellFormed : Expression → Prop
  | .nil => False
  | .Identifier tok v => tok = ⟨.IDENT, v⟩ ∧ IsIdentText v
  | .IntegerLiteral tok v => tok.Typ = .INT ∧ IsIntText tok.Literal v
  | .PrefixExpression tok op r => IsPrefixToken tok ∧ op = tok.Literal ∧ WellFormed r
  | .InfixExpression tok l op r =>
    IsInfixToken tok ∧ op = tok.Literal ∧ WellFormed l ∧ WellFormed r

/-- The statement is one that the parser builds without an error. -/
def StatementOK : Statement → Prop
  | .nil => False
  | .nilLetStatement => False
  | .LetStatement tok name value =>
    tok.Typ = .LET ∧ (∃ x, name = some ⟨⟨.IDENT, x⟩, x⟩ ∧ IsIdentText x) ∧ WellFormed value
  | .ExpressionStatement _ e => WellFormed e

/-- The text of an expression: its `String()`, with nothing for a nil operand. -/
def Expression.text : Expression → List Nat
  | .nil => []
  | .Identifier _ v => v
  | .IntegerLiteral tok _ => tok.Literal
  | .PrefixExpression _ op right => bytesOf "(" ++ op ++ right.text ++ bytesOf ")"
  | .InfixExpression _ left op right =>
    bytesOf "(" ++ left.text ++ (bytesOf " " ++ op ++ bytesOf " ") ++ right.text ++ bytesOf ")"

/-- The nesting depth of an expression. -/
def Expression.depth : Expression → Nat
  | .nil => 0
  | .Identifier _ _ => 0
  | .IntegerLiteral _ _ => 0
  | .PrefixExpression _ _ right => right.depth + 1
  | .InfixExpression _ left _ right => max left.depth right.depth + 1

/-- The token is one the lexer produces: an identifier token carries a non-keyword run of
letters, an integer token a run of digits, an operator token its own text. -/
def TokenOK (t : Token) : Prop :=
  (t.Typ = .IDENT → IsIdentText t.Literal) ∧
  (t.Typ = .INT → t.Literal ≠ [] ∧ ∀ c ∈ t.Literal, isDigit c = true) ∧
  (t.Typ = .LET → t.Literal = bytesOf "let") ∧
  ((precedences t.Typ).isSome = true ∨ t.Typ = .BANG → t.Literal = t.Typ.str)

/-- The invariant of the parser: the cursor invariant of its lexer, and two lookahead
tokens that the lexer produced. -/
def Parser.Inv (p : Parser) : Prop :=
  p.lex.Inv ∧ TokenOK p.curToken ∧ TokenOK p.peekToken

namespace Parser

/-- What a parsing function that came back promises: the invariant again, errors only
appended, and a good result when none was appended. -/
def Sound {α : Type} (good : α → Prop) (p : Parser) (r : α × Parser) : Prop :=
  r.2.Inv ∧ ∃ extra, r.2.errors = p.errors ++ extra ∧ (extra = [] → good r.1)

/-- The recursive call keeps the promise. -/
def SoundCall (pe : Nat → Parser → Parsed Expression) : Prop :=
  ∀ (precedence : Nat) (p : Parser) (r : Expression × Parser), p.Inv →
    pe precedence p = some r → Sound WellFormed p r

end Parser

/-- The weight of a token in the measure of the parser: nothing for the end of the input. -/
def tokenWeight (t : Token) : Nat := if t.Typ = .EOF then 0 else 1

namespace Parser

/-- The measure of what is left to parse: the two lookahead tokens and the unread bytes. -/
def weight (p : Parser) : Nat :=
  tokenWeight p.curToken + tokenWeight p.peekToken + (p.lex.input.length - p.lex.position)

/-- From `p` to `q` the parser did not go back, and it went forward unless it still stands
at the same current token (which is not the end of the input). -/
def Progress (p q : Parser) : Prop :=
  q.weight ≤ p.weight ∧
    (p.curToken.Typ ≠ .EOF → (q.curToken = p.curToken ∧ q.weight = p.weight) ∨
      q.weight + 1 ≤ p.weight)

/-- The recursive call returns on every state of weight up to `b`. -/
def TotalCall (pe : Nat → Parser → Parsed Expression) (b : Nat) : Prop :=
  ∀ (precedence : Nat) (q : Parser), q.Inv → q.weight ≤ b →
    ∃ r, pe precedence q = some r ∧ r.2.Inv ∧ Progress q r.2

end Parser

namespace Lexer

/-- The lexer after `n` calls of NextToken. -/
def afterCalls : Nat → Lexer → Lexer
  | 0, l => l
  | n + 1, l => (afterCalls n l).NextToken.2

/-- The token that call number `n` of NextToken returns, the first call being number 0. -/
def tokenAt (l : Lexer) (n : Nat) : Token :=
  (afterCalls n l).NextToken.1

end Lexer

/-- The bytes that NextToken classifies by themselves: the operators and delimiters. -/
def specialBytes : List Nat :=
  [61, 43, 45, 33, 47, 42, 60, 62, 59, 44, 40, 41, 123, 125]

/-- The scopes of an environment chain, the innermost first. -/
def Environment.scopes : Environment → List Store
  | .mk store none => [store]
  | .mk store (some o) => store :: o.scopes

/-- The expression holds no nil node. -/
def Expression.noNil : Expression → Bool
  | .nil => false
  | .Identifier _ _ => true
  | .IntegerLiteral _ _ => true
  | .PrefixExpression _ _ right => right.noNil
  | .InfixExpression _ left _ right => left.noNil && right.noNil

/-- The statement is no nil statement and holds no nil node: a let statement has a name and
a value without nil node, an expression statement an expression without nil node. -/
def Statement.noNil : Statement → Bool
  | .nil => false
  | .nilLetStatement => false
  | .LetStatement _ name value => name.isSome && value.noNil
  | .ExpressionStatement _ e => e.noNil

/-- The text of a statement: its `String()`, with nothing for a nil statement. -/
def Statement.text : Statement → List Nat
  | .LetStatement tok (some name) value =>
    tok.Literal ++ bytesOf " " ++ name.Value ++ bytesOf " = " ++ value.text ++ bytesOf ";"
  | .ExpressionStatement _ e => e.text
  | _ => []

/-- The text `a` can be followed by the text `b` without the last token of `a` and the
first token of `b` running together: not a letter after a letter, not a digit after a
digit. -/
def Separable (a b : List Nat) : Bool :=
  !(isLetter (a.getLastD 0) && isLetter (b.headD 0)) &&
    !(isDigit (a.getLastD 0) && isDigit (b.headD 0))

/-- Each text of the list can be followed by the next one. -/
def SeparableTexts : List (List Nat) → Bool
  | a :: b :: rest => Separable a b && SeparableTexts (b :: rest)
  | _ => true

/-- The text `s` may follow the text of the expression `e`: no letter after an identifier,
no digit after an integer literal. -/
def Boundary : Expression → List Nat → Prop
  | .Identifier _ _, s => isLetter (s.headD 0) = false
  | .IntegerLiteral _ _, s => isDigit (s.headD 0) = false
  | _, _ => True

/-- Every value bound in a scope of the environment chain is an Integer. -/
def Environment.AllIntegers (env : Environment) : Prop :=
  ∀ store ∈ env.scopes, ∀ kv ∈ store, ∃ i : Int, kv.2 = .Integer i

/-- The token of a let statement carries the text of the keyword. -/
def LetTokenOK : Statement → Prop
  | .LetStatement tok _ _ => tok.Literal = bytesOf "let"
  | _ => True

/-- The first token of the text `s` starts a statement or is the end of the input: it is
no infix operator and no semicolon. -/
def StartsStatement (s : List Nat) : Prop :=
  precedences (scan s).1.Typ = none ∧ (scan s).1.Typ ≠ .SEMICOLON

/-! ## The lexer on the unread suffix of its input -/

namespace Lexer

theorem getD_eq_headD_drop (xs : List Nat) (i : Nat) :
    xs.getD i 0 = (xs.drop i).headD 0 := by
  induction xs generalizing i with
  | nil => simp
  | cons x xs ih =>
    cases i with
    | zero => simp
    | succ i => simp [ih i]

theorem At.ch_eq {l : Lexer} {s : List Nat} (h : l.At s) : l.ch = s.headD 0 := by
  rw [h.1.2, getD_eq_headD_drop, h.2]

theorem Inv.at {l : Lexer} (h : l.Inv) : l.At (l.input.drop l.position) := ⟨h, rfl⟩

theorem New_At (src : List Nat) : (New src).At src := by
  refine ⟨⟨rfl, ?_⟩, rfl⟩
  simp [New, readChar]
  intro h
  simp [h]

theorem readChar_input (l : Lexer) : l.readChar.input = l.input := rfl

theorem At.readChar {l : Lexer} {s : List Nat} (h : l.At s) : l.readChar.At s.tail := by
  obtain ⟨⟨h1, h2⟩, h3⟩ := h
  refine ⟨⟨rfl, ?_⟩, ?_⟩
  · simp only [Lexer.readChar]
    split
    · rename_i hge
      rw [List.getD_eq_default _ _ hge]
    · rfl
  · simp only [Lexer.readChar, h1]
    rw [← h3, List.tail_drop]

theorem At.peekChar {l : Lexer} {s : List Nat} (h : l.At s) : l.peekChar = s.tail.headD 0 := by
  have h2 := h.readChar.ch_eq
  rw [← h2]
  rfl

/-- The loop over a run of bytes that satisfy `cond`, followed by a byte that does not. -/
theorem At.readWhile_run {cond : Nat → Bool} (run : List Nat) :
    ∀ {l : Lexer} {s : List Nat} (n : Nat), l.At (run ++ s) → (∀ c ∈ run, cond c = true) →
      cond (s.headD 0) = false → run.length < n →
      (readWhile cond n l).At s ∧ (readWhile cond n l).position = l.position + run.length ∧
        (readWhile cond n l).input = l.input := by
  induction run with
  | nil =>
    intro l s n h _ hs hn
    cases n with
    | zero => simp at hn
    | succ n =>
      have : cond l.ch = false := by rw [h.ch_eq]; simpa using hs
      simp [Lexer.readWhile, this]
      exact h
  | cons c run ih =>
    intro l s n h hrun hs hn
    cases n with
    | zero => simp at hn
    | succ n =>
      have hc : cond l.ch = true := by rw [h.ch_eq]; simpa using hrun c (by simp)
      have h1 : l.readChar.At (run ++ s) := by simpa using h.readChar
      obtain ⟨a, b, d⟩ := ih n h1 (fun x hx => hrun x (by simp [hx])) hs (by simpa using hn)
      simp only [Lexer.readWhile, hc, if_true]
      refine ⟨a, ?_, ?_⟩
      · rw [b]
        simp only [Lexer.readChar, h.1.1, List.length_cons]
        omega
      · rw [d]; rfl

theorem At.length_le {l : Lexer} {s : List Nat} (h : l.At s) : s.length ≤ l.input.length := by
  rw [← h.2, List.length_drop]
  omega

theorem At.slice_run {l : Lexer} {run s : List Nat} (h : l.At (run ++ s)) :
    slice l.input l.position (l.position + run.length) = run := by
  simp [Lexer.slice, h.2]

end Lexer

theorem headD_dropWhile (cond : Nat → Bool) (h0 : cond 0 = false) (s : List Nat) :
    cond ((s.dropWhile cond).headD 0) = false := by
  induction s with
  | nil => simpa using h0
  | cons c s ih =>
    by_cases hc : cond c = true
    · simpa [List.dropWhile, hc] using ih
    · simp [List.dropWhile, hc]

namespace Lexer

/-- The loop of readIdentifier, readNumber and skipWhitespace stops before the first byte
that fails `cond`. -/
theorem At.readWhile_all {cond : Nat → Bool} (h0 : cond 0 = false) {l : Lexer}
    {s : List Nat} (h : l.At s) :
    (readWhile cond (l.input.length + 1) l).At (s.dropWhile cond) ∧
      (readWhile cond (l.input.length + 1) l).position
        = l.position + (s.takeWhile cond).length ∧
      (readWhile cond (l.input.length + 1) l).input = l.input := by
  have hs : s.takeWhile cond ++ s.dropWhile cond = s := List.takeWhile_append_dropWhile _ _
  have hlen : (s.takeWhile cond).length ≤ s.length := by
    have := congrArg List.length hs
    simp only [List.length_append] at this
    omega
  have hle := h.length_le
  exact At.readWhile_run (s.takeWhile cond) (l.input.length + 1) (by rw [hs]; exact h)
    (fun c hc => List.mem_takeWhile_imp hc) (headD_dropWhile cond h0 s) (by omega)

theorem At.skipWhitespace_at {l : Lexer} {s : List Nat} (h : l.At s) :
    l.skipWhitespace.At (s.dropWhile isWhitespace) :=
  (h.readWhile_all (by decide)).1

theorem At.readRun {cond : Nat → Bool} (h0 : cond 0 = false) {l : Lexer}
    {s : List Nat} (h : l.At s) :
    slice l.input l.position (readWhile cond (l.input.length + 1) l).position
      = s.takeWhile cond := by
  rw [(h.readWhile_all h0).2.1]
  apply At.slice_run (s := s.dropWhile cond)
  rw [List.takeWhile_append_dropWhile]
  exact h

theorem utf8_ascii (c : Nat) (h : c < 128) : utf8 c = [c] := by
  simp [utf8, h]

/-- NextToken computes `scan` on the unread text. -/
theorem At.NextToken_scan {l : Lexer} {s : List Nat} (h : l.At s) :
    ∃ l1, l.NextToken = ((scan s).1, l1) ∧ l1.At (scan s).2 := by
  have h1 := h.skipWhitespace_at
  unfold Lexer.NextToken scan
  generalize l.skipWhitespace = l1 at h1
  generalize s.dropWhile isWhitespace = s1 at h1
  cases s1 with
  | nil =>
    have hc : l1.ch = 0 := by simpa using h1.ch_eq
    have hr : l1.readChar.At [] := by simpa using h1.readChar
    refine ⟨l1.readChar, ?_, hr⟩
    simp only [hc]
    rfl
  | cons c r =>
    have hc : l1.ch = c := by simpa using h1.ch_eq
    have hp : l1.peekChar = r.headD 0 := by simpa using h1.peekChar
    have hr : l1.readChar.At r := by simpa using h1.readChar
    have hrc : l1.readChar.ch = r.headD 0 := hr.ch_eq
    have hrr : l1.readChar.readChar.At r.tail := hr.readChar
    simp only [hc, hp, hrc, newToken]
    by_cases c1 : c = 61
    · subst c1
      by_cases c2 : r.headD 0 = 61
      · exact ⟨_, by simp only [c2, if_true]; rfl, by simpa only [c2, if_true] using hrr⟩
      · exact ⟨_, by simp only [c2, if_true, if_false]; rfl, by simpa only [c2, if_true, if_false] using hr⟩
    simp only [c1, if_false]
    by_cases d43 : c = 43
    · subst d43
      exact ⟨_, rfl, hr⟩
    simp only [d43, if_false]
    by_cases d45 : c = 45
    · subst d45
      exact ⟨_, rfl, hr⟩
    simp only [d45, if_false]
    by_cases c3 : c = 33
    · subst c3
      by_cases c2 : r.headD 0 = 61
      · exact ⟨_, by simp only [c2, if_true]; rfl, by simpa only [c2, if_true] using hrr⟩
      · exact ⟨_, by simp only [c2, if_true, if_false]; rfl, by simpa only [c2, if_true, if_false] using hr⟩
    simp only [c3, if_false]
    by_cases d47 : c = 47
    · subst d47
      exact ⟨_, rfl, hr⟩
    simp only [d47, if_false]
    by_cases d42 : c = 42
    · subst d42
      exact ⟨_, rfl, hr⟩
    simp only [d42, if_false]
    by_cases d60 : c = 60
    · subst d60
      exact ⟨_, rfl, hr⟩
    simp only [d60, if_false]
    by_cases d62 : c = 62
    · subst d62
      exact ⟨_, rfl, hr⟩
    simp only [d62, if_false]
    by_cases d59 : c = 59
    · subst d59
      exact ⟨_, rfl, hr⟩
    simp only [d59, if_false]
    by_cases d44 : c = 44
    · subst d44
      exact ⟨_, rfl, hr⟩
    simp only [d44, if_false]
    by_cases d40 : c = 40
    · subst d40
      exact ⟨_, rfl, hr⟩
    simp only [d40, if_false]
    by_cases d41 : c = 41
    · subst d41
      exact ⟨_, rfl, hr⟩
    simp only [d41, if_false]
    by_cases d123 : c = 123
    · subst d123
      exact ⟨_, rfl, hr⟩
    simp only [d123, if_false]
    by_cases d125 : c = 125
    · subst d125
      exact ⟨_, rfl, hr⟩
    simp only [d125, if_false]
    by_cases d0 : c = 0
    · subst d0
      exact ⟨_, rfl, hr⟩
    simp only [d0, if_false]
    by_cases hl : isLetter c = true
    · simp only [hl, if_true, readIdentifier]
      refine ⟨_, ?_, (h1.readWhile_all (by decide)).1⟩
      rw [h1.readRun (by decide)]
    simp only [hl, Bool.false_eq_true, if_false]
    by_cases hd : isDigit c = true
    · simp only [hd, if_true, readNumber]
      refine ⟨_, ?_, (h1.readWhile_all (by decide)).1⟩
      rw [h1.readRun (by decide)]
    simp only [hd, Bool.false_eq_true, if_false]
    exact ⟨_, rfl, hr⟩

theorem readWhile_input (cond : Nat → Bool) (n : Nat) (l : Lexer) :
    (Lexer.readWhile cond n l).input = l.input := by
  induction n generalizing l with
  | zero => rfl
  | succ n ih =>
    simp only [Lexer.readWhile]
    split
    · rw [ih]; rfl
    · rfl

theorem NextToken_input (l : Lexer) : l.NextToken.2.input = l.input := by
  have h1 : l.skipWhitespace.input = l.input := readWhile_input _ _ _
  unfold Lexer.NextToken
  generalize l.skipWhitespace = l1 at h1
  simp only [apply_ite Prod.snd, apply_ite Lexer.input, readChar_input, readWhile_input,
    readIdentifier, readNumber, h1, ite_self]

end Lexer

/-! ### Texts and their first token -/

theorem takeWhile_run (cond : Nat → Bool) (run s : List Nat) (h : ∀ c ∈ run, cond c = true)
    (hs : cond (s.headD 0) = false) : (run ++ s).takeWhile cond = run := by
  induction run with
  | nil =>
    cases s with
    | nil => rfl
    | cons c s => simp at hs; simp [List.takeWhile, hs]
  | cons c run ih =>
    have hc := h c (by simp)
    rw [List.cons_append, List.takeWhile_cons, hc, if_pos rfl,
      ih (fun x hx => h x (by simp [hx]))]

theorem dropWhile_run (cond : Nat → Bool) (run s : List Nat) (h : ∀ c ∈ run, cond c = true)
    (hs : cond (s.headD 0) = false) : (run ++ s).dropWhile cond = s := by
  induction run with
  | nil =>
    cases s with
    | nil => rfl
    | cons c s => simp at hs; simp [List.dropWhile, hs]
  | cons c run ih =>
    have hc := h c (by simp)
    rw [List.cons_append, List.dropWhile_cons, hc, if_pos rfl,
      ih (fun x hx => h x (by simp [hx]))]

theorem scan_nil : scan [] = (⟨.EOF, []⟩, []) := rfl

theorem scan_space (s : List Nat) : scan (32 :: s) = scan s := by
  simp [scan, List.dropWhile, isWhitespace]

theorem scan_lparen (s : List Nat) : scan (40 :: s) = (⟨.LPAREN, [40]⟩, s) := by
  simp [scan, List.dropWhile, isWhitespace]

theorem scan_rparen (s : List Nat) : scan (41 :: s) = (⟨.RPAREN, [41]⟩, s) := by
  simp [scan, List.dropWhile, isWhitespace]

/-- A run of letters that ends at a byte that is no letter is one identifier or keyword. -/
theorem scan_letters (name s : List Nat) (hne : name ≠ []) (h : ∀ c ∈ name, isLetter c = true)
    (hs : isLetter (s.headD 0) = false) :
    scan (name ++ s) = (⟨LookupIdent name, name⟩, s) := by
  cases name with
  | nil => exact absurd rfl hne
  | cons c t =>
    have hc : isLetter c = true := h c (by simp)
    have hw : isWhitespace c = false := by
      simp only [isLetter, isWhitespace] at hc ⊢
      simp only [Bool.or_eq_true, Bool.and_eq_true, decide_eq_true_eq, beq_iff_eq] at hc
      simp only [Bool.or_eq_false_iff, beq_eq_false_iff_ne]
      omega
    have h1 := takeWhile_run isLetter (c :: t) s h hs
    have h2 := dropWhile_run isLetter (c :: t) s h hs
    simp only [List.cons_append] at h1 h2
    have hx : ∀ k : Nat, (k < 65 ∨ (90 < k ∧ k < 95)  ∨ k = 96 ∨ 122 < k) → ¬ c = k := by
      intro k hk
      simp only [isLetter, Bool.or_eq_true, Bool.and_eq_true, decide_eq_true_eq, beq_iff_eq] at hc
      omega
    simp only [scan, List.cons_append, List.dropWhile_cons, hw, Bool.false_eq_true, hx 61 (by omega), hx 43 (by omega),
      hx 45 (by omega), hx 33 (by omega), hx 47 (by omega), hx 42 (by omega), hx 60 (by omega),
      hx 62 (by omega), hx 59 (by omega), hx 44 (by omega), hx 40 (by omega), hx 41 (by omega),
      hx 123 (by omega), hx 125 (by omega), hx 0 (by omega), if_false, h1, h2, hc, if_true]

/-- A run of digits that ends at a byte that is no digit is one integer token. -/
theorem scan_digits (lit s : List Nat) (hne : lit ≠ []) (h : ∀ c ∈ lit, isDigit c = true)
    (hs : isDigit (s.headD 0) = false) :
    scan (lit ++ s) = (⟨.INT, lit⟩, s) := by
  cases lit with
  | nil => exact absurd rfl hne
  | cons c t =>
    have hc : isDigit c = true := h c (by simp)
    have hc2 : 48 ≤ c ∧ c ≤ 57 := by
      simpa only [isDigit, Bool.and_eq_true, decide_eq_true_eq] using hc
    have hw : isWhitespace c = false := by
      simp only [isWhitespace, Bool.or_eq_false_iff, beq_eq_false_iff_ne]
      omega
    have hl : isLetter c = false := by
      simp only [isLetter, Bool.or_eq_false_iff, Bool.and_eq_false_imp, decide_eq_true_eq,
        decide_eq_false_iff_not, beq_eq_false_iff_ne]
      omega
    have h1 := takeWhile_run isDigit (c :: t) s h hs
    have h2 := dropWhile_run isDigit (c :: t) s h hs
    simp only [List.cons_append] at h1 h2
    have hx : ∀ k : Nat, (k < 48 ∨ 57 < k) → ¬ c = k := by
      intro k hk
      omega
    simp only [scan, List.cons_append, List.dropWhile_cons, hw, Bool.false_eq_true, hx 61 (by omega), hx 43 (by omega),
      hx 45 (by omega), hx 33 (by omega), hx 47 (by omega), hx 42 (by omega), hx 60 (by omega),
      hx 62 (by omega), hx 59 (by omega), hx 44 (by omega), hx 40 (by omega), hx 41 (by omega),
      hx 123 (by omega), hx 125 (by omega), hx 0 (by omega), if_false, h1, h2, hl, Bool.false_eq_true,
      hc, if_true]

namespace Parser

/-! ## The parser on the unread text -/

theorem nextToken_errors (p : Parser) : p.nextToken.errors = p.errors := rfl

theorem nextToken_curToken (p : Parser) : p.nextToken.curToken = p.peekToken := rfl

theorem nextToken_input (p : Parser) : p.nextToken.lex.input = p.lex.input :=
  Lexer.NextToken_input p.lex

theorem PeekAt.nextToken_at {p : Parser} {s : List Nat} (h : p.PeekAt s) :
    p.nextToken.CurAt s := by
  obtain ⟨l1, h1, h2⟩ := h.2.NextToken_scan
  refine ⟨h.1, ?_, ?_⟩
  · show p.lex.NextToken.1 = _
    rw [h1]
  · show p.lex.NextToken.2.At _
    rw [h1]
    exact h2

theorem New_at (src : List Nat) :
    (New (Lexer.New src)).CurAt src ∧ (New (Lexer.New src)).errors = [] ∧
      (New (Lexer.New src)).lex.input = src := by
  have h0 := Lexer.New_At src
  obtain ⟨l1, h1, h2⟩ := h0.NextToken_scan
  unfold New
  generalize hq : (⟨Lexer.New src, [], ⟨.ILLEGAL, []⟩, ⟨.ILLEGAL, []⟩⟩ : Parser) = q
  have hl : q.lex = Lexer.New src := by rw [← hq]
  have he : q.errors = [] := by rw [← hq]
  have hp : q.nextToken.PeekAt src := by
    refine ⟨?_, ?_⟩
    · show q.lex.NextToken.1 = _
      rw [hl, h1]
    · show q.lex.NextToken.2.At _
      rw [hl, h1]
      exact h2
  refine ⟨hp.nextToken_at, ?_, ?_⟩
  · rw [nextToken_errors, nextToken_errors, he]
  · rw [nextToken_input, nextToken_input, hl]
    rfl

theorem parseExpression_succ (fuel precedence : Nat) (p : Parser) :
    parseExpression (fuel + 1) precedence p =
      match prefixParseFns (parseExpression fuel) p.curToken.Typ with
      | none => some (.nil, p.noPrefixParseFnError p.curToken.Typ)
      | some handler =>
        match handler p with
        | none => none
        | some (leftExp, p1) => parseExpressionLoop fuel precedence leftExp p1 := by
  rw [parseExpression]

theorem parseExpressionLoop_succ (fuel precedence : Nat) (leftExp : Expression) (p : Parser) :
    parseExpressionLoop (fuel + 1) precedence leftExp p =
      if !p.peekTokenIs .SEMICOLON && precedence < p.peekPrecedence then
        match infixParseFns (parseExpression fuel) p.peekToken.Typ with
        | none => some (leftExp, p)
        | some handler =>
          match handler leftExp p.nextToken with
          | none => none
          | some (leftExp1, p1) => parseExpressionLoop fuel precedence leftExp1 p1
      else some (leftExp, p) := by
  rw [parseExpressionLoop]

/-- The loop returns its left operand when the lookahead does not bind tighter. -/
theorem parseExpressionLoop_stop (fuel precedence : Nat) (leftExp : Expression) (p : Parser)
    (h : p.peekPrecedence ≤ precedence) :
    parseExpressionLoop (fuel + 1) precedence leftExp p = some (leftExp, p) := by
  rw [parseExpressionLoop_succ]
  have : ¬ precedence < p.peekPrecedence := by omega
  simp [this]

theorem peekPrecedence_of_none {p : Parser} (h : precedences p.peekToken.Typ = none) :
    p.peekPrecedence = LOWEST := by
  simp [peekPrecedence, h]

/-- A source text that is one expression: the parse of the text is the one expression
statement when parseExpression returns `e` with the end of the input as lookahead. -/
theorem parse_single (src : List Nat) (e : Expression) (p1 : Parser)
    (h1 : (New (Lexer.New src)).curToken.Typ ≠ .EOF)
    (h2 : (New (Lexer.New src)).curToken.Typ ≠ .LET)
    (hpe : parseExpression (budget (New (Lexer.New src))) LOWEST (New (Lexer.New src))
      = some (e, p1))
    (hpeek : p1.peekToken.Typ = .EOF) :
    parse src = some (⟨[.ExpressionStatement (New (Lexer.New src)).curToken e]⟩, p1.errors) := by
  unfold parse ParseProgram
  generalize New (Lexer.New src) = p0 at *
  have hb : budget p0 = (2 * p0.lex.input.length + 6) + 1 + 1 := rfl
  have hsemi : p1.peekTokenIs .SEMICOLON = false := by
    simp [peekTokenIs, hpeek]
  have hst : parseStatement (budget p0) p0 = some (.ExpressionStatement p0.curToken e, p1) := by
    simp [parseStatement, h2, parseExpressionStatement, hpe, hsemi]
  have hloop : ∀ fuel n, parseStatement fuel p0 = some (.ExpressionStatement p0.curToken e, p1) →
      parseProgramLoop fuel (n + 1 + 1) [] p0
        = some ([.ExpressionStatement p0.curToken e], p1.nextToken) := by
    intro fuel n hs
    have hc : p1.nextToken.curToken.Typ = .EOF := hpeek
    rw [parseProgramLoop]
    simp only [h1, ne_eq, not_false_eq_true, if_true, hs]
    rw [parseProgramLoop]
    simp [hc]
  rw [hb, hloop _ _ (hb ▸ hst)]
  rfl

end Parser

/-! ## Integer literals -/

theorem digitsValue_ge (base : Nat) (hb : 1 ≤ base) (s : List Nat) (acc : Nat) :
    acc ≤ digitsValue base acc s := by
  induction s generalizing acc with
  | nil => exact Nat.le_refl _
  | cons c s ih =>
    have h1 := ih (acc * base + (c - 48))
    simp only [digitsValue, List.foldl_cons] at h1 ⊢
    have : acc ≤ acc * base := Nat.le_mul_of_pos_right _ hb
    omega

/-- The loop of ParseUint returns the value of the digits when they are digits of the base
and the value fits in 63 bits. -/
theorem parseUintLoop_value (base : Nat) (hb : base = 10 ∨ base = 8) (s : List Nat) :
    ∀ acc, (∀ c ∈ s, isDigit c = true ∧ c - 48 < base) → digitsValue base acc s < 2 ^ 63 →
      parseUintLoop base s acc = some (digitsValue base acc s) := by
  induction s with
  | nil => intro acc _ _; rfl
  | cons c s ih =>
    intro acc hd hv
    have hc := hd c (by simp)
    have hv2 : digitsValue base (acc * base + (c - 48)) s < 2 ^ 63 := hv
    have hge := digitsValue_ge base (by omega) s (acc * base + (c - 48))
    have h1 : ¬ (c - 48 ≥ base) := by omega
    have h2 : ¬ (acc ≥ (2 ^ 64 - 1) / base + 1) := by
      rcases hb with hb | hb <;> subst hb <;> omega
    have h3 : ¬ (acc * base + (c - 48) ≥ 2 ^ 64) := by omega
    simp only [parseUintLoop, hc.1, if_true, h1, h2, h3, if_false]
    exact ih _ (fun x hx => hd x (by simp [hx])) hv2

theorem ParseInt_decimal (s : List Nat) (hne : s ≠ []) (hd : ∀ c ∈ s, isDigit c = true)
    (h0 : s.head? ≠ some 48 ∨ s = [48]) (hv : decimalValue s < 2 ^ 63) :
    ParseInt s = some (Int.ofNat (decimalValue s)) := by
  cases s with
  | nil => exact absurd rfl hne
  | cons c cs =>
    rcases h0 with h0 | h0
    · have hc : ¬ c = 48 := by simpa using h0
      have hall : ∀ x ∈ c :: cs, isDigit x = true ∧ x - 48 < 10 := by
        intro x hx
        have := hd x hx
        simp only [isDigit, Bool.and_eq_true, decide_eq_true_eq] at this
        exact ⟨hd x hx, by omega⟩
      have h1 := parseUintLoop_value 10 (Or.inl rfl) (c :: cs) 0 hall hv
      have hv' : ¬ (digitsValue 10 0 (c :: cs) ≥ 2 ^ 63) := by
        have : digitsValue 10 0 (c :: cs) < 2 ^ 63 := hv
        omega
      simp only [ParseInt, hc, if_false, h1, hv', decimalValue]
    · rw [h0]
      rfl

/-! ## Atoms -/

namespace Parser

/-- The handler of an atom returns its node and consumes nothing: the text after the atom
starts at the lookahead. -/
theorem atom_handler {a : List Nat} {e : Expression} (h : IsAtom a e) {s : List Nat}
    (hs : Delimited s) {p : Parser} (hp : p.CurAt (a ++ s))
    (pe : Nat → Parser → Parsed Expression) :
    ∃ handler, prefixParseFns pe p.curToken.Typ = some handler ∧ handler p = some (e, p) ∧
      p.PeekAt s ∧ p.curToken.Typ ≠ .EOF ∧ p.curToken.Typ ≠ .LET := by
  obtain ⟨hc, hpk⟩ := hp
  rcases h with ⟨⟨h1, h2, h3⟩, he⟩ | ⟨v, ⟨h1, h2, h3⟩, he⟩
  · rw [scan_letters a s h1 h2 hs.1, h3] at hc hpk
    refine ⟨parseIdentifier, by rw [hc]; rfl, ?_, hpk, by rw [hc]; simp, by rw [hc]; simp⟩
    simp [parseIdentifier, hc, he]
  · rw [scan_digits a s h1 h2 hs.2] at hc hpk
    refine ⟨parseIntegerLiteral, by rw [hc]; rfl, ?_, hpk, by rw [hc]; simp, by rw [hc]; simp⟩
    simp [parseIntegerLiteral, hc, he, h3]

theorem PeekAt.eof {p : Parser} (h : p.PeekAt []) : p.peekToken.Typ = .EOF := by
  rw [h.1]; rfl

/-- A text that is one atom parses to the expression statement of its node, without
errors. -/
theorem parse_atom {a : List Nat} {e : Expression} (h : IsAtom a e) :
    ∃ tok, parse a = some (⟨[.ExpressionStatement tok e]⟩, []) := by
  obtain ⟨hcur, herr, hin⟩ := New_at a
  have hd : Delimited [] := ⟨by decide, by decide⟩
  obtain ⟨handler, h1, h2, h3, h4, h5⟩ :=
    atom_handler h hd (by simpa using hcur)
      (parseExpression (2 * (New (Lexer.New a)).lex.input.length + 7))
  have hpe : parseExpression (budget (New (Lexer.New a))) LOWEST (New (Lexer.New a))
      = some (e, New (Lexer.New a)) := by
    show parseExpression (2 * (New (Lexer.New a)).lex.input.length + 7 + 1) _ _ = _
    rw [parseExpression_succ, h1]
    simp only [h2]
    exact parseExpressionLoop_stop _ _ _ _ (by rw [peekPrecedence_of_none]; rw [h3.eof]; rfl)
  have := parse_single a e _ h4 h5 hpe h3.eof
  rw [herr] at this
  exact ⟨_, this⟩

end Parser

/-- C3 (as amended): a non-empty string of decimal digits that does not start with `0`, or
is the string "0", and whose decimal value is below `2^63`, parses without errors to a
program that evaluates on the fresh environment to the Integer of that decimal value. -/
theorem integer_literal_value (n : List Nat) (hne : n ≠ [])
    (hd : ∀ c ∈ n, isDigit c = true) (h0 : n.head? ≠ some 48 ∨ n = [48])
    (hv : decimalValue n < 2 ^ 63) :
    ∃ program, parse n = some (program, []) ∧
      Eval (.Program program) freshEnv = some (.Integer (Int.ofNat (decimalValue n)), freshEnv) := by
  have hat : IsAtom n (.IntegerLiteral ⟨.INT, n⟩ (Int.ofNat (decimalValue n))) :=
    Or.inr ⟨_, ⟨hne, hd, ParseInt_decimal n hne hd h0 hv⟩, rfl⟩
  obtain ⟨tok, h⟩ := Parser.parse_atom hat
  exact ⟨_, h, rfl⟩

theorem integer_literal_value_witness :
    bytesOf "9223372036854775807" ≠ [] ∧
    (∀ c ∈ bytesOf "9223372036854775807", isDigit c = true) ∧
    ((bytesOf "9223372036854775807").head? ≠ some 48 ∨ bytesOf "9223372036854775807" = [48]) ∧
    decimalValue (bytesOf "9223372036854775807") < 2 ^ 63 ∧
    ∃ program, parse (bytesOf "9223372036854775807") = some (program, []) ∧
      Eval (.Program program) freshEnv
        = some (.Integer (Int.ofNat (decimalValue (bytesOf "9223372036854775807"))), freshEnv) :=
  ⟨by decide, by decide, by decide, by decide,
    integer_literal_value (bytesOf "9223372036854775807") (by decide) (by decide) (by decide)
      (by decide)⟩

/-- C3 (as stated) fails: the digit string "010", of decimal value ten, parses without
errors and evaluates to Integer 8, and the digit string "08" is a syntax error. -/
theorem leading_zero_is_octal :
    (∀ c ∈ bytesOf "010", isDigit c = true) ∧ decimalValue (bytesOf "010") = 10 ∧
    (parse (bytesOf "010")).map (fun r => (r.2, Eval (.Program r.1) freshEnv))
      = some ([], some (.Integer 8, freshEnv)) ∧
    (parse (bytesOf "08")).map (fun r => r.2)
      = some [bytesOf "could not parse \"08\" as integer"] := by
  refine ⟨by decide, by decide, by rfl, by rfl⟩

/-- C10: in a let statement whose identifier is followed by a token of a kind other than
`=`, parseStatement returns no statement, appends the one message about that kind, and
leaves the offending token as the lookahead token, the identifier being the current one;
"let x 5;" ends with the one error about INT. -/
theorem let_without_assign :
    (∀ (fuel : Nat) (p : Parser), p.curToken.Typ = .LET → p.peekToken.Typ = .IDENT →
      p.lex.NextToken.1.Typ ≠ .ASSIGN →
      ∃ p1, Parser.parseStatement fuel p = some (.nilLetStatement, p1) ∧
        p1.errors = p.errors ++ [bytesOf "expected next token to be =, got " ++
          p.lex.NextToken.1.Typ.str ++ bytesOf " instead"] ∧
        p1.peekToken = p.lex.NextToken.1 ∧ p1.lex = p.lex.NextToken.2 ∧
        p1.curToken = p.peekToken) ∧
    (parse (bytesOf "let x 5;")).map (fun r => r.2)
      = some [bytesOf "expected next token to be =, got INT instead"] := by
  refine ⟨?_, by rfl⟩
  intro fuel p hlet hid hk
  have h1 : p.peekTokenIs .IDENT = true := by simp [Parser.peekTokenIs, hid]
  have h2 : p.nextToken.peekTokenIs .ASSIGN = false := by
    simp only [Parser.peekTokenIs, Parser.nextToken]
    simpa using hk
  refine ⟨(p.nextToken.peekError .ASSIGN), ?_, rfl, rfl, rfl, rfl⟩
  simp [Parser.parseStatement, hlet, Parser.parseLetStatement, Parser.expectPeek, h1, h2]

theorem let_without_assign_witness :
    (Parser.New (Lexer.New (bytesOf "let x 5;"))).curToken.Typ = .LET ∧
    (Parser.New (Lexer.New (bytesOf "let x 5;"))).peekToken.Typ = .IDENT ∧
    (Parser.New (Lexer.New (bytesOf "let x 5;"))).lex.NextToken.1.Typ = .INT ∧
    ∃ p1, Parser.parseStatement 3 (Parser.New (Lexer.New (bytesOf "let x 5;")))
        = some (.nilLetStatement, p1) ∧
      p1.errors = [bytesOf "expected next token to be =, got INT instead"] ∧
      p1.peekToken = ⟨.INT, bytesOf "5"⟩ ∧ p1.curToken = ⟨.IDENT, bytesOf "x"⟩ := by
  refine ⟨by rfl, by rfl, by rfl, ?_⟩
  obtain ⟨p1, h1, h2, h3, _, h5⟩ := let_without_assign.1 3
    (Parser.New (Lexer.New (bytesOf "let x 5;"))) (by rfl) (by rfl) (by decide)
  exact ⟨p1, h1, h2.trans (by rfl), h3.trans (by rfl), h5.trans (by rfl)⟩

/-! ## Printing and reading back -/

theorem bytesOf_lparen : bytesOf "(" = [40] := by decide
theorem bytesOf_rparen : bytesOf ")" = [41] := by decide
theorem bytesOf_space : bytesOf " " = [32] := by decide

theorem scan_infix_token (t : Token) (h : IsInfixToken t) (s : List Nat) :
    scan (t.Literal ++ 32 :: s) = (t, 32 :: s) := by
  obtain ⟨ty, lit⟩ := t
  obtain ⟨h1, h2⟩ := h
  simp only at h1 h2
  subst h2
  cases ty <;> first | (simp [precedences] at h1; done) | rfl

theorem scan_prefix_token (t : Token) (h : IsPrefixToken t) (s : List Nat)
    (hs : s.headD 0 ≠ 61) : scan (t.Literal ++ s) = (t, s) := by
  obtain ⟨ty, lit⟩ := t
  obtain ⟨h1, h2⟩ := h
  simp only at h1 h2
  subst h2
  rcases h1 with h1 | h1 <;> subst h1
  · show scan (33 :: s) = _
    have e1 : scan (33 :: s) =
        if s.headD 0 = 61 then (⟨.NOT_EQ, [33, 61]⟩, s.tail) else (⟨.BANG, [33]⟩, s) := rfl
    rw [e1, if_neg hs]
    rfl
  · rfl

theorem String_eq_text (e : Expression) (h : WellFormed e) : e.String = some e.text := by
  induction e with
  | nil => exact absurd h (by simp [WellFormed])
  | Identifier tok v => rfl
  | IntegerLiteral tok v => rfl
  | PrefixExpression tok op r ih =>
    simp only [WellFormed] at h
    simp [Expression.String, Expression.text, ih h.2.2]
  | InfixExpression tok l op r ihl ihr =>
    simp only [WellFormed] at h
    simp [Expression.String, Expression.text, ihl h.2.2.1, ihr h.2.2.2]

theorem IsIdentText.head_letter {a : List Nat} (h : IsIdentText a) :
    ∃ c t, a = c :: t ∧ isLetter c = true := by
  obtain ⟨h1, h2, _⟩ := h
  cases a with
  | nil => exact absurd rfl h1
  | cons c t => exact ⟨c, t, rfl, h2 c (by simp)⟩

theorem IsIntText.head_digit {a : List Nat} {v : Int} (h : IsIntText a v) :
    ∃ c t, a = c :: t ∧ isDigit c = true := by
  obtain ⟨h1, h2, _⟩ := h
  cases a with
  | nil => exact absurd rfl h1
  | cons c t => exact ⟨c, t, rfl, h2 c (by simp)⟩

/-- The text of a well-formed expression starts with a letter, a digit or `(`. -/
theorem text_head (e : Expression) (h : WellFormed e) :
    ∃ c t, e.text = c :: t ∧ (isLetter c = true ∨ isDigit c = true ∨ c = 40) := by
  cases e with
  | nil => exact absurd h (by simp [WellFormed])
  | Identifier tok v =>
    obtain ⟨c, t, h1, h2⟩ := (h.2 : IsIdentText v).head_letter
    exact ⟨c, t, h1, Or.inl h2⟩
  | IntegerLiteral tok v =>
    obtain ⟨c, t, h1, h2⟩ := (h.2 : IsIntText tok.Literal v).head_digit
    exact ⟨c, t, h1, Or.inr (Or.inl h2)⟩
  | PrefixExpression tok op r =>
    exact ⟨40, _, by simp [Expression.text, bytesOf_lparen]; rfl, Or.inr (Or.inr rfl)⟩
  | InfixExpression tok l op r =>
    exact ⟨40, _, by simp [Expression.text, bytesOf_lparen]; rfl, Or.inr (Or.inr rfl)⟩

theorem text_head_ne (e : Expression) (h : WellFormed e) (s : List Nat) :
    (e.text ++ s).headD 0 ≠ 61 := by
  obtain ⟨c, t, h1, h2⟩ := text_head e h
  rw [h1]
  simp only [List.cons_append, List.headD_cons]
  rcases h2 with h2 | h2 | h2
  · simp only [isLetter, Bool.or_eq_true, Bool.and_eq_true, decide_eq_true_eq, beq_iff_eq] at h2
    omega
  · simp only [isDigit, Bool.and_eq_true, decide_eq_true_eq] at h2
    omega
  · omega

theorem text_length (e : Expression) : 2 * e.depth ≤ e.text.length := by
  induction e with
  | nil => simp [Expression.depth]
  | Identifier tok v => simp [Expression.depth]
  | IntegerLiteral tok v => simp [Expression.depth]
  | PrefixExpression tok op r ih =>
    simp only [Expression.depth, Expression.text, bytesOf_lparen, bytesOf_rparen,
      List.length_append, List.length_cons, List.length_nil]
    omega
  | InfixExpression tok l op r ihl ihr =>
    simp only [Expression.depth, Expression.text, bytesOf_lparen, bytesOf_rparen,
      List.length_append, List.length_cons, List.length_nil]
    omega

namespace Parser

theorem CurAt.skip_space {p : Parser} {s : List Nat} (h : p.CurAt (32 :: s)) : p.CurAt s := by
  unfold CurAt at h ⊢
  rwa [scan_space] at h

theorem PeekAt.space {p : Parser} {s : List Nat} (h : p.PeekAt (32 :: s)) : p.PeekAt s := by
  unfold PeekAt at h ⊢
  rwa [scan_space] at h

theorem PeekAt.rparen {p : Parser} {s : List Nat} (h : p.PeekAt (41 :: s)) :
    p.peekToken = ⟨.RPAREN, [41]⟩ ∧ p.nextToken.PeekAt s := by
  have h1 := h.nextToken_at
  unfold PeekAt CurAt at *
  rw [scan_rparen] at h h1
  exact ⟨h.1, h1.2⟩

/-- The loop stops before a closing parenthesis. -/
theorem loop_stop_rparen (f precedence : Nat) (left : Expression) {p : Parser}
    {s : List Nat} (h : p.PeekAt (41 :: s)) (hprec : LOWEST ≤ precedence) :
    parseExpressionLoop (f + 1) precedence left p = some (left, p) := by
  apply parseExpressionLoop_stop
  rw [peekPrecedence_of_none (by rw [h.rparen.1]; rfl)]
  exact hprec

/-- The loop stops at the end of the input. -/
theorem loop_stop_eof (f precedence : Nat) (left : Expression) {p : Parser}
    (h : p.PeekAt []) (hprec : LOWEST ≤ precedence) :
    parseExpressionLoop (f + 1) precedence left p = some (left, p) := by
  apply parseExpressionLoop_stop
  rw [peekPrecedence_of_none (by rw [h.eof]; rfl)]
  exact hprec

/-- The lookahead at an infix operator written between two spaces. -/
theorem PeekAt.infix_token {p : Parser} {t : Token} {s : List Nat} (ht : IsInfixToken t)
    (h : p.PeekAt (32 :: (t.Literal ++ 32 :: s))) :
    p.peekToken = t ∧ p.nextToken.nextToken.CurAt s ∧
      p.nextToken.nextToken.errors = p.errors := by
  have h1 := h.space
  have h2 := h1.nextToken_at
  unfold PeekAt at h1
  unfold CurAt at h2
  rw [scan_infix_token t ht] at h1 h2
  exact ⟨h1.1, h2.2.nextToken_at.skip_space, rfl⟩

theorem infixParseFns_of_precedence (pe : Nat → Parser → Parsed Expression) (ty : TokenType)
    (k : Nat) (h : precedences ty = some k) :
    infixParseFns pe ty = some (parseInfixExpression pe) ∧ ty ≠ .SEMICOLON ∧ LOWEST < k := by
  cases ty <;> simp [precedences] at h <;> subst h <;>
    exact ⟨rfl, by decide, by decide⟩

/-- One turn of the loop at an infix operator that binds tighter than `precedence`. -/
theorem loop_infix_step (f precedence : Nat) (left : Expression) {p : Parser} {t : Token}
    (ht : p.peekToken = t) (k : Nat) (hk : precedences t.Typ = some k)
    (hlt : precedence < k) {right : Expression} {p1 : Parser}
    (hr : parseExpression f k p.nextToken.nextToken = some (right, p1)) :
    parseExpressionLoop (f + 1) precedence left p
      = parseExpressionLoop f precedence (.InfixExpression t left t.Literal right) p1 := by
  obtain ⟨h1, h2, _⟩ := infixParseFns_of_precedence (parseExpression f) t.Typ k hk
  have hsemi : p.peekTokenIs .SEMICOLON = false := by
    simp [peekTokenIs, ht, h2]
  have hpp : p.peekPrecedence = k := by simp [peekPrecedence, ht, hk]
  have hcp : p.nextToken.curPrecedence = k := by
    simp [curPrecedence, nextToken_curToken, ht, hk]
  rw [parseExpressionLoop_succ]
  simp only [hsemi, hpp, hlt, ht, h1, parseInfixExpression, hcp, hr, nextToken_curToken,
    Bool.not_false, Bool.true_and, decide_True, if_true]

/-- The loop leaves an infix operator that does not bind tighter than `precedence`. -/
theorem loop_infix_stop (f precedence : Nat) (left : Expression) {p : Parser} {t : Token}
    (ht : p.peekToken = t) (k : Nat) (hk : precedences t.Typ = some k)
    (hge : k ≤ precedence) :
    parseExpressionLoop (f + 1) precedence left p = some (left, p) := by
  apply parseExpressionLoop_stop
  simp only [peekPrecedence, ht, hk]
  exact hge

/-- The handler of `(`: the expression between the parentheses, then the closing one. -/
theorem grouped_step (pe : Nat → Parser → Parsed Expression) {p p1 : Parser}
    {e : Expression} {s : List Nat} (h : pe LOWEST p.nextToken = some (e, p1))
    (hp : p1.PeekAt (41 :: s)) :
    parseGroupedExpression pe p = some (e, p1.nextToken) ∧ p1.nextToken.PeekAt s ∧
      p1.nextToken.errors = p1.errors := by
  have h1 : p1.peekTokenIs .RPAREN = true := by simp [peekTokenIs, hp.rparen.1]
  refine ⟨?_, hp.rparen.2, rfl⟩
  simp [parseGroupedExpression, h, expectPeek, h1]

theorem delimited_rparen (s : List Nat) : Delimited (41 :: s) := ⟨rfl, rfl⟩

theorem delimited_space (s : List Nat) : Delimited (32 :: s) := ⟨rfl, rfl⟩

theorem delimited_nil : Delimited [] := ⟨rfl, rfl⟩

/-- Reading back the text of a well-formed expression: the handler of its first token
returns the expression itself, adds no error, and stops right after the text. -/
theorem handler_text (e : Expression) (hwf : WellFormed e) :
    ∀ (s : List Nat) (p : Parser) (fuel : Nat), Delimited s → p.CurAt (e.text ++ s) →
      3 * e.depth + 1 ≤ fuel →
      ∃ handler p1, prefixParseFns (parseExpression fuel) p.curToken.Typ = some handler ∧
        handler p = some (e, p1) ∧ p1.errors = p.errors ∧ p1.PeekAt s ∧
        p.curToken.Typ ≠ .EOF ∧ p.curToken.Typ ≠ .LET := by
  induction e with
  | nil => exact absurd hwf (by simp [WellFormed])
  | Identifier tok v =>
    intro s p fuel hs hp _
    obtain ⟨h1, h2⟩ := (hwf : tok = ⟨.IDENT, v⟩ ∧ IsIdentText v)
    subst h1
    obtain ⟨handler, a, b, c, d, e⟩ := atom_handler (Or.inl ⟨h2, rfl⟩) hs hp (parseExpression fuel)
    exact ⟨handler, p, a, b, rfl, c, d, e⟩
  | IntegerLiteral tok v =>
    intro s p fuel hs hp _
    obtain ⟨h1, h2⟩ := (hwf : tok.Typ = .INT ∧ IsIntText tok.Literal v)
    obtain ⟨ty, lit⟩ := tok
    simp only at h1 h2
    subst h1
    obtain ⟨handler, a, b, c, d, e⟩ :=
      atom_handler (Or.inr ⟨v, h2, rfl⟩) hs hp (parseExpression fuel)
    exact ⟨handler, p, a, b, rfl, c, d, e⟩
  | PrefixExpression tok op r ih =>
    intro s p fuel hs hp hf
    obtain ⟨ht, hop, hr⟩ := (hwf : IsPrefixToken tok ∧ op = tok.Literal ∧ WellFormed r)
    subst hop
    obtain ⟨f, rfl⟩ : ∃ f, fuel = f + 3 := ⟨fuel - 3, by simp only [Expression.depth] at hf; omega⟩
    have hf1 : 3 * r.depth + 1 ≤ f + 1 := by simp only [Expression.depth] at hf; omega
    have htext : (Expression.PrefixExpression tok tok.Literal r).text ++ s
        = 40 :: (tok.Literal ++ (r.text ++ 41 :: s)) := by
      simp [Expression.text, bytesOf_lparen, bytesOf_rparen]
    rw [htext] at hp
    unfold CurAt at hp
    rw [scan_lparen] at hp
    obtain ⟨hcur, hpeek⟩ := hp
    have hp1 := hpeek.nextToken_at
    have hsc := scan_prefix_token tok ht (r.text ++ 41 :: s) (text_head_ne r hr _)
    have hp1' := hp1
    unfold CurAt at hp1'
    rw [hsc] at hp1'
    obtain ⟨hcur1, hpeek1⟩ := hp1'
    have hp2 := hpeek1.nextToken_at
    obtain ⟨hr_handler, p3, a, b, c, d, _, _⟩ :=
      ih hr (41 :: s) p.nextToken.nextToken (f + 1) (delimited_rparen s) hp2 hf1
    have hinner : parseExpression (f + 2) PREFIX p.nextToken.nextToken = some (r, p3) := by
      rw [parseExpression_succ, a]
      simp only [b]
      exact loop_stop_rparen f PREFIX r d (by decide)
    have hpre : prefixParseFns (parseExpression (f + 2)) p.nextToken.curToken.Typ
        = some (parsePrefixExpression (parseExpression (f + 2))) := by
      rw [hcur1]
      rcases ht.1 with h | h <;> rw [h] <;> rfl
    have houter : parseExpression (f + 3) LOWEST p.nextToken
        = some (.PrefixExpression tok tok.Literal r, p3) := by
      rw [parseExpression_succ, hpre]
      simp only [parsePrefixExpression, hinner, hcur1]
      exact loop_stop_rparen (f + 1) LOWEST _ d (by decide)
    obtain ⟨g1, g2, g3⟩ := grouped_step (parseExpression (f + 3)) houter d
    refine ⟨parseGroupedExpression (parseExpression (f + 3)), p3.nextToken, by rw [hcur]; rfl,
      g1, ?_, g2, by rw [hcur]; simp, by rw [hcur]; simp⟩
    rw [g3, c]
    rfl
  | InfixExpression tok l op r ihl ihr =>
    intro s p fuel hs hp hf
    obtain ⟨ht, hop, hl, hr⟩ :=
      (hwf : IsInfixToken tok ∧ op = tok.Literal ∧ WellFormed l ∧ WellFormed r)
    subst hop
    obtain ⟨f, rfl⟩ : ∃ f, fuel = f + 3 := ⟨fuel - 3, by simp only [Expression.depth] at hf; omega⟩
    have hfl : 3 * l.depth + 1 ≤ f + 2 := by simp only [Expression.depth] at hf; omega
    have hfr : 3 * r.depth + 1 ≤ f := by simp only [Expression.depth] at hf; omega
    obtain ⟨f0, rfl⟩ : ∃ f0, f = f0 + 1 := ⟨f - 1, by omega⟩
    have htext : (Expression.InfixExpression tok l tok.Literal r).text ++ s
        = 40 :: (l.text ++ 32 :: (tok.Literal ++ 32 :: (r.text ++ 41 :: s))) := by
      simp [Expression.text, bytesOf_lparen, bytesOf_rparen, bytesOf_space]
    rw [htext] at hp
    unfold CurAt at hp
    rw [scan_lparen] at hp
    obtain ⟨hcur, hpeek⟩ := hp
    have hp1 := hpeek.nextToken_at
    obtain ⟨hl_handler, p2, a, b, c, d, _, _⟩ :=
      ihl hl _ p.nextToken (f0 + 1 + 2) (delimited_space _) hp1 hfl
    obtain ⟨k, hk⟩ := Option.isSome_iff_exists.mp ht.1
    obtain ⟨i1, i2, i3⟩ := d.infix_token ht
    obtain ⟨hr_handler, p5, a', b', c', d', _, _⟩ :=
      ihr hr (41 :: s) p2.nextToken.nextToken (f0 + 1) (delimited_rparen s) i2 hfr
    have hklow := (infixParseFns_of_precedence (parseExpression 0) tok.Typ k hk).2.2
    have hright : parseExpression (f0 + 1 + 1) k p2.nextToken.nextToken = some (r, p5) := by
      rw [parseExpression_succ, a']
      simp only [b']
      exact loop_stop_rparen f0 k r d' (by omega)
    have houter : parseExpression (f0 + 1 + 3) LOWEST p.nextToken
        = some (.InfixExpression tok l tok.Literal r, p5) := by
      rw [parseExpression_succ, a]
      simp only [b]
      rw [loop_infix_step (f0 + 1 + 1) LOWEST l i1 k hk hklow hright]
      exact loop_stop_rparen (f0 + 1) LOWEST _ d' (by decide)
    obtain ⟨g1, g2, g3⟩ := grouped_step (parseExpression (f0 + 1 + 3)) houter d'
    refine ⟨parseGroupedExpression (parseExpression (f0 + 1 + 3)), p5.nextToken,
      by rw [hcur]; rfl, g1, ?_, g2, by rw [hcur]; simp, by rw [hcur]; simp⟩
    rw [g3, c', i3, c]
    rfl

/-- The text of a well-formed expression parses, without errors, to the expression
statement of that expression. -/
theorem parse_text (e : Expression) (hwf : WellFormed e) :
    ∃ tok, parse e.text = some (⟨[.ExpressionStatement tok e]⟩, []) := by
  obtain ⟨hcur, herr, hin⟩ := New_at e.text
  have hlen := text_length e
  obtain ⟨handler, p1, h1, h2, h3, h4, h5, h6⟩ :=
    handler_text e hwf [] (New (Lexer.New e.text))
      (2 * (New (Lexer.New e.text)).lex.input.length + 7) delimited_nil
      (by simpa using hcur) (by rw [hin]; omega)
  have hpe : parseExpression (budget (New (Lexer.New e.text))) LOWEST (New (Lexer.New e.text))
      = some (e, p1) := by
    show parseExpression (2 * (New (Lexer.New e.text)).lex.input.length + 7 + 1) _ _ = _
    rw [parseExpression_succ, h1]
    simp only [h2]
    exact loop_stop_eof _ _ _ h4 (by decide)
  have := parse_single e.text e _ h5 h6 hpe h4.eof
  rw [h3, herr] at this
  exact ⟨_, this⟩

end Parser

/-! ## What an error-free parse returns -/

theorem LookupIdent_cases (a : List Nat) :
    (LookupIdent a = .FUNCTION ∧ a = bytesOf "fn") ∨ (LookupIdent a = .LET ∧ a = bytesOf "let") ∨
      LookupIdent a = .IDENT := by
  unfold LookupIdent
  split_ifs with h1 h2
  · exact Or.inl ⟨rfl, h1⟩
  · exact Or.inr (Or.inl ⟨rfl, h2⟩)
  · exact Or.inr (Or.inr rfl)

theorem TokenOK_letters (c : Nat) (r : List Nat) (hc : isLetter c = true) :
    TokenOK ⟨LookupIdent ((c :: r).takeWhile isLetter), (c :: r).takeWhile isLetter⟩ := by
  have hne : (c :: r).takeWhile isLetter ≠ [] := by
    simp [List.takeWhile_cons, hc]
  have hall : ∀ x ∈ (c :: r).takeWhile isLetter, isLetter x = true :=
    fun x hx => List.mem_takeWhile_imp hx
  rcases LookupIdent_cases ((c :: r).takeWhile isLetter) with h | h | h
  · simp only [TokenOK]
    rw [h.1]
    exact ⟨by simp, by simp, by simp, by simp [precedences]⟩
  · simp only [TokenOK]
    rw [h.1]
    exact ⟨by simp, by simp, fun _ => h.2, by simp [precedences]⟩
  · simp only [TokenOK, h]
    exact ⟨fun _ => ⟨hne, hall, h⟩, by simp, by simp, by simp [precedences]⟩

theorem TokenOK_digits (c : Nat) (r : List Nat) (hc : isDigit c = true) :
    TokenOK ⟨.INT, (c :: r).takeWhile isDigit⟩ := by
  have hne : (c :: r).takeWhile isDigit ≠ [] := by
    simp [List.takeWhile_cons, hc]
  have hall : ∀ x ∈ (c :: r).takeWhile isDigit, isDigit x = true :=
    fun x hx => List.mem_takeWhile_imp hx
  simp only [TokenOK]
  exact ⟨by simp, fun _ => ⟨hne, hall⟩, by simp, by simp [precedences]⟩

theorem TokenOK_fixed (ty : TokenType) (lit : List Nat) (h1 : ty ≠ .IDENT) (h2 : ty ≠ .INT)
    (h3 : ty ≠ .LET) (h4 : (precedences ty).isSome = true ∨ ty = .BANG → lit = ty.str) :
    TokenOK ⟨ty, lit⟩ :=
  ⟨fun h => absurd h h1, fun h => absurd h h2, fun h => absurd h h3, h4⟩

/-- Every token that `scan` returns is a lexer token. -/
theorem scan_TokenOK (s : List Nat) : TokenOK (scan s).1 := by
  unfold scan
  split
  · exact TokenOK_fixed _ _ (by decide) (by decide) (by decide) (by decide)
  · rename_i c r _
    by_cases c61 : c = 61
    · simp only [c61, if_true]
      split_ifs <;> exact TokenOK_fixed _ _ (by decide) (by decide) (by decide) (by decide)
    simp only [c61, if_false]
    by_cases c43 : c = 43
    · simp only [c43, if_true]
      exact TokenOK_fixed _ _ (by decide) (by decide) (by decide) (by decide)
    simp only [c43, if_false]
    by_cases c45 : c = 45
    · simp only [c45, if_true]
      exact TokenOK_fixed _ _ (by decide) (by decide) (by decide) (by decide)
    simp only [c45, if_false]
    by_cases c33 : c = 33
    · simp only [c33, if_true]
      split_ifs <;> exact TokenOK_fixed _ _ (by decide) (by decide) (by decide) (by decide)
    simp only [c33, if_false]
    by_cases c47 : c = 47
    · simp only [c47, if_true]
      exact TokenOK_fixed _ _ (by decide) (by decide) (by decide) (by decide)
    simp only [c47, if_false]
    by_cases c42 : c = 42
    · simp only [c42, if_true]
      exact TokenOK_fixed _ _ (by decide) (by decide) (by decide) (by decide)
    simp only [c42, if_false]
    by_cases c60 : c = 60
    · simp only [c60, if_true]
      exact TokenOK_fixed _ _ (by decide) (by decide) (by decide) (by decide)
    simp only [c60, if_false]
    by_cases c62 : c = 62
    · simp only [c62, if_true]
      exact TokenOK_fixed _ _ (by decide) (by decide) (by decide) (by decide)
    simp only [c62, if_false]
    by_cases c59 : c = 59
    · simp only [c59, if_true]
      exact TokenOK_fixed _ _ (by decide) (by decide) (by decide) (by decide)
    simp only [c59, if_false]
    by_cases c44 : c = 44
    · simp only [c44, if_true]
      exact TokenOK_fixed _ _ (by decide) (by decide) (by decide) (by decide)
    simp only [c44, if_false]
    by_cases c40 : c = 40
    · simp only [c40, if_true]
      exact TokenOK_fixed _ _ (by decide) (by decide) (by decide) (by decide)
    simp only [c40, if_false]
    by_cases c41 : c = 41
    · simp only [c41, if_true]
      exact TokenOK_fixed _ _ (by decide) (by decide) (by decide) (by decide)
    simp only [c41, if_false]
    by_cases c123 : c = 123
    · simp only [c123, if_true]
      exact TokenOK_fixed _ _ (by decide) (by decide) (by decide) (by decide)
    simp only [c123, if_false]
    by_cases c125 : c = 125
    · simp only [c125, if_true]
      exact TokenOK_fixed _ _ (by decide) (by decide) (by decide) (by decide)
    simp only [c125, if_false]
    by_cases c0 : c = 0
    · simp only [c0, if_true]
      exact TokenOK_fixed _ _ (by decide) (by decide) (by decide) (by decide)
    simp only [c0, if_false]
    by_cases hl : isLetter c = true
    · simp only [hl, if_true]
      exact TokenOK_letters c r hl
    simp only [hl, Bool.false_eq_true, if_false]
    by_cases hd : isDigit c = true
    · simp only [hd, if_true]
      exact TokenOK_digits c r hd
    simp only [hd, Bool.false_eq_true, if_false]
    exact TokenOK_fixed _ _ (by decide) (by decide) (by decide) (by simp [precedences])

namespace Parser

theorem Inv.nextToken_inv {p : Parser} (h : p.Inv) : p.nextToken.Inv := by
  obtain ⟨l1, h1, h2⟩ := h.1.at.NextToken_scan
  refine ⟨?_, h.2.2, ?_⟩
  · show p.lex.NextToken.2.Inv
    rw [h1]
    exact h2.1
  · show TokenOK p.lex.NextToken.1
    rw [h1]
    exact scan_TokenOK _

theorem New_inv (src : List Nat) : (New (Lexer.New src)).Inv := by
  have h0 : (⟨Lexer.New src, [], ⟨.ILLEGAL, []⟩, ⟨.ILLEGAL, []⟩⟩ : Parser).Inv :=
    ⟨(Lexer.New_At src).1,
      TokenOK_fixed _ _ (by decide) (by decide) (by decide) (by decide),
      TokenOK_fixed _ _ (by decide) (by decide) (by decide) (by decide)⟩
  exact h0.nextToken_inv.nextToken_inv

theorem Sound.refl {α : Type} {good : α → Prop} (p : Parser) (a : α) (hp : p.Inv)
    (ha : good a) : Sound good p (a, p) :=
  ⟨hp, [], by simp, fun _ => ha⟩

theorem Sound.andThen {α β : Type} {good1 : α → Prop} {G good3 : β → Prop}
    {p : Parser} {r1 : α × Parser} {r2 : β × Parser}
    (h1 : Sound good1 p r1) (h2 : Sound G r1.2 r2)
    (himp : good1 r1.1 → G r2.1 → good3 r2.1) : Sound good3 p r2 := by
  obtain ⟨_, x1, e1, g1⟩ := h1
  obtain ⟨i2, x2, e2, g2⟩ := h2
  refine ⟨i2, x1 ++ x2, by rw [e2, e1, List.append_assoc], ?_⟩
  intro h
  have hx := List.append_eq_nil.mp h
  exact himp (g1 hx.1) (g2 hx.2)

theorem Sound.of_step {α : Type} {good : α → Prop} {p q : Parser} {r : α × Parser}
    (he : q.errors = p.errors) (h : Sound good q r) : Sound good p r := by
  obtain ⟨i, x, e, g⟩ := h
  exact ⟨i, x, by rw [e, he], g⟩

theorem Sound.map {α β : Type} {good1 : α → Prop} {good2 : β → Prop} {p q : Parser}
    {a : α} (b : β) (h : Sound good1 p (a, q)) (himp : good1 a → good2 b) :
    Sound good2 p (b, q) := by
  obtain ⟨i, x, e, g⟩ := h
  exact ⟨i, x, e, fun hx => himp (g hx)⟩

/-- A state that differs by one more error message: no promise about the result. -/
theorem Sound.failed {α : Type} {good : α → Prop} {p q : Parser} (a : α) (msg : List Nat)
    (hq : q.Inv) (he : q.errors = p.errors ++ [msg]) : Sound good p (a, q) :=
  ⟨hq, [msg], he, fun h => absurd h (by simp)⟩

theorem Inv.peekError {p : Parser} (h : p.Inv) (t : TokenType) : (p.peekError t).Inv := h

theorem Inv.noPrefixParseFnError {p : Parser} (h : p.Inv) (t : TokenType) :
    (p.noPrefixParseFnError t).Inv := h

theorem sound_prefix_handler {pe : Nat → Parser → Parsed Expression} (hpe : SoundCall pe)
    {p : Parser} {handler : Parser → Parsed Expression}
    (hh : prefixParseFns pe p.curToken.Typ = some handler) (hp : p.Inv)
    {r : Expression × Parser} (hr : handler p = some r) : Sound WellFormed p r := by
  have hcur : TokenOK p.curToken := hp.2.1
  generalize hty : p.curToken.Typ = cty at hh
  have htok : ∀ ty, p.curToken.Typ = ty → p.curToken = ⟨ty, p.curToken.Literal⟩ := by
    intro ty h
    rw [← h]
  cases cty <;> simp only [prefixParseFns] at hh <;> cases hh
  · -- IDENT
    simp only [parseIdentifier, Option.some.injEq] at hr
    subst hr
    exact Sound.refl p _ hp ⟨htok _ hty, hcur.1 hty⟩
  · -- INT
    simp only [parseIntegerLiteral] at hr
    cases hv : ParseInt p.curToken.Literal with
    | none =>
      simp only [hv, Option.some.injEq] at hr
      subst hr
      exact Sound.failed _ _ hp rfl
    | some v =>
      simp only [hv, Option.some.injEq] at hr
      subst hr
      exact Sound.refl p _ hp ⟨hty, (hcur.2.1 hty).1, (hcur.2.1 hty).2, hv⟩
  · -- MINUS
    simp only [parsePrefixExpression] at hr
    cases h1 : pe PREFIX p.nextToken with
    | none => simp [h1] at hr
    | some r1 =>
      obtain ⟨right, p1⟩ := r1
      simp only [h1, Option.some.injEq] at hr
      subst hr
      refine Sound.map _ (Sound.of_step (nextToken_errors p) (hpe _ _ _ hp.nextToken_inv h1)) ?_
      intro hw
      exact ⟨⟨Or.inr hty, hcur.2.2.2 (Or.inl (by rw [hty]; rfl))⟩, rfl, hw⟩
  · -- BANG
    simp only [parsePrefixExpression] at hr
    cases h1 : pe PREFIX p.nextToken with
    | none => simp [h1] at hr
    | some r1 =>
      obtain ⟨right, p1⟩ := r1
      simp only [h1, Option.some.injEq] at hr
      subst hr
      refine Sound.map _ (Sound.of_step (nextToken_errors p) (hpe _ _ _ hp.nextToken_inv h1)) ?_
      intro hw
      exact ⟨⟨Or.inl hty, hcur.2.2.2 (Or.inr hty)⟩, rfl, hw⟩
  · -- LPAREN
    simp only [parseGroupedExpression] at hr
    cases h1 : pe LOWEST p.nextToken with
    | none => simp [h1] at hr
    | some r1 =>
      obtain ⟨exp, p1⟩ := r1
      have hs := Sound.of_step (nextToken_errors p) (hpe _ _ _ hp.nextToken_inv h1)
      simp only [h1, expectPeek] at hr
      by_cases hpk : p1.peekTokenIs .RPAREN = true
      · simp only [hpk, if_true, Option.some.injEq] at hr
        subst hr
        exact Sound.andThen (G := fun _ => True) hs (Sound.of_step (nextToken_errors p1)
          (Sound.refl p1.nextToken exp hs.1.nextToken_inv trivial)) (fun h _ => h)
      · simp only [hpk, Bool.false_eq_true, if_false, Option.some.injEq] at hr
        subst hr
        exact Sound.andThen (G := fun _ => False) hs
          (Sound.failed _ _ (hs.1.peekError _) rfl) (fun _ h => absurd h id)

theorem sound_infix_handler {pe : Nat → Parser → Parsed Expression} (hpe : SoundCall pe)
    {p : Parser} {handler : Expression → Parser → Parsed Expression}
    (hh : infixParseFns pe p.curToken.Typ = some handler) (hp : p.Inv)
    (left : Expression) {r : Expression × Parser} (hr : handler left p = some r) :
    Sound (fun e => WellFormed left → WellFormed e) p r := by
  have hcur : TokenOK p.curToken := hp.2.1
  have hprec : (precedences p.curToken.Typ).isSome = true := by
    generalize p.curToken.Typ = cty at hh
    cases cty <;> simp only [infixParseFns] at hh <;> cases hh <;> rfl
  have hhandler : handler = parseInfixExpression pe := by
    generalize p.curToken.Typ = cty at hh
    cases cty <;> simp only [infixParseFns] at hh <;> cases hh <;> rfl
  subst hhandler
  simp only [parseInfixExpression] at hr
  cases h1 : pe p.curPrecedence p.nextToken with
  | none => simp [h1] at hr
  | some r1 =>
    obtain ⟨right, p1⟩ := r1
    simp only [h1, Option.some.injEq] at hr
    subst hr
    refine Sound.map _ (Sound.of_step (nextToken_errors p) (hpe _ _ _ hp.nextToken_inv h1)) ?_
    intro hw hl
    exact ⟨⟨hprec, hcur.2.2.2 (Or.inl hprec)⟩, rfl, hl, hw⟩

/-- parseExpression and its loop keep the promise, whatever the budget. -/
theorem sound_expression (fuel : Nat) :
    SoundCall (parseExpression fuel) ∧
    ∀ (precedence : Nat) (left : Expression) (p : Parser) (r : Expression × Parser), p.Inv →
      parseExpressionLoop fuel precedence left p = some r →
        Sound (fun e => WellFormed left → WellFormed e) p r := by
  induction fuel with
  | zero =>
    refine ⟨fun precedence p r _ h => ?_, fun precedence left p r _ h => ?_⟩
    · simp [parseExpression] at h
    · simp [parseExpressionLoop] at h
  | succ fuel ih =>
    obtain ⟨ih1, ih2⟩ := ih
    refine ⟨fun precedence p r hp h => ?_, fun precedence left p r hp h => ?_⟩
    · rw [parseExpression_succ] at h
      cases hh : prefixParseFns (parseExpression fuel) p.curToken.Typ with
      | none =>
        simp only [hh, Option.some.injEq] at h
        subst h
        exact Sound.failed _ _ (hp.noPrefixParseFnError _) rfl
      | some handler =>
        simp only [hh] at h
        cases h1 : handler p with
        | none => simp [h1] at h
        | some r1 =>
          obtain ⟨leftExp, p1⟩ := r1
          simp only [h1] at h
          have s1 := sound_prefix_handler ih1 hh hp h1
          have s2 := ih2 _ _ _ _ s1.1 h
          exact Sound.andThen s1 s2 (fun a b => b a)
    · rw [parseExpressionLoop_succ] at h
      split at h
      · cases hh : infixParseFns (parseExpression fuel) p.peekToken.Typ with
        | none =>
          simp only [hh, Option.some.injEq] at h
          subst h
          exact Sound.refl p _ hp id
        | some handler =>
          simp only [hh] at h
          cases h1 : handler left p.nextToken with
          | none => simp [h1] at h
          | some r1 =>
            obtain ⟨leftExp1, p1⟩ := r1
            simp only [h1] at h
            have s1 := Sound.of_step (nextToken_errors p)
              (sound_infix_handler ih1 (p := p.nextToken) hh hp.nextToken_inv left h1)
            have s2 := ih2 _ _ _ _ s1.1 h
            exact Sound.andThen s1 s2 (fun a b hl => b (a hl))
      · simp only [Option.some.injEq] at h
        subst h
        exact Sound.refl p _ hp id

theorem sound_semicolon {α : Type} {good : α → Prop} {p p1 : Parser} {a : α}
    (h : Sound good p (a, p1)) :
    Sound good p (a, if p1.peekTokenIs .SEMICOLON then p1.nextToken else p1) := by
  split
  · exact Sound.andThen (G := fun _ => True) h (Sound.of_step (nextToken_errors p1)
      (Sound.refl p1.nextToken a h.1.nextToken_inv trivial)) (fun g _ => g)
  · exact h

theorem sound_parseExpressionStatement (fuel : Nat) (p : Parser) (r : Statement × Parser)
    (hp : p.Inv) (h : parseExpressionStatement fuel p = some r) : Sound StatementOK p r := by
  simp only [parseExpressionStatement] at h
  cases h1 : parseExpression fuel LOWEST p with
  | none => simp [h1] at h
  | some r1 =>
    obtain ⟨e, p1⟩ := r1
    simp only [h1, Option.some.injEq] at h
    subst h
    exact sound_semicolon (Sound.map _ ((sound_expression fuel).1 _ _ _ hp h1) (fun g => g))

theorem sound_parseLetStatement (fuel : Nat) (p : Parser) (r : Statement × Parser)
    (hp : p.Inv) (hlet : p.curToken.Typ = .LET) (h : parseLetStatement fuel p = some r) :
    Sound StatementOK p r := by
  simp only [parseLetStatement, expectPeek] at h
  by_cases h1 : p.peekTokenIs .IDENT = true
  · simp only [h1, if_true] at h
    have hid : p.nextToken.curToken.Typ = .IDENT := by
      simpa [peekTokenIs] using h1
    by_cases h2 : p.nextToken.peekTokenIs .ASSIGN = true
    · simp only [h2, if_true] at h
      cases h3 : parseExpression fuel LOWEST p.nextToken.nextToken.nextToken with
      | none => simp [h3] at h
      | some r1 =>
        obtain ⟨value, p3⟩ := r1
        simp only [h3, Option.some.injEq] at h
        subst h
        have hi3 := hp.nextToken_inv.nextToken_inv.nextToken_inv
        have s1 : Sound WellFormed p (value, p3) :=
          Sound.of_step (by rfl) ((sound_expression fuel).1 _ _ _ hi3 h3)
        refine sound_semicolon (Sound.map _ s1 (fun g => ?_))
        refine ⟨hlet, ⟨p.nextToken.curToken.Literal, ?_, hp.nextToken_inv.2.1.1 hid⟩, g⟩
        congr 1
        rw [← hid]
    · simp only [h2, Bool.false_eq_true, if_false, Option.some.injEq] at h
      subst h
      exact Sound.failed _ _ (hp.nextToken_inv.peekError _) rfl
  · simp only [h1, Bool.false_eq_true, if_false, Option.some.injEq] at h
    subst h
    exact Sound.failed _ _ (hp.peekError _) rfl

theorem sound_parseStatement (fuel : Nat) (p : Parser) (r : Statement × Parser)
    (hp : p.Inv) (h : parseStatement fuel p = some r) : Sound StatementOK p r := by
  simp only [parseStatement] at h
  split at h
  · rename_i hlet
    exact sound_parseLetStatement fuel p r hp hlet h
  · exact sound_parseExpressionStatement fuel p r hp h

/-- The statement loop only appends statements, and every statement it appends is a good
one when no error was recorded. -/
theorem sound_parseProgramLoop (fuel : Nat) (n : Nat) :
    ∀ (statements : List Statement) (p : Parser) (r : List Statement × Parser), p.Inv →
      parseProgramLoop fuel n statements p = some r →
        Sound (fun out => ∃ added, out = statements ++ added ∧ ∀ s ∈ added, StatementOK s) p r := by
  induction n with
  | zero => intro statements p r _ h; simp [parseProgramLoop] at h
  | succ n ih =>
    intro statements p r hp h
    rw [parseProgramLoop] at h
    split at h
    · cases h1 : parseStatement fuel p with
      | none => simp [h1] at h
      | some r1 =>
        obtain ⟨stmt, p1⟩ := r1
        simp only [h1] at h
        have s1 := sound_parseStatement fuel p _ hp h1
        have s2 := Sound.of_step (nextToken_errors p1) (ih _ _ _ s1.1.nextToken_inv h)
        refine Sound.andThen s1 s2 ?_
        intro g1 ⟨added, g2, g3⟩
        by_cases hs : stmt = .nil
        · exact absurd g1 (by rw [hs]; simp [StatementOK])
        · simp only [ne_eq, hs, not_false_eq_true, if_true] at g2
          refine ⟨stmt :: added, by rw [g2]; simp, ?_⟩
          intro s hs
          rcases List.mem_cons.mp hs with h | h
          · rw [h]; exact g1
          · exact g3 s h
    · simp only [Option.some.injEq] at h
      subst h
      exact Sound.refl p _ hp ⟨[], by simp, by simp⟩

/-- A parse that records no error returns only good statements. -/
theorem parse_sound (src : List Nat) (program : Program)
    (h : parse src = some (program, [])) : ∀ s ∈ program.Statements, StatementOK s := by
  unfold parse ParseProgram at h
  cases h1 : parseProgramLoop (budget (New (Lexer.New src))) (budget (New (Lexer.New src))) []
      (New (Lexer.New src)) with
  | none => simp [h1] at h
  | some r =>
    obtain ⟨statements, p1⟩ := r
    simp only [h1, Option.some.injEq, Prod.mk.injEq, Errors] at h
    obtain ⟨hprog, herr⟩ := h
    obtain ⟨_, extra, e1, g⟩ := sound_parseProgramLoop _ _ _ _ _ (New_inv src) h1
    rw [(New_at src).2.1] at e1
    simp only [herr, List.nil_append] at e1
    obtain ⟨added, g1, g2⟩ := g e1.symm
    subst hprog
    simp only [List.nil_append] at g1
    intro s hs
    exact g2 s (by rw [← g1]; exact hs)

end Parser

/-- C1: when a source text parses without errors to one expression statement with the
expression `e`, then `e` has a string, that string parses without errors, and the program
it parses to has the same string. -/
theorem print_parse_fixed_point (src : List Nat) (tok : Token) (e : Expression)
    (h : parse src = some (⟨[.ExpressionStatement tok e]⟩, [])) :
    ∃ text program, e.String = some text ∧ parse text = some (program, []) ∧
      program.String = some text := by
  have hwf : WellFormed e :=
    Parser.parse_sound src _ h (.ExpressionStatement tok e) (List.mem_singleton.mpr rfl)
  obtain ⟨tok1, h1⟩ := Parser.parse_text e hwf
  have hs := String_eq_text e hwf
  refine ⟨e.text, _, hs, h1, ?_⟩
  have hne : e ≠ .nil := by
    intro h0
    rw [h0] at hwf
    exact hwf
  simp [Program.String, stringsConcat, Statement.String, hne, hs]

theorem print_parse_fixed_point_witness :
    parse (bytesOf "a + b * -c")
      = some (⟨[.ExpressionStatement ⟨.IDENT, bytesOf "a"⟩
          (binop .PLUS (ident "a") (binop .ASTERISK (ident "b") (unop .MINUS (ident "c"))))]⟩, []) ∧
    ∃ text program,
      (binop .PLUS (ident "a") (binop .ASTERISK (ident "b") (unop .MINUS (ident "c")))).String
        = some text ∧
      parse text = some (program, []) ∧ program.String = some text :=
  ⟨by rfl, print_parse_fixed_point (bytesOf "a + b * -c") ⟨.IDENT, bytesOf "a"⟩ _ (by rfl)⟩

/-! ## The budget of ParseProgram is enough -/

theorem length_dropWhile_le (cond : Nat → Bool) (s : List Nat) :
    (s.dropWhile cond).length ≤ s.length := by
  induction s with
  | nil => simp
  | cons c s ih =>
    rw [List.dropWhile_cons]
    split
    · simp only [List.length_cons]; omega
    · exact Nat.le_refl _

/-- The text that `scan` leaves: what follows the first byte after the whitespace, or
its tail after a two-byte operator, or what follows a run of letters or of digits. -/
theorem scan_rest (s : List Nat) (c : Nat) (r : List Nat)
    (h : s.dropWhile isWhitespace = c :: r) :
    (scan s).2 = r ∨ (scan s).2 = r.tail ∨
      (isLetter c = true ∧ (scan s).2 = (c :: r).dropWhile isLetter) ∨
      (isDigit c = true ∧ (scan s).2 = (c :: r).dropWhile isDigit) := by
  unfold scan
  rw [h]
  simp only
  by_cases c61 : c = 61
  · subst c61
    by_cases hp : r.headD 0 = 61
    · exact Or.inr (Or.inl (by simp only [hp, if_true]))
    · exact Or.inl (by simp only [hp, if_true, if_false])
  simp only [c61, if_false]
  by_cases c43 : c = 43
  · subst c43
    exact Or.inl rfl
  simp only [c43, if_false]
  by_cases c45 : c = 45
  · subst c45
    exact Or.inl rfl
  simp only [c45, if_false]
  by_cases c33 : c = 33
  · subst c33
    by_cases hp : r.headD 0 = 61
    · exact Or.inr (Or.inl (by simp only [hp, if_true]))
    · exact Or.inl (by simp only [hp, if_true, if_false])
  simp only [c33, if_false]
  by_cases c47 : c = 47
  · subst c47
    exact Or.inl rfl
  simp only [c47, if_false]
  by_cases c42 : c = 42
  · subst c42
    exact Or.inl rfl
  simp only [c42, if_false]
  by_cases c60 : c = 60
  · subst c60
    exact Or.inl rfl
  simp only [c60, if_false]
  by_cases c62 : c = 62
  · subst c62
    exact Or.inl rfl
  simp only [c62, if_false]
  by_cases c59 : c = 59
  · subst c59
    exact Or.inl rfl
  simp only [c59, if_false]
  by_cases c44 : c = 44
  · subst c44
    exact Or.inl rfl
  simp only [c44, if_false]
  by_cases c40 : c = 40
  · subst c40
    exact Or.inl rfl
  simp only [c40, if_false]
  by_cases c41 : c = 41
  · subst c41
    exact Or.inl rfl
  simp only [c41, if_false]
  by_cases c123 : c = 123
  · subst c123
    exact Or.inl rfl
  simp only [c123, if_false]
  by_cases c125 : c = 125
  · subst c125
    exact Or.inl rfl
  simp only [c125, if_false]
  by_cases c0 : c = 0
  · subst c0
    exact Or.inl rfl
  simp only [c0, if_false]
  by_cases hl : isLetter c = true
  · exact Or.inr (Or.inr (Or.inl ⟨hl, by simp only [hl, if_true]⟩))
  simp only [hl, Bool.false_eq_true, if_false]
  by_cases hd : isDigit c = true
  · exact Or.inr (Or.inr (Or.inr ⟨hd, by simp only [hd, if_true]⟩))
  simp only [hd, Bool.false_eq_true, if_false]
  exact Or.inl trivial

theorem scan_blank (s : List Nat) (h : s.dropWhile isWhitespace = []) :
    scan s = (⟨.EOF, []⟩, []) := by
  unfold scan
  rw [h]

/-- The text that `scan` leaves is no longer than the text, and shorter when the token is
not the end of the input. -/
theorem scan_length (s : List Nat) :
    (scan s).2.length ≤ s.length ∧
      ((scan s).1.Typ ≠ .EOF → (scan s).2.length + 1 ≤ s.length) := by
  have hw := length_dropWhile_le isWhitespace s
  cases h : s.dropWhile isWhitespace with
  | nil =>
    rw [scan_blank s h]
    exact ⟨Nat.zero_le _, fun h => absurd rfl h⟩
  | cons c r =>
    rw [h] at hw
    simp only [List.length_cons] at hw
    have h5 : r.tail.length ≤ r.length := by simp
    have key : (scan s).2.length ≤ r.length := by
      rcases scan_rest s c r h with e | e | ⟨hc, e⟩ | ⟨hc, e⟩
      · rw [e]
      · rw [e]; exact h5
      · rw [e, List.dropWhile_cons, hc, if_pos rfl]
        exact length_dropWhile_le _ _
      · rw [e, List.dropWhile_cons, hc, if_pos rfl]
        exact length_dropWhile_le _ _
    exact ⟨by omega, fun _ => by omega⟩

namespace Parser

theorem nextToken_weight {p : Parser} (h : p.Inv) :
    p.nextToken.weight + tokenWeight p.curToken ≤ p.weight := by
  obtain ⟨l1, h1, h2⟩ := h.1.at.NextToken_scan
  have hlen := scan_length (p.lex.input.drop p.lex.position)
  have e1 : p.nextToken.lex = l1 := by
    show p.lex.NextToken.2 = l1
    rw [h1]
  have e2 : p.nextToken.peekToken = (scan (p.lex.input.drop p.lex.position)).1 := by
    show p.lex.NextToken.1 = _
    rw [h1]
  have e3 : l1.input.length - l1.position
      = (scan (p.lex.input.drop p.lex.position)).2.length := by
    rw [← h2.2, List.length_drop]
  have e4 : (p.lex.input.drop p.lex.position).length = p.lex.input.length - p.lex.position :=
    List.length_drop _ _
  have hw : tokenWeight (scan (p.lex.input.drop p.lex.position)).1
      + (scan (p.lex.input.drop p.lex.position)).2.length
        ≤ p.lex.input.length - p.lex.position := by
    unfold tokenWeight
    split
    · have := hlen.1; omega
    · rename_i hne
      have := hlen.2 hne; omega
  simp only [weight, e1, e2, e3, nextToken_curToken]
  omega

theorem Progress.refl_of {p q : Parser} (hc : q.curToken = p.curToken)
    (hw : q.weight = p.weight) : Progress p q :=
  ⟨by omega, fun _ => Or.inl ⟨hc, hw⟩⟩

theorem Progress.same (p : Parser) : Progress p p := Progress.refl_of (Eq.refl _) (Eq.refl _)

theorem Progress.trans {p q r : Parser} (h1 : Progress p q) (h2 : Progress q r) :
    Progress p r := by
  refine ⟨by have := h1.1; have := h2.1; omega, fun hne => ?_⟩
  rcases h1.2 hne with ⟨hc, hw⟩ | hlt
  · rcases h2.2 (by rw [hc]; exact hne) with ⟨hc2, hw2⟩ | hlt2
    · exact Or.inl ⟨by rw [hc2, hc], by rw [hw2, hw]⟩
    · exact Or.inr (by omega)
  · exact Or.inr (by have := h2.1; omega)

theorem Progress.nextToken {p : Parser} (h : p.Inv) : Progress p p.nextToken := by
  have hw := nextToken_weight h
  refine ⟨by omega, fun hne => Or.inr ?_⟩
  have : tokenWeight p.curToken = 1 := by simp [tokenWeight, hne]
  omega

theorem weight_pos_of_cur {p : Parser} (h : p.curToken.Typ ≠ .EOF) : 1 ≤ p.weight := by
  have : tokenWeight p.curToken = 1 := by simp [tokenWeight, h]
  simp only [weight]
  omega

theorem weight_pos_of_peek {p : Parser} (h : p.peekToken.Typ ≠ .EOF) : 1 ≤ p.weight := by
  have : tokenWeight p.peekToken = 1 := by simp [tokenWeight, h]
  simp only [weight]
  omega

/-- After the first call of nextToken the weight is smaller when the current token was
not the end of the input. -/
theorem nextToken_lt {p : Parser} (h : p.Inv) (hne : p.curToken.Typ ≠ .EOF) :
    p.nextToken.weight + 1 ≤ p.weight := by
  rcases (Progress.nextToken h).2 hne with ⟨_, hw⟩ | hlt
  · have := nextToken_weight h
    have : tokenWeight p.curToken = 1 := by simp [tokenWeight, hne]
    omega
  · exact hlt

theorem total_prefix_handler {pe : Nat → Parser → Parsed Expression} {b : Nat}
    (hpe : TotalCall pe b) {p : Parser} (hp : p.Inv) (hw : p.weight ≤ b + 1)
    {handler : Parser → Parsed Expression}
    (hh : prefixParseFns pe p.curToken.Typ = some handler) :
    ∃ r, handler p = some r ∧ r.2.Inv ∧ Progress p r.2 := by
  generalize hty : p.curToken.Typ = cty at hh
  have hne : cty ≠ .EOF → p.nextToken.weight ≤ b := by
    intro h
    have := nextToken_lt hp (by rw [hty]; exact h)
    omega
  cases cty <;> simp only [prefixParseFns] at hh <;> cases hh
  · exact ⟨_, rfl, hp, Progress.same p⟩
  · simp only [parseIntegerLiteral]
    cases ParseInt p.curToken.Literal with
    | none => exact ⟨_, rfl, hp, Progress.refl_of rfl rfl⟩
    | some v => exact ⟨_, rfl, hp, Progress.same p⟩
  · obtain ⟨⟨e, q⟩, h1, h2, h3⟩ := hpe PREFIX p.nextToken hp.nextToken_inv (hne (by decide))
    exact ⟨(.PrefixExpression p.curToken p.curToken.Literal e, q),
      by simp only [parsePrefixExpression, h1], h2, (Progress.nextToken hp).trans h3⟩
  · obtain ⟨⟨e, q⟩, h1, h2, h3⟩ := hpe PREFIX p.nextToken hp.nextToken_inv (hne (by decide))
    exact ⟨(.PrefixExpression p.curToken p.curToken.Literal e, q),
      by simp only [parsePrefixExpression, h1], h2, (Progress.nextToken hp).trans h3⟩
  · obtain ⟨⟨e, q⟩, h1, h2, h3⟩ := hpe LOWEST p.nextToken hp.nextToken_inv (hne (by decide))
    have h4 := (Progress.nextToken hp).trans h3
    simp only [parseGroupedExpression, h1, expectPeek]
    split
    · exact ⟨_, rfl, h2.nextToken_inv, h4.trans (Progress.nextToken h2)⟩
    · exact ⟨_, rfl, h2.peekError _, h4.trans (Progress.refl_of rfl rfl)⟩

theorem total_infix_handler {pe : Nat → Parser → Parsed Expression} {b : Nat}
    (hpe : TotalCall pe b) {p : Parser} (hp : p.Inv) (hw : p.weight ≤ b + 1)
    {handler : Expression → Parser → Parsed Expression}
    (hh : infixParseFns pe p.curToken.Typ = some handler) (left : Expression) :
    ∃ r, handler left p = some r ∧ r.2.Inv ∧ r.2.weight + 1 ≤ p.weight := by
  have hne : p.curToken.Typ ≠ .EOF := by
    intro h
    rw [h] at hh
    simp [infixParseFns] at hh
  have hhandler : handler = parseInfixExpression pe := by
    generalize p.curToken.Typ = cty at hh
    cases cty <;> simp only [infixParseFns] at hh <;> cases hh <;> rfl
  subst hhandler
  have hlt := nextToken_lt hp hne
  obtain ⟨⟨e, q⟩, h1, h2, h3⟩ := hpe p.curPrecedence p.nextToken hp.nextToken_inv (by omega)
  refine ⟨(.InfixExpression p.curToken left p.curToken.Literal e, q),
    by simp only [parseInfixExpression, h1], h2, ?_⟩
  have h4 : q.weight ≤ p.nextToken.weight := h3.1
  show q.weight + 1 ≤ p.weight
  omega

/-- parseExpression and its loop return on a budget of twice the weight plus two. -/
theorem total_expression (fuel : Nat) :
    (∀ (precedence : Nat) (p : Parser), p.Inv → 2 * p.weight + 2 ≤ fuel →
      ∃ r, parseExpression fuel precedence p = some r ∧ r.2.Inv ∧ Progress p r.2) ∧
    (∀ (precedence : Nat) (left : Expression) (p : Parser), p.Inv → 2 * p.weight + 1 ≤ fuel →
      ∃ r, parseExpressionLoop fuel precedence left p = some r ∧ r.2.Inv ∧ Progress p r.2) := by
  induction fuel with
  | zero =>
    exact ⟨fun _ p _ h => absurd h (by omega), fun _ _ p _ h => absurd h (by omega)⟩
  | succ fuel ih =>
    obtain ⟨ih1, ih2⟩ := ih
    refine ⟨fun precedence p hp hf => ?_, fun precedence left p hp hf => ?_⟩
    · rw [parseExpression_succ]
      cases hh : prefixParseFns (parseExpression fuel) p.curToken.Typ with
      | none => exact ⟨_, rfl, hp.noPrefixParseFnError _, Progress.refl_of rfl rfl⟩
      | some handler =>
        have hcall : TotalCall (parseExpression fuel) (p.weight - 1) := by
          intro precedence q hq hw
          have hne : p.curToken.Typ ≠ .EOF := by
            intro h
            rw [h] at hh
            simp [prefixParseFns] at hh
          have := weight_pos_of_cur hne
          exact ih1 precedence q hq (by omega)
        obtain ⟨r1, h1, h2, h3⟩ := total_prefix_handler hcall hp (by omega) hh
        obtain ⟨r, g1, g2, g3⟩ := ih2 precedence r1.1 r1.2 h2 (by have := h3.1; omega)
        exact ⟨r, by simp only [h1, g1], g2, h3.trans g3⟩
    · rw [parseExpressionLoop_succ]
      split
      · cases hh : infixParseFns (parseExpression fuel) p.peekToken.Typ with
        | none => exact ⟨_, rfl, hp, Progress.same p⟩
        | some handler =>
          have hne : p.peekToken.Typ ≠ .EOF := by
            intro h
            rw [h] at hh
            simp [infixParseFns] at hh
          have hpos := weight_pos_of_peek hne
          have hcall : TotalCall (parseExpression fuel) (p.weight - 1) := by
            intro precedence q hq hw
            exact ih1 precedence q hq (by omega)
          have hq := (Progress.nextToken hp).1
          obtain ⟨r1, h1, h2, h3⟩ :=
            total_infix_handler hcall (p := p.nextToken) hp.nextToken_inv (by omega) hh left
          obtain ⟨r, g1, g2, g3⟩ := ih2 precedence r1.1 r1.2 h2 (by omega)
          refine ⟨r, by simp only [h1, g1], g2, ?_⟩
          have hpr : Progress p.nextToken r1.2 :=
            ⟨by omega, fun _ => Or.inr h3⟩
          exact ((Progress.nextToken hp).trans hpr).trans g3
      · exact ⟨_, rfl, hp, Progress.same p⟩

theorem total_semicolon {p q : Parser} (hq : q.Inv) (h : Progress p q) :
    (if q.peekTokenIs .SEMICOLON then q.nextToken else q).Inv ∧
      Progress p (if q.peekTokenIs .SEMICOLON then q.nextToken else q) := by
  split
  · exact ⟨hq.nextToken_inv, h.trans (Progress.nextToken hq)⟩
  · exact ⟨hq, h⟩

theorem total_parseStatement (fuel : Nat) (p : Parser) (hp : p.Inv)
    (hf : 2 * p.weight + 2 ≤ fuel) :
    ∃ r, parseStatement fuel p = some r ∧ r.2.Inv ∧ Progress p r.2 := by
  simp only [parseStatement]
  split
  · simp only [parseLetStatement, expectPeek]
    by_cases h1 : p.peekTokenIs .IDENT = true
    · by_cases h2 : p.nextToken.peekTokenIs .ASSIGN = true
      · have k1 := Progress.nextToken hp
        have k2 := k1.trans (Progress.nextToken hp.nextToken_inv)
        have k3 := k2.trans (Progress.nextToken hp.nextToken_inv.nextToken_inv)
        obtain ⟨⟨e, q⟩, g1, g2, g3⟩ := (total_expression fuel).1 LOWEST
          p.nextToken.nextToken.nextToken hp.nextToken_inv.nextToken_inv.nextToken_inv
          (by have := k3.1; omega)
        simp only [h1, h2, if_true, g1]
        exact ⟨_, rfl, total_semicolon g2 (k3.trans g3)⟩
      · simp only [h1, h2, if_true, Bool.false_eq_true, if_false]
        exact ⟨_, rfl, hp.nextToken_inv.peekError _,
          (Progress.nextToken hp).trans (Progress.refl_of rfl rfl)⟩
    · simp only [h1, Bool.false_eq_true, if_false]
      exact ⟨_, rfl, hp.peekError _, Progress.refl_of rfl rfl⟩
  · simp only [parseExpressionStatement]
    obtain ⟨⟨e, q⟩, g1, g2, g3⟩ := (total_expression fuel).1 LOWEST p hp hf
    simp only [g1]
    exact ⟨_, rfl, total_semicolon g2 g3⟩

/-- The statement loop returns when both budgets cover the weight. -/
theorem total_parseProgramLoop (fuel : Nat) (n : Nat) :
    ∀ (statements : List Statement) (p : Parser), p.Inv → 2 * p.weight + 2 ≤ fuel →
      p.weight + 1 ≤ n → ∃ r, parseProgramLoop fuel n statements p = some r := by
  induction n with
  | zero => intro _ p _ _ h; omega
  | succ n ih =>
    intro statements p hp hf hn
    rw [parseProgramLoop]
    split
    · rename_i hne
      obtain ⟨⟨stmt, q⟩, g1, g2', g3'⟩ := total_parseStatement fuel p hp hf
      have g2 : q.Inv := g2'
      have g3 : Progress p q := g3'
      simp only [g1]
      have hq := nextToken_weight g2
      have hle : q.weight ≤ p.weight := g3.1
      have hlt : q.nextToken.weight + 1 ≤ p.weight := by
        rcases g3.2 hne with ⟨hc, hw⟩ | hlt
        · have := nextToken_lt g2 (by rw [hc]; exact hne)
          omega
        · omega
      exact ih _ _ g2.nextToken_inv (by omega) (by omega)
    · exact ⟨_, rfl⟩

theorem New_weight (src : List Nat) : (New (Lexer.New src)).weight ≤ src.length := by
  have h0 : (⟨Lexer.New src, [], ⟨.ILLEGAL, []⟩, ⟨.ILLEGAL, []⟩⟩ : Parser).Inv :=
    ⟨(Lexer.New_At src).1,
      TokenOK_fixed _ _ (by decide) (by decide) (by decide) (by decide),
      TokenOK_fixed _ _ (by decide) (by decide) (by decide) (by decide)⟩
  have h1 := nextToken_weight h0
  have h2 := nextToken_weight h0.nextToken_inv
  have e1 : tokenWeight (⟨Lexer.New src, [], ⟨.ILLEGAL, []⟩, ⟨.ILLEGAL, []⟩⟩ : Parser).curToken
      = 1 := rfl
  have e2 : tokenWeight (nextToken
      (⟨Lexer.New src, [], ⟨.ILLEGAL, []⟩, ⟨.ILLEGAL, []⟩⟩ : Parser)).curToken = 1 := rfl
  have e3 : (⟨Lexer.New src, [], ⟨.ILLEGAL, []⟩, ⟨.ILLEGAL, []⟩⟩ : Parser).weight
      = src.length + 2 := by
    simp [weight, tokenWeight, Lexer.New, Lexer.readChar]
    omega
  show (nextToken (nextToken _)).weight ≤ _
  omega

/-- The parser returns on every source text: the budget of ParseProgram never runs out. -/
theorem parse_total (src : List Nat) : ∃ program errors, parse src = some (program, errors) := by
  have hw := New_weight src
  have hin := (New_at src).2.2
  obtain ⟨⟨statements, q⟩, h⟩ := total_parseProgramLoop (budget (New (Lexer.New src)))
    (budget (New (Lexer.New src))) [] (New (Lexer.New src)) (New_inv src)
    (by simp only [budget, hin]; omega) (by simp only [budget, hin]; omega)
  exact ⟨⟨statements⟩, q.Errors, by simp only [parse, ParseProgram, h]⟩

end Parser

/-! ## Two infix operators in a row -/

theorem IsOperand.atom {a : List Nat} (h : IsOperand a) :
    ∃ e, IsAtom a e ∧ e.String = some a := by
  rcases h with h | ⟨v, h⟩
  · exact ⟨_, Or.inl ⟨h, rfl⟩, rfl⟩
  · exact ⟨_, Or.inr ⟨v, h, rfl⟩, rfl⟩

namespace Parser

/-- parseExpression at an atom: its node, then the loop. -/
theorem atom_then_loop {a : List Nat} {e : Expression} (h : IsAtom a e) {s : List Nat}
    (hs : Delimited s) {p : Parser} (hp : p.CurAt (a ++ s)) (f precedence : Nat) :
    parseExpression (f + 1) precedence p = parseExpressionLoop f precedence e p ∧
      p.PeekAt s ∧ p.curToken.Typ ≠ .EOF ∧ p.curToken.Typ ≠ .LET := by
  obtain ⟨handler, h1, h2, h3, h4, h5⟩ := atom_handler h hs hp (parseExpression f)
  refine ⟨?_, h3, h4, h5⟩
  rw [parseExpression_succ, h1]
  simp only [h2]

theorem infix_token_of_precedence (t : TokenType) (k : Nat) (h : precedences t = some k) :
    IsInfixToken ⟨t, t.str⟩ :=
  ⟨by simp [h], rfl⟩

/-- parseExpression on "a op1 b op2 c": the left-leaning tree when the second operator
does not bind tighter than the first, the right-leaning one when it does. -/
theorem two_operators {a b c : List Nat} {ea eb ec : Expression} (ha : IsAtom a ea)
    (hb : IsAtom b eb) (hc : IsAtom c ec) {t1 t2 : TokenType} {k1 k2 : Nat}
    (h1 : precedences t1 = some k1) (h2 : precedences t2 = some k2) {p : Parser}
    (hp : p.CurAt (a ++ 32 :: (t1.str ++ 32 :: (b ++ 32 :: (t2.str ++ 32 :: (c ++ []))))))
    (f : Nat) :
    ∃ p1, parseExpression (f + 6) LOWEST p
        = some (if k2 ≤ k1 then
            .InfixExpression ⟨t2, t2.str⟩ (.InfixExpression ⟨t1, t1.str⟩ ea t1.str eb) t2.str ec
          else
            .InfixExpression ⟨t1, t1.str⟩ ea t1.str (.InfixExpression ⟨t2, t2.str⟩ eb t2.str ec),
          p1) ∧
      p1.errors = p.errors ∧ p1.PeekAt [] ∧ p.curToken.Typ ≠ .EOF ∧ p.curToken.Typ ≠ .LET := by
  have ht1 := infix_token_of_precedence t1 k1 h1
  have ht2 := infix_token_of_precedence t2 k2 h2
  have hl1 := (infixParseFns_of_precedence (parseExpression 0) t1 k1 h1).2.2
  have hl2 := (infixParseFns_of_precedence (parseExpression 0) t2 k2 h2).2.2
  obtain ⟨a1, a2, a3, a4⟩ := atom_then_loop ha (delimited_space _) hp (f + 5) LOWEST
  obtain ⟨b1, b2, b3⟩ := a2.infix_token ht1
  obtain ⟨c1, c2, _, _⟩ := atom_then_loop hb (delimited_space _) b2 (f + 3) k1
  obtain ⟨d1, d2, d3⟩ := c2.infix_token ht2
  by_cases hk : k2 ≤ k1
  · obtain ⟨e1, e2, _, _⟩ := atom_then_loop hc delimited_nil d2 (f + 2) k2
    refine ⟨p.nextToken.nextToken.nextToken.nextToken, ?_, by rw [d3, b3], e2, a3, a4⟩
    have hright1 : parseExpression (f + 4) k1 p.nextToken.nextToken
        = some (eb, p.nextToken.nextToken) := by
      rw [c1]
      exact loop_infix_stop (f + 2) k1 eb d1 k2 h2 hk
    have hright2 : parseExpression (f + 3) k2 p.nextToken.nextToken.nextToken.nextToken
        = some (ec, p.nextToken.nextToken.nextToken.nextToken) := by
      rw [e1]
      exact loop_stop_eof (f + 1) k2 ec e2 (by omega)
    rw [a1, loop_infix_step (f + 4) LOWEST ea b1 k1 h1 hl1 hright1,
      loop_infix_step (f + 3) LOWEST _ d1 k2 h2 hl2 hright2, if_pos hk]
    exact loop_stop_eof (f + 2) LOWEST _ e2 (by decide)
  · obtain ⟨e1, e2, _, _⟩ := atom_then_loop hc delimited_nil d2 (f + 1) k2
    refine ⟨p.nextToken.nextToken.nextToken.nextToken, ?_, by rw [d3, b3], e2, a3, a4⟩
    have hright2 : parseExpression (f + 2) k2 p.nextToken.nextToken.nextToken.nextToken
        = some (ec, p.nextToken.nextToken.nextToken.nextToken) := by
      rw [e1]
      exact loop_stop_eof f k2 ec e2 (by omega)
    have hright1 : parseExpression (f + 4) k1 p.nextToken.nextToken
        = some (.InfixExpression ⟨t2, t2.str⟩ eb t2.str ec,
            p.nextToken.nextToken.nextToken.nextToken) := by
      rw [c1, loop_infix_step (f + 2) k1 eb d1 k2 h2 (by omega) hright2]
      exact loop_stop_eof (f + 1) k1 _ e2 (by omega)
    rw [a1, loop_infix_step (f + 4) LOWEST ea b1 k1 h1 hl1 hright1, if_neg hk]
    exact loop_stop_eof (f + 3) LOWEST _ e2 (by decide)

end Parser

/-- C2: for atomic operands `a`, `b`, `c` and infix operators of the kinds `t1` and `t2`
with precedences `k1` and `k2`, the text "a op1 b op2 c" parses without errors to one
expression statement, whose string is "((a op1 b) op2 c)" when `k2 ≤ k1` and
"(a op1 (b op2 c))" when `k1 < k2`; the precedences of the eight operators are
Equals for `==` and `!=`, below LessGreater for `<` and `>`, below Sum for `+` and `-`,
below Product for `*` and `/`. -/
theorem precedence_climbing (a b c : List Nat) (t1 t2 : TokenType) (k1 k2 : Nat)
    (ha : IsOperand a) (hb : IsOperand b) (hc : IsOperand c)
    (h1 : precedences t1 = some k1) (h2 : precedences t2 = some k2) :
    (∃ tok e, parse (a ++ bytesOf " " ++ t1.str ++ bytesOf " " ++ b ++ bytesOf " " ++ t2.str ++
          bytesOf " " ++ c) = some (⟨[.ExpressionStatement tok e]⟩, []) ∧
        e.String = some (if k2 ≤ k1 then
          bytesOf "((" ++ a ++ bytesOf " " ++ t1.str ++ bytesOf " " ++ b ++ bytesOf ") " ++ t2.str ++
            bytesOf " " ++ c ++ bytesOf ")"
        else
          bytesOf "(" ++ a ++ bytesOf " " ++ t1.str ++ bytesOf " (" ++ b ++ bytesOf " " ++ t2.str ++
            bytesOf " " ++ c ++ bytesOf "))")) ∧
    (precedences .EQ = some EQUALS ∧ precedences .NOT_EQ = some EQUALS ∧
      precedences .LT = some LESSGREATER ∧ precedences .GT = some LESSGREATER ∧
      precedences .PLUS = some SUM ∧ precedences .MINUS = some SUM ∧
      precedences .ASTERISK = some PRODUCT ∧ precedences .SLASH = some PRODUCT ∧
      EQUALS < LESSGREATER ∧ LESSGREATER < SUM ∧ SUM < PRODUCT) := by
  refine ⟨?_, rfl, rfl, rfl, rfl, rfl, rfl, rfl, rfl, by decide, by decide, by decide⟩
  obtain ⟨ea, hea, sa⟩ := ha.atom
  obtain ⟨eb, heb, sb⟩ := hb.atom
  obtain ⟨ec, hec, sc⟩ := hc.atom
  have hsrc : a ++ bytesOf " " ++ t1.str ++ bytesOf " " ++ b ++ bytesOf " " ++ t2.str ++
      bytesOf " " ++ c = a ++ 32 :: (t1.str ++ 32 :: (b ++ 32 :: (t2.str ++ 32 :: (c ++ [])))) := by
    simp [bytesOf_space]
  rw [hsrc]
  obtain ⟨hcur, herr, hin⟩ :=
    Parser.New_at (a ++ 32 :: (t1.str ++ 32 :: (b ++ 32 :: (t2.str ++ 32 :: (c ++ [])))))
  obtain ⟨p1, g1, g2, g3, g4, g5⟩ := Parser.two_operators hea heb hec h1 h2 hcur
    (2 * (Parser.New (Lexer.New
      (a ++ 32 :: (t1.str ++ 32 :: (b ++ 32 :: (t2.str ++ 32 :: (c ++ []))))))).lex.input.length + 2)
  have hp := Parser.parse_single _ _ p1 g4 g5 g1 g3.eof
  rw [g2, herr] at hp
  refine ⟨_, _, hp, ?_⟩
  split_ifs
  · simp [Expression.String, sa, sb, sc, bytesOf_space, bytesOf_lparen, bytesOf_rparen,
      show bytesOf "((" = [40, 40] from by decide, show bytesOf ") " = [41, 32] from by decide]
  · simp [Expression.String, sa, sb, sc, bytesOf_space, bytesOf_lparen, bytesOf_rparen,
      show bytesOf " (" = [32, 40] from by decide, show bytesOf "))" = [41, 41] from by decide]

theorem precedence_climbing_witness :
    IsOperand (bytesOf "x") ∧ IsOperand (bytesOf "12") ∧ IsOperand (bytesOf "y") ∧
    precedences .PLUS = some 4 ∧ precedences .ASTERISK = some 5 ∧
    ∃ tok e, parse (bytesOf "x" ++ bytesOf " " ++ TokenType.PLUS.str ++ bytesOf " " ++ bytesOf "12" ++
          bytesOf " " ++ TokenType.ASTERISK.str ++ bytesOf " " ++ bytesOf "y")
        = some (⟨[.ExpressionStatement tok e]⟩, []) ∧
      e.String = some (if 5 ≤ 4 then
          bytesOf "((" ++ bytesOf "x" ++ bytesOf " " ++ TokenType.PLUS.str ++ bytesOf " " ++
            bytesOf "12" ++ bytesOf ") " ++ TokenType.ASTERISK.str ++ bytesOf " " ++ bytesOf "y" ++
            bytesOf ")"
        else
          bytesOf "(" ++ bytesOf "x" ++ bytesOf " " ++ TokenType.PLUS.str ++ bytesOf " (" ++
            bytesOf "12" ++ bytesOf " " ++ TokenType.ASTERISK.str ++ bytesOf " " ++ bytesOf "y" ++
            bytesOf "))") :=
  ⟨Or.inl ⟨by decide, by decide, by decide⟩, Or.inr ⟨12, by decide, by decide, by decide⟩,
    Or.inl ⟨by decide, by decide, by decide⟩, rfl, rfl,
    (precedence_climbing (bytesOf "x") (bytesOf "12") (bytesOf "y") .PLUS .ASTERISK 4 5
      (Or.inl ⟨by decide, by decide, by decide⟩) (Or.inr ⟨12, by decide, by decide, by decide⟩)
      (Or.inl ⟨by decide, by decide, by decide⟩) rfl rfl).1⟩

/-- Evaluating an expression returns the environment it was given. -/
theorem EvalExpression_env (e : Expression) :
    ∀ (env : Environment) (r : Object) (env1 : Environment),
      EvalExpression e env = some (r, env1) → env1 = env := by
  induction e with
  | nil => intro env r env1 h; simp [EvalExpression] at h; exact h.2.symm
  | Identifier tok v => intro env r env1 h; simp [EvalExpression] at h; exact h.2.symm
  | IntegerLiteral tok v => intro env r env1 h; simp [EvalExpression] at h; exact h.2.symm
  | PrefixExpression tok op right ih =>
    intro env r env1 h
    simp only [EvalExpression] at h
    cases hr : EvalExpression right env with
    | none => simp [hr] at h
    | some res =>
      obtain ⟨v, env2⟩ := res
      have h2 := ih env v env2 hr
      subst h2
      simp only [hr] at h
      split at h
      · simp at h; exact h.2.symm
      · cases hp : evalPrefixExpression op v with
        | none => simp [hp] at h
        | some w => simp [hp] at h; exact h.2.symm
  | InfixExpression tok left op right ihl ihr =>
    intro env r env1 h
    simp only [EvalExpression] at h
    cases hl : EvalExpression left env with
    | none => simp [hl] at h
    | some res =>
      obtain ⟨v, env2⟩ := res
      have h2 := ihl env v env2 hl
      subst h2
      simp only [hl] at h
      split at h
      · simp at h; exact h.2.symm
      · cases hr : EvalExpression right env2 with
        | none => simp [hr] at h
        | some res2 =>
          obtain ⟨w, env3⟩ := res2
          have h3 := ihr env2 w env3 hr
          subst h3
          simp only [hr] at h
          split at h
          · simp at h; exact h.2.symm
          · cases hp : evalInfixExpression op v w with
            | none => simp [hp] at h
            | some u => simp [hp] at h; exact h.2.symm

namespace Environment

theorem Get_Set_self (env : Environment) (x : List Nat) (v : Object) :
    (env.Set x v).Get x = some v := by
  cases env with
  | mk store outer => cases outer <;> simp [Set, Get, List.lookup]

theorem lookup_filter_ne (store : Store) (x y : List Nat) (h : y ≠ x) :
    (store.filter (fun kv => kv.1 != x)).lookup y = store.lookup y := by
  induction store with
  | nil => rfl
  | cons kv rest ih =>
    obtain ⟨k, w⟩ := kv
    by_cases hk : k = x
    · subst hk
      have : (y == k) = false := by simpa using h
      simp [List.filter, List.lookup, this, ih]
    · have hk2 : (k != x) = true := by simpa using hk
      simp only [List.filter, hk2, List.lookup]
      rw [ih]

theorem store_Set_other (env : Environment) (x y : List Nat) (v : Object) (h : y ≠ x) :
    (env.Set x v).store.lookup y = env.store.lookup y := by
  cases env with
  | mk store outer =>
    have : (y == x) = false := by simpa using h
    simp [Set, Environment.store, List.lookup, this, lookup_filter_ne store x y h]

theorem outer_Set (env : Environment) (x : List Nat) (v : Object) :
    (env.Set x v).outer = env.outer := by
  cases env with
  | mk store outer => rfl

theorem Get_Set_other (env : Environment) (x y : List Nat) (v : Object) (h : y ≠ x) :
    (env.Set x v).Get y = env.Get y := by
  cases env with
  | mk store outer =>
    have h1 := store_Set_other (.mk store outer) x y v h
    simp only [Set, Environment.store] at h1
    cases outer <;> simp only [Set, Get, h1]

theorem filter_Set_self (env : Environment) (x : List Nat) (v : Object) :
    (env.Set x v).store.filter (fun kv => kv.1 == x) = [(x, v)] := by
  cases env with
  | mk store outer =>
    simp only [Set, Environment.store, List.filter, beq_self_eq_true]
    congr 1
    rw [List.filter_filter]
    apply List.filter_eq_nil_iff.mpr
    intro a _
    simp

end Environment

/-- A statement that evaluates to an Error leaves the environment as it was. -/
theorem EvalStatement_Error_env (s : Statement) (env env1 : Environment) (m : List Nat)
    (h : EvalStatement s env = some (.Error m, env1)) : env1 = env := by
  cases s with
  | nil => simp [EvalStatement] at h
  | nilLetStatement => simp [EvalStatement] at h
  | ExpressionStatement tok e => exact EvalExpression_env e env _ _ h
  | LetStatement tok name value =>
    simp only [EvalStatement] at h
    cases hv : EvalExpression value env with
    | none => simp [hv] at h
    | some res =>
      obtain ⟨v, env2⟩ := res
      have h2 := EvalExpression_env value env v env2 hv
      subst h2
      simp only [hv] at h
      split at h
      · simp at h; exact h.2.symm
      · cases name with
        | none => simp at h
        | some n => simp at h

theorem evalProgramLoop_append (pre : List Statement) :
    ∀ (res : Object) (env env1 : Environment) (rest : List Statement),
      runThrough pre env = some env1 →
      ∃ res1, evalProgramLoop res (pre ++ rest) env = evalProgramLoop res1 rest env1 := by
  induction pre with
  | nil =>
    intro res env env1 rest h
    simp [runThrough] at h
    subst h
    exact ⟨res, rfl⟩
  | cons s pre ih =>
    intro res env env1 rest h
    simp only [runThrough] at h
    simp only [List.cons_append, evalProgramLoop]
    cases hs : EvalStatement s env with
    | none => simp [hs] at h
    | some r =>
      obtain ⟨v, env2⟩ := r
      cases v with
      | nil => simp only [hs] at h ⊢; exact ih _ _ _ _ h
      | Integer a => simp only [hs] at h ⊢; exact ih _ _ _ _ h
      | Error m => simp [hs] at h
      | ReturnValue w => simp [hs] at h

/-- C6: when the statements before `s` run to completion from `env` and leave `env1`, and
`s` evaluates there to an Error, Eval of the program returns that Error and the
environment `env1`, whatever statements follow `s`. -/
theorem evalProgram_fail_fast (pre post : List Statement) (s : Statement)
    (env env1 env2 : Environment) (m : List Nat)
    (hpre : runThrough pre env = some env1)
    (hs : EvalStatement s env1 = some (.Error m, env2)) :
    Eval (.Program ⟨pre ++ s :: post⟩) env = some (.Error m, env1) := by
  have h2 := EvalStatement_Error_env s env1 env2 m hs
  subst h2
  obtain ⟨res1, h⟩ := evalProgramLoop_append pre .nil env env2 (s :: post) hpre
  simp only [Eval, evalProgram, h, evalProgramLoop, hs]

theorem evalProgram_fail_fast_witness :
    runThrough (statementsOf "let x = 5;") freshEnv = some (freshEnv.Set (bytesOf "x") (.Integer 5)) ∧
    EvalStatement (.ExpressionStatement ⟨.IDENT, bytesOf "y"⟩ (.Identifier ⟨.IDENT, bytesOf "y"⟩ (bytesOf "y")))
      (freshEnv.Set (bytesOf "x") (.Integer 5))
      = some (.Error (bytesOf "identifier not found: y"), freshEnv.Set (bytesOf "x") (.Integer 5)) ∧
    Eval (.Program ⟨statementsOf "let x = 5;" ++
        .ExpressionStatement ⟨.IDENT, bytesOf "y"⟩ (.Identifier ⟨.IDENT, bytesOf "y"⟩ (bytesOf "y")) ::
          statementsOf "let z = 1;"⟩) freshEnv
      = some (.Error (bytesOf "identifier not found: y"), freshEnv.Set (bytesOf "x") (.Integer 5)) :=
  ⟨by rfl, by rfl, evalProgram_fail_fast _ _ _ _ _ _ _ (by rfl) (by rfl)⟩

/-- C7: a let statement whose value evaluates to a non-Error `v` returns nil and leaves the
environment `env.Set x v`, in which `x` is looked up as `v` and the scope holds that one
entry for `x`; and "let x = 5; x + 1" evaluates to Integer 6 in every environment, after
which "x" evaluates to Integer 5 in the environment left behind. -/
theorem let_binds :
    (∀ (tok : Token) (x : Identifier) (e : Expression) (env env1 : Environment) (v : Object),
      EvalExpression e env = some (v, env1) → isError v = false →
        Eval (.Statement (.LetStatement tok (some x) e)) env = some (.nil, env.Set x.Value v) ∧
        (env.Set x.Value v).Get x.Value = some v ∧
        (env.Set x.Value v).store.filter (fun kv => kv.1 == x.Value) = [(x.Value, v)]) ∧
    (∃ p1 p2, parse (bytesOf "let x = 5; x + 1") = some (p1, []) ∧
      parse (bytesOf "x") = some (p2, []) ∧
      ∀ env, ∃ env1, Eval (.Program p1) env = some (.Integer 6, env1) ∧
        Eval (.Program p2) env1 = some (.Integer 5, env1)) := by
  refine ⟨?_, ?_⟩
  · intro tok x e env env1 v h hv
    have h1 := EvalExpression_env e env v env1 h
    subst h1
    refine ⟨?_, Environment.Get_Set_self _ _ _, Environment.filter_Set_self _ _ _⟩
    simp [Eval, EvalStatement, h, hv]
  · refine ⟨⟨[letStmt "x" (intLit "5" 5),
        .ExpressionStatement ⟨.IDENT, bytesOf "x"⟩ (binop .PLUS (ident "x") (intLit "1" 1))]⟩,
      ⟨[.ExpressionStatement ⟨.IDENT, bytesOf "x"⟩ (ident "x")]⟩, rfl, rfl, ?_⟩
    intro env
    have h1 : EvalStatement (letStmt "x" (intLit "5" 5)) env
        = some (.nil, env.Set (bytesOf "x") (.Integer 5)) := by
      simp [letStmt, intLit, EvalStatement, EvalExpression, isError]
    have h2 : ∀ tok, EvalStatement (.ExpressionStatement tok (binop .PLUS (ident "x") (intLit "1" 1)))
        (env.Set (bytesOf "x") (.Integer 5))
        = some (.Integer 6, env.Set (bytesOf "x") (.Integer 5)) := by
      intro tok
      simp only [binop, ident, intLit, EvalStatement, EvalExpression, evalIdentifier,
        Environment.Get_Set_self, isError, evalInfixExpression]
      rfl
    have h3 : ∀ tok, EvalStatement (.ExpressionStatement tok (ident "x"))
        (env.Set (bytesOf "x") (.Integer 5))
        = some (.Integer 5, env.Set (bytesOf "x") (.Integer 5)) := by
      intro tok
      simp only [ident, EvalStatement, EvalExpression, evalIdentifier,
        Environment.Get_Set_self]
    refine ⟨env.Set (bytesOf "x") (.Integer 5), ?_, ?_⟩
    · simp only [Eval, evalProgram, evalProgramLoop, h1, h2]
    · simp only [Eval, evalProgram, evalProgramLoop, h3]

theorem let_binds_witness :
    Eval (.Statement (.LetStatement ⟨.LET, bytesOf "let"⟩ (some ⟨⟨.IDENT, bytesOf "x"⟩, bytesOf "x"⟩)
        (.IntegerLiteral ⟨.INT, bytesOf "5"⟩ 5))) freshEnv
      = some (.nil, freshEnv.Set (bytesOf "x") (.Integer 5)) :=
  (let_binds.1 ⟨.LET, bytesOf "let"⟩ ⟨⟨.IDENT, bytesOf "x"⟩, bytesOf "x"⟩
    (.IntegerLiteral ⟨.INT, bytesOf "5"⟩ 5) freshEnv freshEnv (.Integer 5) (by rfl) (by rfl)).1

/-- C8: a let statement whose value expression evaluates to an Error returns that Error and
the environment it was given, so the name is neither bound nor rebound. -/
theorem let_error_no_binding (tok : Token) (name : Option Identifier) (value : Expression)
    (env env1 : Environment) (m : List Nat)
    (h : EvalExpression value env = some (.Error m, env1)) :
    Eval (.Statement (.LetStatement tok name value)) env = some (.Error m, env) := by
  have h1 := EvalExpression_env value env _ env1 h
  subst h1
  simp [Eval, EvalStatement, h, isError]

theorem let_error_no_binding_witness :
    statementsOf "let x = !5;" = [letStmt "x" (unop .BANG (intLit "5" 5))] ∧
    EvalExpression (unop .BANG (intLit "5" 5)) (freshEnv.Set (bytesOf "x") (.Integer 1))
      = some (.Error (bytesOf "unknown operator: !INTEGER"),
          freshEnv.Set (bytesOf "x") (.Integer 1)) ∧
    Eval (.Statement (letStmt "x" (unop .BANG (intLit "5" 5))))
        (freshEnv.Set (bytesOf "x") (.Integer 1))
      = some (.Error (bytesOf "unknown operator: !INTEGER"),
          freshEnv.Set (bytesOf "x") (.Integer 1)) :=
  ⟨by rfl, by rfl, let_error_no_binding _ _ _ _ _ _ (by rfl)⟩

theorem wrap64_of_range (x : Int) (h1 : -2 ^ 63 ≤ x) (h2 : x < 2 ^ 63) : wrap64 x = x := by
  unfold wrap64
  omega

theorem wrap64_range (x : Int) : -2 ^ 63 ≤ wrap64 x ∧ wrap64 x < 2 ^ 63 := by
  unfold wrap64
  omega

theorem wrap64_congruent (x : Int) : (wrap64 x - x) % 2 ^ 64 = 0 := by
  unfold wrap64
  omega

/-- The truncated quotient of two int64 values is an int64 value, except for the quotient
of the minimum by -1. -/
theorem tdiv_range (a b : Int) (ha1 : -2 ^ 63 ≤ a) (ha2 : a < 2 ^ 63) (hb : b ≠ 0)
    (hne : ¬ (a = -2 ^ 63 ∧ b = -1)) :
    -2 ^ 63 ≤ Int.tdiv a b ∧ Int.tdiv a b < 2 ^ 63 := by
  have hq : (Int.tdiv a b).natAbs = a.natAbs / b.natAbs := Int.natAbs_tdiv a b
  have hbpos : 0 < b.natAbs := Int.natAbs_pos.mpr hb
  have hle : a.natAbs / b.natAbs ≤ a.natAbs := Nat.div_le_self _ _
  by_cases hb1 : b.natAbs = 1
  · rcases Int.natAbs_eq b with hb2 | hb2
    · have : b = 1 := by omega
      subst this
      simp only [Int.tdiv_one]
      omega
    · have : b = -1 := by omega
      subst this
      have h3 : Int.tdiv a (-1) = -a := by
        rw [Int.tdiv_neg, Int.tdiv_one]
      rw [h3]
      have : a ≠ -2 ^ 63 := fun h => hne ⟨h, rfl⟩
      omega
  · have h2 : 2 ≤ b.natAbs := by omega
    have h3 : a.natAbs / b.natAbs * 2 ≤ a.natAbs := by
      calc a.natAbs / b.natAbs * 2 ≤ a.natAbs / b.natAbs * b.natAbs := Nat.mul_le_mul_left _ h2
        _ ≤ a.natAbs := Nat.div_mul_le_self _ _
    omega

/-- C5 (as amended): the four arithmetic operators on operands that evaluate to the int64
values `a` and `b` yield the exact sum, difference and product reduced to int64 modulo
`2^64`, and for a divisor other than zero the quotient truncated toward zero, reduced in
the same way; the reduction changes the quotient only for `-2^63 / -1`.  "-7 / 2" gives
-3 and "5 + 5 * 2" gives 15. -/
theorem integer_infix_arith :
    (∀ (tok : Token) (l r : Expression) (env env1 env2 : Environment) (a b : Int),
      EvalExpression l env = some (.Integer a, env1) →
      EvalExpression r env = some (.Integer b, env2) →
        Eval (.Expression (.InfixExpression tok l (bytesOf "+") r)) env
          = some (.Integer (wrap64 (a + b)), env) ∧
        Eval (.Expression (.InfixExpression tok l (bytesOf "-") r)) env
          = some (.Integer (wrap64 (a - b)), env) ∧
        Eval (.Expression (.InfixExpression tok l (bytesOf "*") r)) env
          = some (.Integer (wrap64 (a * b)), env) ∧
        (b ≠ 0 → Eval (.Expression (.InfixExpression tok l (bytesOf "/") r)) env
          = some (.Integer (wrap64 (Int.tdiv a b)), env)) ∧
        (b ≠ 0 → -2 ^ 63 ≤ a → a < 2 ^ 63 → ¬ (a = -2 ^ 63 ∧ b = -1) →
          Eval (.Expression (.InfixExpression tok l (bytesOf "/") r)) env
            = some (.Integer (Int.tdiv a b), env))) ∧
    (∀ x : Int, -2 ^ 63 ≤ wrap64 x ∧ wrap64 x < 2 ^ 63 ∧ (wrap64 x - x) % 2 ^ 64 = 0) ∧
    (parse (bytesOf "-7 / 2")).map (fun r => (r.2, Eval (.Program r.1) freshEnv))
      = some ([], some (.Integer (-3), freshEnv)) ∧
    (parse (bytesOf "5 + 5 * 2")).map (fun r => (r.2, Eval (.Program r.1) freshEnv))
      = some ([], some (.Integer 15, freshEnv)) := by
  refine ⟨?_, fun x => ⟨(wrap64_range x).1, (wrap64_range x).2, wrap64_congruent x⟩,
    by rfl, by rfl⟩
  intro tok l r env env1 env2 a b hl hr
  rw [EvalExpression_env l env _ env1 hl] at hl
  rw [EvalExpression_env r env _ env2 hr] at hr
  have hdiv : b ≠ 0 → Eval (.Expression (.InfixExpression tok l (bytesOf "/") r)) env
      = some (.Integer (wrap64 (Int.tdiv a b)), env) := by
    intro hb
    simp only [Eval, EvalExpression, hl, hr, isError, evalInfixExpression]
    have e1 : evalIntegerInfixExpression (bytesOf "/") a b
        = some (.Integer (wrap64 (Int.tdiv a b))) := by
      unfold evalIntegerInfixExpression
      rw [if_neg (by decide), if_neg (by decide), if_neg (by decide), if_pos rfl, if_neg hb]
    simp [e1]
  refine ⟨?_, ?_, ?_, hdiv, ?_⟩
  · simp only [Eval, EvalExpression, hl, hr, isError, evalInfixExpression]
    have e1 : evalIntegerInfixExpression (bytesOf "+") a b = some (.Integer (wrap64 (a + b))) := by
      unfold evalIntegerInfixExpression
      rw [if_pos rfl]
    simp [e1]
  · simp only [Eval, EvalExpression, hl, hr, isError, evalInfixExpression]
    have e1 : evalIntegerInfixExpression (bytesOf "-") a b = some (.Integer (wrap64 (a - b))) := by
      unfold evalIntegerInfixExpression
      rw [if_neg (by decide), if_pos rfl]
    simp [e1]
  · simp only [Eval, EvalExpression, hl, hr, isError, evalInfixExpression]
    have e1 : evalIntegerInfixExpression (bytesOf "*") a b = some (.Integer (wrap64 (a * b))) := by
      unfold evalIntegerInfixExpression
      rw [if_neg (by decide), if_neg (by decide), if_pos rfl]
    simp [e1]
  · intro hb ha1 ha2 hne
    rw [hdiv hb, wrap64_of_range _ (tdiv_range a b ha1 ha2 hb hne).1
      (tdiv_range a b ha1 ha2 hb hne).2]

theorem integer_infix_arith_witness :
    Eval (.Expression (.InfixExpression ⟨.SLASH, bytesOf "/"⟩
        (unop .MINUS (intLit "7" 7)) (bytesOf "/") (intLit "2" 2))) freshEnv
      = some (.Integer (-3), freshEnv) :=
  (by decide : Int.tdiv (-7) 2 = -3) ▸
    (integer_infix_arith.1 ⟨.SLASH, bytesOf "/"⟩ (unop .MINUS (intLit "7" 7)) (intLit "2" 2)
      freshEnv freshEnv freshEnv (-7) 2 (by rfl) (by rfl)).2.2.2.2 (by decide) (by decide)
        (by decide) (by decide)

/-- C5 (as stated) fails: the operands of "(-9223372036854775807 - 1) / -1" evaluate to
the Integers `-2^63` and `-1`, the quotient truncated toward zero is `2^63`, and the
result is Integer `-2^63`. -/
theorem integer_division_min_by_minus_one :
    (parse (bytesOf "(-9223372036854775807 - 1) / -1")).map
        (fun r => (r.2, Eval (.Program r.1) freshEnv))
      = some ([], some (.Integer (-9223372036854775808), freshEnv)) ∧
    (parse (bytesOf "-9223372036854775807 - 1")).map
        (fun r => (r.2, Eval (.Program r.1) freshEnv))
      = some ([], some (.Integer (-9223372036854775808), freshEnv)) ∧
    (parse (bytesOf "-1")).map (fun r => (r.2, Eval (.Program r.1) freshEnv))
      = some ([], some (.Integer (-1), freshEnv)) ∧
    Int.tdiv (-9223372036854775808) (-1) = 9223372036854775808 := by
  refine ⟨by rfl, by rfl, by rfl, by decide⟩

/-- C4 fails on the code: "1 / 0" parses without an error and its evaluation on the fresh
environment is a runtime panic (integer division by zero), not an Error value. -/
theorem division_by_zero_panics :
    (parse (bytesOf "1 / 0")).map (fun r => (r.2, Eval (.Program r.1) freshEnv))
      = some ([], none) := by
  rfl

/-- C9: Eval of an expression node and of an expression statement returns the environment
it was given, whatever the object; Eval of a let statement returns it unless the value is
not an Error, and then the environment is `env.Set x v`, which has the same enclosing
environment and, for every other name, the same entry in its own scope and the same
lookup result. -/
theorem Eval_frame :
    (∀ (e : Expression) (env env1 : Environment) (r : Object),
      Eval (.Expression e) env = some (r, env1) → env1 = env) ∧
    (∀ (tok : Token) (e : Expression) (env env1 : Environment) (r : Object),
      Eval (.Statement (.ExpressionStatement tok e)) env = some (r, env1) → env1 = env) ∧
    (∀ (tok : Token) (name : Option Identifier) (value : Expression)
        (env env1 : Environment) (r : Object),
      Eval (.Statement (.LetStatement tok name value)) env = some (r, env1) →
        env1 = env ∨
        ∃ x v, name = some x ∧ EvalExpression value env = some (v, env) ∧
          isError v = false ∧ r = .nil ∧ env1 = env.Set x.Value v) ∧
    (∀ (env : Environment) (x : List Nat) (v : Object),
      (env.Set x v).outer = env.outer ∧
      ∀ y, y ≠ x → (env.Set x v).store.lookup y = env.store.lookup y ∧
        (env.Set x v).Get y = env.Get y) := by
  refine ⟨fun e env env1 r h => EvalExpression_env e env r env1 h,
    fun tok e env env1 r h => EvalExpression_env e env r env1 h, ?_,
    fun env x v => ⟨Environment.outer_Set env x v, fun y hy =>
      ⟨Environment.store_Set_other env x y v hy, Environment.Get_Set_other env x y v hy⟩⟩⟩
  intro tok name value env env1 r h
  simp only [Eval, EvalStatement] at h
  cases hv : EvalExpression value env with
  | none => simp [hv] at h
  | some res =>
    obtain ⟨v, env2⟩ := res
    have henv := (EvalExpression_env value env v env2 hv).symm
    subst henv
    simp only [hv] at h
    by_cases he : isError v = true
    · simp [he] at h
      exact Or.inl h.2.symm
    · cases name with
      | none => simp [he] at h
      | some x =>
        simp [he] at h
        exact Or.inr ⟨x, v, rfl, rfl, by simpa using he, h.1.symm, h.2.symm⟩

theorem Eval_frame_witness :
    Eval (.Expression (binop .PLUS (ident "x") (intLit "1" 1)))
        (freshEnv.Set (bytesOf "x") (.Integer 5))
      = some (.Integer 6, freshEnv.Set (bytesOf "x") (.Integer 5)) ∧
    freshEnv.Set (bytesOf "x") (.Integer 5) = freshEnv.Set (bytesOf "x") (.Integer 5) :=
  ⟨by rfl, Eval_frame.1 (binop .PLUS (ident "x") (intLit "1" 1))
    (freshEnv.Set (bytesOf "x") (.Integer 5)) (freshEnv.Set (bytesOf "x") (.Integer 5))
    (.Integer 6) (by rfl)⟩

/-! ## The token stream of the lexer -/

namespace Lexer

theorem afterCalls_add (l : Lexer) (a b : Nat) :
    afterCalls (a + b) l = afterCalls b (afterCalls a l) := by
  induction b with
  | zero => rfl
  | succ b ih =>
    show (afterCalls (a + b) l).NextToken.2 = (afterCalls b (afterCalls a l)).NextToken.2
    rw [ih]

theorem afterCalls_input (l : Lexer) (n : Nat) : (afterCalls n l).input = l.input := by
  induction n with
  | zero => rfl
  | succ n ih =>
    show (afterCalls n l).NextToken.2.input = l.input
    rw [NextToken_input, ih]

theorem skipWhitespace_input (l : Lexer) : l.skipWhitespace.input = l.input :=
  readWhile_input _ _ _

theorem Inv.afterCalls_inv {l : Lexer} (h : l.Inv) (n : Nat) : (afterCalls n l).Inv := by
  induction n with
  | zero => exact h
  | succ n ih =>
    obtain ⟨l1, h1, h2⟩ := ih.at.NextToken_scan
    show (afterCalls n l).NextToken.2.Inv
    rw [h1]
    exact h2.1

theorem afterCalls_New_inv (src : List Nat) (n : Nat) : (afterCalls n (New src)).Inv :=
  (New_At src).1.afterCalls_inv n

/-- At the end of the text the lexer returns the end-of-input token and stays at the end. -/
theorem At.nil_step {l : Lexer} (h : l.At []) :
    l.NextToken.1 = ⟨.EOF, []⟩ ∧ l.NextToken.2.At [] := by
  obtain ⟨l1, h1, h2⟩ := h.NextToken_scan
  rw [h1]
  exact ⟨rfl, h2⟩

theorem At.nil_forever {l : Lexer} (h : l.At []) (k : Nat) :
    (afterCalls k l).At [] ∧ l.tokenAt k = ⟨.EOF, []⟩ := by
  induction k with
  | zero => exact ⟨h, h.nil_step.1⟩
  | succ k ih =>
    have h1 : (afterCalls (k + 1) l).At [] := ih.1.nil_step.2
    exact ⟨h1, h1.nil_step.1⟩

end Lexer

namespace Lexer

/-- NextToken returns the end-of-input token only when the byte under the cursor, after the
whitespace, is the zero byte. -/
theorem NextToken_EOF_ch (l : Lexer) (h : l.NextToken.1.Typ = .EOF) :
    l.skipWhitespace.ch = 0 := by
  unfold Lexer.NextToken at h
  generalize l.skipWhitespace = l1 at h
  simp only [newToken] at h
  by_cases c61 : l1.ch = 61
  · simp only [c61, if_true] at h
    split at h <;> cases h
  simp only [c61, if_false] at h
  by_cases c43 : l1.ch = 43
  · simp only [c43, if_true] at h
    cases h
  simp only [c43, if_false] at h
  by_cases c45 : l1.ch = 45
  · simp only [c45, if_true] at h
    cases h
  simp only [c45, if_false] at h
  by_cases c33 : l1.ch = 33
  · simp only [c33, if_true] at h
    split at h <;> cases h
  simp only [c33, if_false] at h
  by_cases c47 : l1.ch = 47
  · simp only [c47, if_true] at h
    cases h
  simp only [c47, if_false] at h
  by_cases c42 : l1.ch = 42
  · simp only [c42, if_true] at h
    cases h
  simp only [c42, if_false] at h
  by_cases c60 : l1.ch = 60
  · simp only [c60, if_true] at h
    cases h
  simp only [c60, if_false] at h
  by_cases c62 : l1.ch = 62
  · simp only [c62, if_true] at h
    cases h
  simp only [c62, if_false] at h
  by_cases c59 : l1.ch = 59
  · simp only [c59, if_true] at h
    cases h
  simp only [c59, if_false] at h
  by_cases c44 : l1.ch = 44
  · simp only [c44, if_true] at h
    cases h
  simp only [c44, if_false] at h
  by_cases c40 : l1.ch = 40
  · simp only [c40, if_true] at h
    cases h
  simp only [c40, if_false] at h
  by_cases c41 : l1.ch = 41
  · simp only [c41, if_true] at h
    cases h
  simp only [c41, if_false] at h
  by_cases c123 : l1.ch = 123
  · simp only [c123, if_true] at h
    cases h
  simp only [c123, if_false] at h
  by_cases c125 : l1.ch = 125
  · simp only [c125, if_true] at h
    cases h
  simp only [c125, if_false] at h
  by_cases c0 : l1.ch = 0
  · exact c0
  simp only [c0, if_false] at h
  by_cases cl : isLetter l1.ch = true
  · simp only [cl, if_true] at h
    rcases LookupIdent_cases (l1.readIdentifier.1) with ⟨g, _⟩ | ⟨g, _⟩ | g <;> rw [g] at h <;> cases h
  simp only [cl, if_false] at h
  by_cases cd : isDigit l1.ch = true
  · simp only [cd, if_true] at h
    cases h
  simp only [cd, if_false] at h
  cases h

/-- On the zero byte NextToken returns the end-of-input token and advances by one byte. -/
theorem NextToken_zero (l : Lexer) (h : l.skipWhitespace.ch = 0) :
    l.NextToken = (⟨.EOF, []⟩, l.skipWhitespace.readChar) := by
  unfold Lexer.NextToken
  simp only [h]
  rfl

/-- On a byte that is no operator, no delimiter, not zero, no letter and no digit NextToken
returns an ILLEGAL token made from that byte and advances by one byte. -/
theorem NextToken_other (l : Lexer) (hs : l.skipWhitespace.ch ∉ specialBytes)
    (h0 : l.skipWhitespace.ch ≠ 0) (hl : isLetter l.skipWhitespace.ch = false)
    (hd : isDigit l.skipWhitespace.ch = false) :
    l.NextToken = (newToken .ILLEGAL l.skipWhitespace.ch, l.skipWhitespace.readChar) := by
  unfold Lexer.NextToken
  generalize l.skipWhitespace = l1 at hs h0 hl hd
  simp only [specialBytes, List.mem_cons, List.mem_singleton, List.mem_nil_iff, not_or,
    or_false] at hs
  obtain ⟨a1, a2, a3, a4, a5, a6, a7, a8, a9, a10, a11, a12, a13, a14⟩ := hs
  simp only [a1, a2, a3, a4, a5, a6, a7, a8, a9, a10, a11, a12, a13, a14, h0, hl, hd,
    if_false, Bool.false_eq_true]

/-- On a letter NextToken reads an identifier and looks its kind up. -/
theorem NextToken_letter (l : Lexer) (hl : isLetter l.skipWhitespace.ch = true) :
    l.NextToken = (⟨LookupIdent l.skipWhitespace.readIdentifier.1,
      l.skipWhitespace.readIdentifier.1⟩, l.skipWhitespace.readIdentifier.2) := by
  unfold Lexer.NextToken
  generalize l.skipWhitespace = l1 at hl
  have hx : ∀ k : Nat, (k < 65 ∨ (90 < k ∧ k < 95)  ∨ k = 96 ∨ 122 < k) → ¬ l1.ch = k := by
    intro k hk
    simp only [isLetter, Bool.or_eq_true, Bool.and_eq_true, decide_eq_true_eq, beq_iff_eq] at hl
    omega
  simp only [hx 61 (by omega), hx 43 (by omega),
    hx 45 (by omega), hx 33 (by omega), hx 47 (by omega), hx 42 (by omega), hx 60 (by omega),
    hx 62 (by omega), hx 59 (by omega), hx 44 (by omega), hx 40 (by omega), hx 41 (by omega),
    hx 123 (by omega), hx 125 (by omega), hx 0 (by omega), if_false, hl, if_true]

end Lexer

namespace Lexer

/-- The states the lexer passes through stand on the zero byte, after the whitespace, only
at the end of the input when the input holds no zero byte. -/
theorem Inv.ch_zero_end {l : Lexer} (h : l.Inv) (h0 : 0 ∉ l.input) (hc : l.ch = 0) :
    l.input.length ≤ l.position := by
  by_contra hlt
  have hlt : l.position < l.input.length := by omega
  apply h0
  have h1 : l.input.getD l.position 0 = l.input[l.position] := by
    simp [List.getD_eq_getElem?_getD, List.getElem?_eq_getElem hlt]
  have h2 : l.input[l.position] = 0 := by rw [← h1, ← h.2, hc]
  rw [← h2]
  exact List.getElem_mem hlt

/-- An end-of-input token returned with the cursor at the end of the input leaves the lexer
at the end of the input. -/
theorem Inv.eof_at_end {l : Lexer} (h : l.Inv) (hc : l.skipWhitespace.ch = 0)
    (hend : l.input.length ≤ l.skipWhitespace.position) :
    l.NextToken.1 = ⟨.EOF, []⟩ ∧ l.NextToken.2.At [] := by
  have h1 := h.at.skipWhitespace_at
  have h2 : l.skipWhitespace.At [] := by
    refine ⟨h1.1, ?_⟩
    rw [skipWhitespace_input] at *
    exact List.drop_eq_nil_of_le hend
  rw [NextToken_zero l hc]
  exact ⟨rfl, h2.readChar⟩

end Lexer

/-- C12 (amended): once NextToken has returned an end-of-input token at the end of the input
(which every end-of-input token is when the input holds no zero byte), every later call
returns the token of kind EOF with the empty literal. -/
theorem eof_is_absorbing (src : List Nat) (n m : Nat)
    (hn : ((Lexer.New src).tokenAt n).Typ = .EOF)
    (hend : 0 ∉ src ∨ src.length ≤ ((Lexer.New src).afterCalls n).skipWhitespace.position)
    (hm : n ≤ m) :
    (Lexer.New src).tokenAt m = ⟨.EOF, []⟩ := by
  have hinv := Lexer.afterCalls_New_inv src n
  have hin : ((Lexer.New src).afterCalls n).input = src := Lexer.afterCalls_input _ n
  have hc := Lexer.NextToken_EOF_ch _ hn
  have hpos : ((Lexer.New src).afterCalls n).input.length
      ≤ ((Lexer.New src).afterCalls n).skipWhitespace.position := by
    rcases hend with h0 | h
    · have h1 := (hinv.at.skipWhitespace_at).1
      have h2 := Lexer.Inv.ch_zero_end h1
        (by rw [Lexer.skipWhitespace_input, hin]; exact h0) hc
      rwa [Lexer.skipWhitespace_input] at h2
    · rwa [hin]
  obtain ⟨g1, g2⟩ := hinv.eof_at_end hc hpos
  rcases Nat.eq_or_lt_of_le hm with h | h
  · subst h
    exact g1
  · obtain ⟨k, rfl⟩ : ∃ k, m = (n + 1) + k := ⟨m - (n + 1), by omega⟩
    have g3 := (Lexer.At.nil_forever g2 k).2
    unfold Lexer.tokenAt at g3 ⊢
    rw [Lexer.afterCalls_add]
    exact g3

theorem eof_is_absorbing_witness :
    ((Lexer.New (bytesOf "a ")).tokenAt 1).Typ = .EOF ∧
      (Lexer.New (bytesOf "a ")).tokenAt 3 = ⟨.EOF, []⟩ :=
  ⟨by decide, eof_is_absorbing (bytesOf "a ") 1 3 (by decide) (Or.inl (by decide)) (by decide)⟩

/-- C12 (as stated) fails: on the two bytes 0 and 'a' the first call of NextToken returns
the token of kind EOF, read from the zero byte, and the second call returns the identifier
"a"; only the third call reaches the end of the input. -/
theorem eof_then_identifier :
    (Lexer.New [0, 97]).tokenAt 0 = ⟨.EOF, []⟩ ∧
    (Lexer.New [0, 97]).tokenAt 1 = ⟨.IDENT, bytesOf "a"⟩ ∧
    ¬ (∀ (src : List Nat) (n m : Nat), ((Lexer.New src).tokenAt n).Typ = .EOF → n ≤ m →
        ((Lexer.New src).tokenAt m).Typ = .EOF) := by
  refine ⟨by decide, by decide, fun h => ?_⟩
  exact absurd (h [0, 97] 0 1 (by decide) (by decide)) (by decide)

namespace Lexer

theorem Inv.ch_of_byte {l : Lexer} (h : l.Inv) {c : Nat}
    (hc : l.input[l.position]? = some c) : l.ch = c := by
  rw [h.2, List.getD_eq_getElem?_getD, hc]
  rfl

end Lexer

/-- C13 (amended): when the byte `c` under the cursor after the whitespace, before the end
of the input, is no operator and no delimiter, no letter or underscore, no digit, not the
zero byte and below 0x80, NextToken returns the ILLEGAL token whose literal is the one byte
`c`, and the cursor advances by one byte over the same input. -/
theorem illegal_byte (src : List Nat) (n c : Nat)
    (hc : src[((Lexer.New src).afterCalls n).skipWhitespace.position]? = some c)
    (hs : c ∉ specialBytes) (hl : isLetter c = false) (hd : isDigit c = false)
    (h0 : c ≠ 0) (h7 : c < 128) :
    ((Lexer.New src).afterCalls n).NextToken.1 = ⟨.ILLEGAL, [c]⟩ ∧
    ((Lexer.New src).afterCalls n).NextToken.2.position
      = ((Lexer.New src).afterCalls n).skipWhitespace.position + 1 ∧
    ((Lexer.New src).afterCalls n).NextToken.2.input = src := by
  have hinv := Lexer.afterCalls_New_inv src n
  have hin : ((Lexer.New src).afterCalls n).input = src := Lexer.afterCalls_input _ n
  have h1 := (hinv.at.skipWhitespace_at).1
  have hch : ((Lexer.New src).afterCalls n).skipWhitespace.ch = c :=
    h1.ch_of_byte (by rw [Lexer.skipWhitespace_input, hin]; exact hc)
  rw [Lexer.NextToken_other _ (by rw [hch]; exact hs) (by rw [hch]; exact h0)
    (by rw [hch]; exact hl) (by rw [hch]; exact hd), hch]
  refine ⟨?_, h1.1, ?_⟩
  · rw [Lexer.newToken, Lexer.utf8_ascii c h7]
  · rw [Lexer.readChar_input, Lexer.skipWhitespace_input, hin]

theorem illegal_byte_witness :
    (Lexer.New (bytesOf "a @b")).tokenAt 1 = ⟨.ILLEGAL, bytesOf "@"⟩ ∧
    ((Lexer.New (bytesOf "a @b")).afterCalls 1).skipWhitespace.position = 2 ∧
    ((Lexer.New (bytesOf "a @b")).afterCalls 2).position = 3 :=
  have h := illegal_byte (bytesOf "a @b") 1 64 (by decide) (by decide) (by decide) (by decide)
    (by decide) (by decide)
  ⟨h.1, by decide, h.2.1⟩

/-- C13 (as stated) fails in two ways. The zero byte, standing before the end of the input
and being no operator, delimiter, letter or digit, gives the token of kind EOF with the empty
literal. The byte 0xE4, likewise in no class, gives an ILLEGAL token whose literal is the two
bytes 0xC3 0xA4. -/
theorem illegal_byte_exceptions :
    ((Lexer.New [0, 97]).afterCalls 0).skipWhitespace.position = 0 ∧
    (0 ∉ specialBytes ∧ isLetter 0 = false ∧ isDigit 0 = false) ∧
    (Lexer.New [0, 97]).tokenAt 0 = ⟨.EOF, []⟩ ∧
    ((Lexer.New [228]).afterCalls 0).skipWhitespace.position = 0 ∧
    (228 ∉ specialBytes ∧ isLetter 228 = false ∧ isDigit 228 = false) ∧
    (Lexer.New [228]).tokenAt 0 = ⟨.ILLEGAL, [195, 164]⟩ := by
  decide

/-- C20: when the byte under the cursor after the whitespace is a letter or an underscore,
the unread input is a non-empty run of letters and underscores followed by a byte that is
none (or by the end of the input); NextToken returns that run as the literal and leaves the
cursor on the first byte after it, and the kind is FUNCTION for "fn", LET for "let" and
IDENT for every other run. The text "x1" gives the identifier "x" and then the integer "1";
"letx" and "Let" are identifiers. -/
theorem identifier_run :
    (∀ (src : List Nat) (n : Nat),
      isLetter ((Lexer.New src).afterCalls n).skipWhitespace.ch = true →
      ∃ run rest : List Nat,
        src.drop ((Lexer.New src).afterCalls n).skipWhitespace.position = run ++ rest ∧
        run ≠ [] ∧ (∀ c ∈ run, isLetter c = true) ∧ isLetter (rest.headD 0) = false ∧
        ((Lexer.New src).tokenAt n).Literal = run ∧
        ((Lexer.New src).afterCalls (n + 1)).position
          = ((Lexer.New src).afterCalls n).skipWhitespace.position + run.length ∧
        ((Lexer.New src).afterCalls (n + 1)).ch = rest.headD 0 ∧
        (run = bytesOf "fn" → ((Lexer.New src).tokenAt n).Typ = .FUNCTION) ∧
        (run = bytesOf "let" → ((Lexer.New src).tokenAt n).Typ = .LET) ∧
        (run ≠ bytesOf "fn" → run ≠ bytesOf "let" →
          ((Lexer.New src).tokenAt n).Typ = .IDENT)) ∧
    ((Lexer.New (bytesOf "x1")).tokenAt 0 = ⟨.IDENT, bytesOf "x"⟩ ∧
      (Lexer.New (bytesOf "x1")).tokenAt 1 = ⟨.INT, bytesOf "1"⟩ ∧
      (Lexer.New (bytesOf "x1")).tokenAt 2 = ⟨.EOF, []⟩) ∧
    ((Lexer.New (bytesOf "letx")).tokenAt 0 = ⟨.IDENT, bytesOf "letx"⟩ ∧
      (Lexer.New (bytesOf "Let")).tokenAt 0 = ⟨.IDENT, bytesOf "Let"⟩ ∧
      (Lexer.New (bytesOf "let")).tokenAt 0 = ⟨.LET, bytesOf "let"⟩ ∧
      (Lexer.New (bytesOf "fn")).tokenAt 0 = ⟨.FUNCTION, bytesOf "fn"⟩) := by
  refine ⟨?_, by decide, by decide⟩
  intro src n hl
  have hinv := Lexer.afterCalls_New_inv src n
  have hin : ((Lexer.New src).afterCalls n).input = src := Lexer.afterCalls_input _ n
  have h1 := hinv.at.skipWhitespace_at
  have hin1 : ((Lexer.New src).afterCalls n).skipWhitespace.input = src := by
    rw [Lexer.skipWhitespace_input, hin]
  have h2 := h1.1.at
  have h3 := Lexer.At.readWhile_all (by decide : isLetter 0 = false) h2
  have h4 := Lexer.At.readRun (by decide : isLetter 0 = false) h2
  have hN := Lexer.NextToken_letter _ hl
  have hch := h2.ch_eq
  generalize ((Lexer.New src).afterCalls n).skipWhitespace = l1 at *
  rw [hin1] at h3 h4 h2 hch
  refine ⟨(src.drop l1.position).takeWhile isLetter, (src.drop l1.position).dropWhile isLetter,
    (List.takeWhile_append_dropWhile _ _).symm, ?_, ?_, headD_dropWhile isLetter (by decide) _,
    ?_, ?_, ?_, ?_⟩
  · intro h
    cases hs : src.drop l1.position with
    | nil =>
      rw [hs] at hch
      rw [hch] at hl
      exact absurd hl (by decide)
    | cons c r =>
      rw [hs] at hch h
      simp only [List.headD_cons] at hch
      rw [hch] at hl
      simp [List.takeWhile_cons, hl] at h
  · intro c hc
    exact (List.mem_takeWhile_imp hc)
  · show (Lexer.NextToken _).1.Literal = _
    rw [hN]
    simp only [Lexer.readIdentifier, hin1]
    exact h4
  · show (Lexer.NextToken _).2.position = _
    rw [hN]
    simp only [Lexer.readIdentifier, hin1]
    exact h3.2.1
  · show (Lexer.NextToken _).2.ch = _
    rw [hN]
    simp only [Lexer.readIdentifier, hin1]
    exact h3.1.ch_eq
  · have hty : ((Lexer.New src).tokenAt n).Typ
        = LookupIdent ((src.drop l1.position).takeWhile isLetter) := by
      show (Lexer.NextToken _).1.Typ = _
      rw [hN]
      simp only [Lexer.readIdentifier, hin1]
      rw [h4]
    rw [hty]
    refine ⟨fun h => ?_, fun h => ?_, fun h h' => ?_⟩
    · rw [h]; rfl
    · rw [h]; rfl
    · simp only [LookupIdent, h, h', if_false]

theorem identifier_run_witness :
    ∃ run rest : List Nat,
      (bytesOf "a letx1").drop
          ((Lexer.New (bytesOf "a letx1")).afterCalls 1).skipWhitespace.position = run ++ rest ∧
      run ≠ [] ∧ (∀ c ∈ run, isLetter c = true) ∧ isLetter (rest.headD 0) = false ∧
      ((Lexer.New (bytesOf "a letx1")).tokenAt 1).Literal = run ∧
      ((Lexer.New (bytesOf "a letx1")).afterCalls (1 + 1)).position
        = ((Lexer.New (bytesOf "a letx1")).afterCalls 1).skipWhitespace.position + run.length ∧
      ((Lexer.New (bytesOf "a letx1")).afterCalls (1 + 1)).ch = rest.headD 0 ∧
      (run = bytesOf "fn" → ((Lexer.New (bytesOf "a letx1")).tokenAt 1).Typ = .FUNCTION) ∧
      (run = bytesOf "let" → ((Lexer.New (bytesOf "a letx1")).tokenAt 1).Typ = .LET) ∧
      (run ≠ bytesOf "fn" → run ≠ bytesOf "let" →
        ((Lexer.New (bytesOf "a letx1")).tokenAt 1).Typ = .IDENT) :=
  identifier_run.1 (bytesOf "a letx1") 1 (by decide)

/-! ## Statements that fail to parse -/

/-- C11 fails on the code: for "let x 5;" the Statements list holds two entries, the first
being the nil let statement that parseLetStatement returned after the failed check of `=`,
the second the expression statement 5; "let 5;" likewise keeps the nil let statement of the
failed identifier check. The nil entry has no String and no evaluation. -/
theorem failed_let_is_appended :
    parse (bytesOf "let x 5;")
      = some (⟨[.nilLetStatement, .ExpressionStatement ⟨.INT, bytesOf "5"⟩ (intLit "5" 5)]⟩,
          [bytesOf "expected next token to be =, got INT instead"]) ∧
    parse (bytesOf "let 5;")
      = some (⟨[.nilLetStatement, .ExpressionStatement ⟨.INT, bytesOf "5"⟩ (intLit "5" 5)]⟩,
          [bytesOf "expected next token to be IDENT, got INT instead"]) ∧
    Statement.String .nilLetStatement = none ∧
    Eval (.Statement .nilLetStatement) freshEnv = none := by
  refine ⟨by rfl, by rfl, by rfl, by rfl⟩

/-! ## Operators without an implementation -/

theorem Sprintf_one (pre t : List Nat) (h : 37 ∉ pre) :
    Sprintf (pre ++ [37, 115]) [t] = pre ++ t := by
  induction pre with
  | nil => simp [Sprintf]
  | cons c r ih =>
    have hc : c ≠ 37 := fun e => h (by simp [e])
    have hr : 37 ∉ r := fun e => h (by simp [e])
    cases r with
    | nil => simp [Sprintf, hc]
    | cons d r2 =>
      have := ih hr
      simp only [List.cons_append] at this ⊢
      simp [Sprintf, hc, this]

theorem Sprintf_plain (fmt : List Nat) (ops : List (List Nat)) (h : 37 ∉ fmt) :
    Sprintf fmt ops = fmt := by
  induction fmt with
  | nil => simp [Sprintf]
  | cons c r ih =>
    have hc : c ≠ 37 := fun e => h (by simp [e])
    have hr : 37 ∉ r := fun e => h (by simp [e])
    cases r with
    | nil => simp [Sprintf, hc]
    | cons d r2 =>
      have := ih hr
      simp [Sprintf, hc, this]

theorem evalBang_value (v : Object) (t : List Nat) (h : v.Typ = some t) :
    evalBangOperatorExpression v = some (.Error (bytesOf "unknown operator: !" ++ t)) := by
  unfold evalBangOperatorExpression
  rw [h]
  have := Sprintf_one (bytesOf "unknown operator: !") t (by decide)
  simp only [newError]
  exact congrArg (fun m => some (Object.Error m)) this

/-- C14: the prefix operator `!` returns the Error of its operand when the operand evaluates
to one, returns the Error "unknown operator: !T" when the operand evaluates to another value
of type name T, and never returns a value that is no Error; "!5" evaluates to the Error
"unknown operator: !INTEGER". -/
theorem bang_is_error :
    (∀ (tok : Token) (e : Expression) (env env1 : Environment) (m : List Nat),
      EvalExpression e env = some (.Error m, env1) →
        Eval (.Expression (.PrefixExpression tok (bytesOf "!") e)) env
          = some (.Error m, env1)) ∧
    (∀ (tok : Token) (e : Expression) (env env1 : Environment) (v : Object) (t : List Nat),
      EvalExpression e env = some (v, env1) → isError v = false → v.Typ = some t →
        Eval (.Expression (.PrefixExpression tok (bytesOf "!") e)) env
          = some (.Error (bytesOf "unknown operator: !" ++ t), env1)) ∧
    (∀ (tok : Token) (e : Expression) (env env1 : Environment) (v : Object),
      Eval (.Expression (.PrefixExpression tok (bytesOf "!") e)) env = some (v, env1) →
        isError v = true) ∧
    (parse (bytesOf "!5")).map (fun r => (r.2, Eval (.Program r.1) freshEnv))
      = some ([], some (.Error (bytesOf "unknown operator: !INTEGER"), freshEnv)) := by
  refine ⟨?_, ?_, ?_, by rfl⟩
  · intro tok e env env1 m h
    simp [Eval, EvalExpression, h, isError]
  · intro tok e env env1 v t h hv ht
    simp only [Eval, EvalExpression, h, hv, evalPrefixExpression, if_true, evalBang_value v t ht,
      Bool.false_eq_true, if_false]
  · intro tok e env env1 v h
    simp only [Eval, EvalExpression] at h
    cases he : EvalExpression e env with
    | none => simp [he] at h
    | some r =>
      obtain ⟨w, env2⟩ := r
      simp only [he] at h
      by_cases hw : isError w = true
      · simp only [hw, if_true, Option.some.injEq, Prod.mk.injEq] at h
        rw [← h.1]
        exact hw
      · simp only [hw, if_false, evalPrefixExpression, if_true] at h
        cases ht : w.Typ with
        | none => simp [evalBangOperatorExpression, ht] at h
        | some t =>
          rw [evalBang_value w t ht] at h
          simp only [Bool.false_eq_true, if_false, Option.some.injEq, Prod.mk.injEq] at h
          rw [← h.1]
          rfl

theorem bang_is_error_witness :
    Eval (.Expression (.PrefixExpression ⟨.BANG, bytesOf "!"⟩ (bytesOf "!") (ident "x"))) freshEnv
        = some (.Error (bytesOf "identifier not found: x"), freshEnv) ∧
    Eval (.Expression (.PrefixExpression ⟨.BANG, bytesOf "!"⟩ (bytesOf "!") (intLit "7" 7)))
        freshEnv
        = some (.Error (bytesOf "unknown operator: !" ++ bytesOf "INTEGER"), freshEnv) :=
  ⟨bang_is_error.1 _ (ident "x") freshEnv freshEnv _ (by rfl),
    bang_is_error.2.1 _ (intLit "7" 7) freshEnv freshEnv (.Integer 7) (bytesOf "INTEGER")
      (by rfl) (by rfl) (by rfl)⟩

/-- The comparison operators of the language. -/
theorem comparison_cases (op : List Nat)
    (h : op ∈ [bytesOf "==", bytesOf "!=", bytesOf "<", bytesOf ">"]) :
    op = bytesOf "==" ∨ op = bytesOf "!=" ∨ op = bytesOf "<" ∨ op = bytesOf ">" := by
  simpa using h

theorem evalInteger_comparison (op : List Nat) (a b : Int)
    (h : op ∈ [bytesOf "==", bytesOf "!=", bytesOf "<", bytesOf ">"]) :
    evalIntegerInfixExpression op a b
      = some (.Error (bytesOf "unknown operator: INTEGER " ++ op ++ bytesOf " INTEGER")) := by
  rcases comparison_cases op h with h | h | h | h <;> subst h <;> rfl

theorem evalInfix_comparison (op : List Nat) (l r v : Object)
    (h : op ∈ [bytesOf "==", bytesOf "!=", bytesOf "<", bytesOf ">"])
    (hv : evalInfixExpression op l r = some v) : isError v = true := by
  cases l <;> cases r <;>
    simp only [evalInfixExpression, Object.Typ, evalInteger_comparison op _ _ h, newError,
      Option.some.injEq] at hv <;>
    cases hv <;> rfl

/-- C15: on operands that evaluate to Integers each of the operators `==`, `!=`, `<`, `>`
gives the Error "unknown operator: INTEGER op INTEGER"; whatever the operands, a comparison
that returns a value returns an Error; "1 < 2" evaluates to the Error
"unknown operator: INTEGER < INTEGER". -/
theorem comparison_is_error :
    (∀ (tok : Token) (l r : Expression) (op : List Nat) (env env1 env2 : Environment)
      (a b : Int), op ∈ [bytesOf "==", bytesOf "!=", bytesOf "<", bytesOf ">"] →
      EvalExpression l env = some (.Integer a, env1) →
      EvalExpression r env1 = some (.Integer b, env2) →
        Eval (.Expression (.InfixExpression tok l op r)) env
          = some (.Error (bytesOf "unknown operator: INTEGER " ++ op ++ bytesOf " INTEGER"),
              env2)) ∧
    (∀ (tok : Token) (l r : Expression) (op : List Nat) (env env1 : Environment) (v : Object),
      op ∈ [bytesOf "==", bytesOf "!=", bytesOf "<", bytesOf ">"] →
      Eval (.Expression (.InfixExpression tok l op r)) env = some (v, env1) →
        isError v = true) ∧
    (parse (bytesOf "1 < 2")).map (fun r => (r.2, Eval (.Program r.1) freshEnv))
      = some ([], some (.Error (bytesOf "unknown operator: INTEGER < INTEGER"), freshEnv)) := by
  refine ⟨?_, ?_, by rfl⟩
  · intro tok l r op env env1 env2 a b hop hl hr
    simp only [Eval, EvalExpression, hl, hr, isError, Bool.false_eq_true, if_false,
      evalInfixExpression, evalInteger_comparison op a b hop]
  · intro tok l r op env env1 v hop h
    simp only [Eval, EvalExpression] at h
    cases hl : EvalExpression l env with
    | none => simp [hl] at h
    | some x =>
      obtain ⟨lv, e1⟩ := x
      simp only [hl] at h
      by_cases hlv : isError lv = true
      · simp only [hlv, if_true, Option.some.injEq, Prod.mk.injEq] at h
        rw [← h.1]
        exact hlv
      · simp only [hlv, Bool.false_eq_true, if_false] at h
        cases hr : EvalExpression r e1 with
        | none => simp [hr] at h
        | some y =>
          obtain ⟨rv, e2⟩ := y
          simp only [hr] at h
          by_cases hrv : isError rv = true
          · simp only [hrv, if_true, Option.some.injEq, Prod.mk.injEq] at h
            rw [← h.1]
            exact hrv
          · simp only [hrv, Bool.false_eq_true, if_false] at h
            cases hi : evalInfixExpression op lv rv with
            | none => simp [hi] at h
            | some w =>
              simp only [hi, Option.some.injEq, Prod.mk.injEq] at h
              rw [← h.1]
              exact evalInfix_comparison op lv rv w hop hi

theorem comparison_is_error_witness :
    Eval (.Expression (binop .EQ (intLit "3" 3) (intLit "3" 3))) freshEnv
        = some (.Error (bytesOf "unknown operator: INTEGER " ++ bytesOf "==" ++ bytesOf " INTEGER"),
            freshEnv) ∧
    (evalInfixExpression (bytesOf "!=") (.Integer 1) (.Error (bytesOf "e"))
        = some (.Error (bytesOf "type mismatch: INTEGER != ERROR"))) :=
  ⟨comparison_is_error.1 _ (intLit "3" 3) (intLit "3" 3) (bytesOf "==") freshEnv freshEnv
      freshEnv 3 3 (by decide) (by rfl) (by rfl), by rfl⟩

/-! ## Identifiers and environments -/

theorem not_found_message (n : List Nat) (h : ∀ c ∈ n, isLetter c = true) :
    newError (bytesOf "identifier not found: " ++ n) []
      = .Error (bytesOf "identifier not found: " ++ n) := by
  unfold newError
  rw [Sprintf_plain]
  intro hm
  rcases List.mem_append.1 hm with h1 | h1
  · exact absurd h1 (by decide)
  · exact absurd (h 37 h1) (by decide)

/-- C16: the identifier node of a name made of letters and underscores evaluates to the
value that the environment chain binds to the name, and to the Error
"identifier not found: n" when no scope binds it; "foobar" on a fresh environment gives the
Error "identifier not found: foobar". -/
theorem identifier_lookup :
    (∀ (tok : Token) (n : List Nat) (env : Environment) (v : Object),
      env.Get n = some v → Eval (.Expression (.Identifier tok n)) env = some (v, env)) ∧
    (∀ (tok : Token) (n : List Nat) (env : Environment),
      (∀ c ∈ n, isLetter c = true) → env.Get n = none →
        Eval (.Expression (.Identifier tok n)) env
          = some (.Error (bytesOf "identifier not found: " ++ n), env)) ∧
    (parse (bytesOf "foobar")).map (fun r => (r.2, Eval (.Program r.1) freshEnv))
      = some ([], some (.Error (bytesOf "identifier not found: foobar"), freshEnv)) := by
  refine ⟨?_, ?_, by rfl⟩
  · intro tok n env v h
    simp only [Eval, EvalExpression, evalIdentifier, h]
  · intro tok n env hn h
    simp only [Eval, EvalExpression, evalIdentifier, h, not_found_message n hn]

theorem identifier_lookup_witness :
    Eval (.Expression (ident "b"))
        (Environment.mk [(bytesOf "a", .Integer 1)]
          (some (Environment.mk [(bytesOf "b", .Integer 2)] none)))
        = some (.Integer 2, Environment.mk [(bytesOf "a", .Integer 1)]
          (some (Environment.mk [(bytesOf "b", .Integer 2)] none))) ∧
    Eval (.Expression (ident "c"))
        (Environment.mk [(bytesOf "a", .Integer 1)]
          (some (Environment.mk [(bytesOf "b", .Integer 2)] none)))
        = some (.Error (bytesOf "identifier not found: " ++ bytesOf "c"),
          Environment.mk [(bytesOf "a", .Integer 1)]
            (some (Environment.mk [(bytesOf "b", .Integer 2)] none))) :=
  ⟨identifier_lookup.1 _ (bytesOf "b") _ (.Integer 2) (by rfl),
    identifier_lookup.2.1 _ (bytesOf "c") _ (by decide) (by rfl)⟩

namespace Environment

theorem Get_scopes : ∀ (env : Environment) (n : List Nat),
    env.Get n = env.scopes.findSome? (fun s => s.lookup n)
  | .mk store none, n => by
    simp only [Get, scopes, List.findSome?]
    cases store.lookup n <;> rfl
  | .mk store (some o), n => by
    have ih := Get_scopes o n
    simp only [Get, scopes, List.findSome?]
    cases store.lookup n
    · exact ih
    · rfl

theorem scopes_Set (env : Environment) (n : List Nat) (v : Object) :
    (env.Set n v).scopes.tail = env.scopes.tail := by
  cases env with
  | mk store outer => cases outer <;> rfl

end Environment

/-- C19: Get returns the binding of the first scope of the chain, the innermost first, that
binds the name, and reports absence exactly when no scope of the chain binds it; Set writes
the scope it is called on: afterwards Get of the name gives the value, the outer link and
the scopes behind it are the same, and every other name is looked up as before. -/
theorem environment_chain :
    (∀ (env : Environment) (n : List Nat),
      env.Get n = env.scopes.findSome? (fun s => s.lookup n)) ∧
    (∀ (env : Environment) (n : List Nat),
      env.Get n = none ↔ ∀ s ∈ env.scopes, s.lookup n = none) ∧
    (∀ (env : Environment) (n : List Nat) (v : Object), (env.Set n v).Get n = some v) ∧
    (∀ (env : Environment) (n : List Nat) (v : Object),
      (env.Set n v).outer = env.outer ∧ (env.Set n v).scopes.tail = env.scopes.tail) ∧
    (∀ (env : Environment) (n k : List Nat) (v : Object),
      k ≠ n → (env.Set n v).Get k = env.Get k ∧
        (env.Set n v).store.lookup k = env.store.lookup k) ∧
    (∀ (outer : Environment) (n : List Nat) (v w : Object), outer.Get n = some w →
      ((Environment.NewEnvironment (some outer)).Set n v).Get n = some v ∧
      ((Environment.NewEnvironment (some outer)).Set n v).outer = some outer ∧
      outer.Get n = some w) := by
  refine ⟨Environment.Get_scopes, ?_, Environment.Get_Set_self, ?_, ?_, ?_⟩
  · intro env n
    rw [Environment.Get_scopes, List.findSome?_eq_none_iff]
  · intro env n v
    exact ⟨Environment.outer_Set env n v, Environment.scopes_Set env n v⟩
  · intro env n k v h
    exact ⟨Environment.Get_Set_other env n k v h, Environment.store_Set_other env n k v h⟩
  · intro outer n v w h
    exact ⟨Environment.Get_Set_self _ n v, rfl, h⟩

theorem environment_chain_witness :
    ((Environment.NewEnvironment (some (freshEnv.Set (bytesOf "x") (.Integer 1)))).Set
        (bytesOf "x") (.Integer 2)).Get (bytesOf "x") = some (.Integer 2) ∧
    ((Environment.NewEnvironment (some (freshEnv.Set (bytesOf "x") (.Integer 1)))).Set
        (bytesOf "x") (.Integer 2)).outer = some (freshEnv.Set (bytesOf "x") (.Integer 1)) ∧
    (freshEnv.Set (bytesOf "x") (.Integer 1)).Get (bytesOf "x") = some (.Integer 1) :=
  environment_chain.2.2.2.2.2 (freshEnv.Set (bytesOf "x") (.Integer 1)) (bytesOf "x")
    (.Integer 2) (.Integer 1) (by rfl)

/-! ## Parentheses -/

theorem IsAtom.wellFormed {a : List Nat} {e : Expression} (h : IsAtom a e) :
    WellFormed e ∧ e.text = a ∧ e.depth = 0 ∧ e.String = some a := by
  rcases h with ⟨h1, rfl⟩ | ⟨v, h1, rfl⟩
  · exact ⟨⟨rfl, h1⟩, rfl, rfl, rfl⟩
  · exact ⟨⟨rfl, h1⟩, rfl, rfl, rfl⟩

namespace Parser

/-- parseExpression at the text of a well-formed expression: its node, then the loop. -/
theorem text_then_loop {e : Expression} (hwf : WellFormed e) {s : List Nat} (hs : Delimited s)
    {p : Parser} (hp : p.CurAt (e.text ++ s)) (f precedence : Nat)
    (hf : 3 * e.depth + 1 ≤ f) :
    ∃ p1, parseExpression (f + 1) precedence p = parseExpressionLoop f precedence e p1 ∧
      p1.errors = p.errors ∧ p1.PeekAt s ∧ p.curToken.Typ ≠ .EOF ∧ p.curToken.Typ ≠ .LET := by
  obtain ⟨handler, p1, h1, h2, h3, h4, h5, h6⟩ := handler_text e hwf s p f hs hp hf
  refine ⟨p1, ?_, h3, h4, h5, h6⟩
  rw [parseExpression_succ, h1]
  simp only [h2]

/-- parseExpression on "(a op1 b) op2 c": the left-leaning tree. -/
theorem group_left {a b c : List Nat} {ea eb ec : Expression} (ha : IsAtom a ea)
    (hb : IsAtom b eb) (hc : IsAtom c ec) {t1 t2 : TokenType} {k1 k2 : Nat}
    (h1 : precedences t1 = some k1) (h2 : precedences t2 = some k2) {p : Parser}
    (hp : p.CurAt ((Expression.InfixExpression ⟨t1, t1.str⟩ ea t1.str eb).text
      ++ 32 :: (t2.str ++ 32 :: (c ++ []))))
    (f : Nat) :
    ∃ p1, parseExpression (f + 6) LOWEST p
        = some (.InfixExpression ⟨t2, t2.str⟩ (.InfixExpression ⟨t1, t1.str⟩ ea t1.str eb)
            t2.str ec, p1) ∧
      p1.errors = p.errors ∧ p1.PeekAt [] ∧ p.curToken.Typ ≠ .EOF ∧ p.curToken.Typ ≠ .LET := by
  have ht1 := infix_token_of_precedence t1 k1 h1
  have ht2 := infix_token_of_precedence t2 k2 h2
  have hl2 := (infixParseFns_of_precedence (parseExpression 0) t2 k2 h2).2.2
  have hwf : WellFormed (.InfixExpression ⟨t1, t1.str⟩ ea t1.str eb) :=
    ⟨ht1, rfl, ha.wellFormed.1, hb.wellFormed.1⟩
  have hd : (Expression.InfixExpression ⟨t1, t1.str⟩ ea t1.str eb).depth = 1 := by
    simp [Expression.depth, ha.wellFormed.2.2.1, hb.wellFormed.2.2.1]
  obtain ⟨q, a1, a2, a3, a4, a5⟩ :=
    text_then_loop hwf (delimited_space _) hp (f + 5) LOWEST (by rw [hd]; omega)
  obtain ⟨d1, d2, d3⟩ := a3.infix_token ht2
  obtain ⟨e1, e2, _, _⟩ := atom_then_loop hc delimited_nil d2 (f + 3) k2
  refine ⟨q.nextToken.nextToken, ?_, by rw [d3, a2], e2, a4, a5⟩
  have hright : parseExpression (f + 4) k2 q.nextToken.nextToken
      = some (ec, q.nextToken.nextToken) := by
    rw [e1]
    exact loop_stop_eof (f + 2) k2 ec e2 (by omega)
  rw [a1, loop_infix_step (f + 4) LOWEST _ d1 k2 h2 hl2 hright]
  exact loop_stop_eof (f + 3) LOWEST _ e2 (by decide)

/-- parseExpression on "a op1 (b op2 c)": the right-leaning tree. -/
theorem group_right {a b c : List Nat} {ea eb ec : Expression} (ha : IsAtom a ea)
    (hb : IsAtom b eb) (hc : IsAtom c ec) {t1 t2 : TokenType} {k1 k2 : Nat}
    (h1 : precedences t1 = some k1) (h2 : precedences t2 = some k2) {p : Parser}
    (hp : p.CurAt (a ++ 32 :: (t1.str ++ 32 ::
      ((Expression.InfixExpression ⟨t2, t2.str⟩ eb t2.str ec).text ++ []))))
    (f : Nat) :
    ∃ p1, parseExpression (f + 7) LOWEST p
        = some (.InfixExpression ⟨t1, t1.str⟩ ea t1.str
            (.InfixExpression ⟨t2, t2.str⟩ eb t2.str ec), p1) ∧
      p1.errors = p.errors ∧ p1.PeekAt [] ∧ p.curToken.Typ ≠ .EOF ∧ p.curToken.Typ ≠ .LET := by
  have ht1 := infix_token_of_precedence t1 k1 h1
  have ht2 := infix_token_of_precedence t2 k2 h2
  have hl1 := (infixParseFns_of_precedence (parseExpression 0) t1 k1 h1).2.2
  have hwf : WellFormed (.InfixExpression ⟨t2, t2.str⟩ eb t2.str ec) :=
    ⟨ht2, rfl, hb.wellFormed.1, hc.wellFormed.1⟩
  have hd : (Expression.InfixExpression ⟨t2, t2.str⟩ eb t2.str ec).depth = 1 := by
    simp [Expression.depth, hb.wellFormed.2.2.1, hc.wellFormed.2.2.1]
  obtain ⟨a1, a2, a3, a4⟩ := atom_then_loop ha (delimited_space _) hp (f + 6) LOWEST
  obtain ⟨b1, b2, b3⟩ := a2.infix_token ht1
  obtain ⟨q, c1, c2, c3, _, _⟩ :=
    text_then_loop hwf delimited_nil b2 (f + 4) k1 (by rw [hd]; omega)
  refine ⟨q, ?_, by rw [c2, b3], c3, a3, a4⟩
  have hright : parseExpression (f + 5) k1 p.nextToken.nextToken
      = some (.InfixExpression ⟨t2, t2.str⟩ eb t2.str ec, q) := by
    rw [c1]
    exact loop_stop_eof (f + 3) k1 _ c3 (by omega)
  rw [a1, loop_infix_step (f + 5) LOWEST ea b1 k1 h1 hl1 hright]
  exact loop_stop_eof (f + 4) LOWEST _ c3 (by decide)

end Parser

/-- C17: for atomic operands `a`, `b`, `c` and infix operators of the kinds `t1` and `t2`,
whatever their precedences, the text "(a op1 b) op2 c" parses without errors to the one
expression statement whose tree has the node of `op1` as the left operand of the node of
`op2`, with the string "((a op1 b) op2 c)", and the text "a op1 (b op2 c)" to the tree that
has the node of `op2` as the right operand of the node of `op1`, with the string
"(a op1 (b op2 c))"; the trees hold the operand and operator nodes only; "(5 + 5) * 2"
evaluates to Integer 20. -/
theorem grouping_fixes_shape (a b c : List Nat) (t1 t2 : TokenType) (k1 k2 : Nat)
    (ha : IsOperand a) (hb : IsOperand b) (hc : IsOperand c)
    (h1 : precedences t1 = some k1) (h2 : precedences t2 = some k2) :
    (∃ tok ea eb ec, IsAtom a ea ∧ IsAtom b eb ∧ IsAtom c ec ∧
      parse (bytesOf "(" ++ a ++ bytesOf " " ++ t1.str ++ bytesOf " " ++ b ++ bytesOf ") " ++
          t2.str ++ bytesOf " " ++ c)
        = some (⟨[.ExpressionStatement tok
            (.InfixExpression ⟨t2, t2.str⟩ (.InfixExpression ⟨t1, t1.str⟩ ea t1.str eb)
              t2.str ec)]⟩, []) ∧
      (Expression.InfixExpression ⟨t2, t2.str⟩ (.InfixExpression ⟨t1, t1.str⟩ ea t1.str eb)
          t2.str ec).String
        = some (bytesOf "((" ++ a ++ bytesOf " " ++ t1.str ++ bytesOf " " ++ b ++ bytesOf ") " ++
            t2.str ++ bytesOf " " ++ c ++ bytesOf ")")) ∧
    (∃ tok ea eb ec, IsAtom a ea ∧ IsAtom b eb ∧ IsAtom c ec ∧
      parse (a ++ bytesOf " " ++ t1.str ++ bytesOf " (" ++ b ++ bytesOf " " ++ t2.str ++
          bytesOf " " ++ c ++ bytesOf ")")
        = some (⟨[.ExpressionStatement tok
            (.InfixExpression ⟨t1, t1.str⟩ ea t1.str
              (.InfixExpression ⟨t2, t2.str⟩ eb t2.str ec))]⟩, []) ∧
      (Expression.InfixExpression ⟨t1, t1.str⟩ ea t1.str
          (.InfixExpression ⟨t2, t2.str⟩ eb t2.str ec)).String
        = some (bytesOf "(" ++ a ++ bytesOf " " ++ t1.str ++ bytesOf " (" ++ b ++ bytesOf " " ++
            t2.str ++ bytesOf " " ++ c ++ bytesOf "))")) ∧
    (parse (bytesOf "(5 + 5) * 2")).map (fun r => (r.2, Eval (.Program r.1) freshEnv))
      = some ([], some (.Integer 20, freshEnv)) := by
  obtain ⟨ea, hea, sa⟩ := ha.atom
  obtain ⟨eb, heb, sb⟩ := hb.atom
  obtain ⟨ec, hec, sc⟩ := hc.atom
  have ta := hea.wellFormed.2.1
  have tb := heb.wellFormed.2.1
  have tc := hec.wellFormed.2.1
  refine ⟨?_, ?_, by rfl⟩
  · have hsrc : bytesOf "(" ++ a ++ bytesOf " " ++ t1.str ++ bytesOf " " ++ b ++ bytesOf ") " ++
        t2.str ++ bytesOf " " ++ c
        = (Expression.InfixExpression ⟨t1, t1.str⟩ ea t1.str eb).text
          ++ 32 :: (t2.str ++ 32 :: (c ++ [])) := by
      simp [Expression.text, ta, tb, bytesOf_space, bytesOf_lparen, bytesOf_rparen,
        show bytesOf ") " = [41, 32] from by decide]
    rw [hsrc]
    obtain ⟨hcur, herr, hin⟩ := Parser.New_at
      ((Expression.InfixExpression ⟨t1, t1.str⟩ ea t1.str eb).text
        ++ 32 :: (t2.str ++ 32 :: (c ++ [])))
    obtain ⟨p1, g1, g2, g3, g4, g5⟩ := Parser.group_left hea heb hec h1 h2 hcur
      (2 * (Parser.New (Lexer.New
        ((Expression.InfixExpression ⟨t1, t1.str⟩ ea t1.str eb).text
          ++ 32 :: (t2.str ++ 32 :: (c ++ []))))).lex.input.length + 2)
    have hp := Parser.parse_single _ _ p1 g4 g5 g1 g3.eof
    rw [g2, herr] at hp
    refine ⟨_, ea, eb, ec, hea, heb, hec, hp, ?_⟩
    simp [Expression.String, sa, sb, sc, bytesOf_space, bytesOf_lparen, bytesOf_rparen,
      show bytesOf "((" = [40, 40] from by decide, show bytesOf ") " = [41, 32] from by decide]
  · have hsrc : a ++ bytesOf " " ++ t1.str ++ bytesOf " (" ++ b ++ bytesOf " " ++ t2.str ++
        bytesOf " " ++ c ++ bytesOf ")"
        = a ++ 32 :: (t1.str ++ 32 ::
          ((Expression.InfixExpression ⟨t2, t2.str⟩ eb t2.str ec).text ++ [])) := by
      simp [Expression.text, tb, tc, bytesOf_space, bytesOf_lparen, bytesOf_rparen,
        show bytesOf " (" = [32, 40] from by decide]
    rw [hsrc]
    obtain ⟨hcur, herr, hin⟩ := Parser.New_at
      (a ++ 32 :: (t1.str ++ 32 ::
        ((Expression.InfixExpression ⟨t2, t2.str⟩ eb t2.str ec).text ++ [])))
    obtain ⟨p1, g1, g2, g3, g4, g5⟩ := Parser.group_right hea heb hec h1 h2 hcur
      (2 * (Parser.New (Lexer.New
        (a ++ 32 :: (t1.str ++ 32 ::
          ((Expression.InfixExpression ⟨t2, t2.str⟩ eb t2.str ec).text ++ []))))).lex.input.length
        + 1)
    have hp := Parser.parse_single _ _ p1 g4 g5 g1 g3.eof
    rw [g2, herr] at hp
    refine ⟨_, ea, eb, ec, hea, heb, hec, hp, ?_⟩
    simp [Expression.String, sa, sb, sc, bytesOf_space, bytesOf_lparen, bytesOf_rparen,
      show bytesOf " (" = [32, 40] from by decide, show bytesOf "))" = [41, 41] from by decide]

theorem grouping_fixes_shape_witness :
    parse (bytesOf "(" ++ bytesOf "x" ++ bytesOf " " ++ TokenType.PLUS.str ++ bytesOf " " ++
        bytesOf "12" ++ bytesOf ") " ++ TokenType.ASTERISK.str ++ bytesOf " " ++ bytesOf "y")
      = some (⟨[.ExpressionStatement ⟨.LPAREN, bytesOf "("⟩
          (binop .ASTERISK (binop .PLUS (ident "x") (intLit "12" 12)) (ident "y"))]⟩, []) ∧
    ∃ tok ea eb ec, IsAtom (bytesOf "x") ea ∧ IsAtom (bytesOf "12") eb ∧ IsAtom (bytesOf "y") ec ∧
      parse (bytesOf "x" ++ bytesOf " " ++ TokenType.ASTERISK.str ++ bytesOf " (" ++
          bytesOf "12" ++ bytesOf " " ++ TokenType.PLUS.str ++ bytesOf " " ++ bytesOf "y" ++
          bytesOf ")")
        = some (⟨[.ExpressionStatement tok
            (.InfixExpression ⟨.ASTERISK, TokenType.ASTERISK.str⟩ ea TokenType.ASTERISK.str
              (.InfixExpression ⟨.PLUS, TokenType.PLUS.str⟩ eb TokenType.PLUS.str ec))]⟩, []) ∧
      (Expression.InfixExpression ⟨.ASTERISK, TokenType.ASTERISK.str⟩ ea TokenType.ASTERISK.str
          (.InfixExpression ⟨.PLUS, TokenType.PLUS.str⟩ eb TokenType.PLUS.str ec)).String
        = some (bytesOf "(" ++ bytesOf "x" ++ bytesOf " " ++ TokenType.ASTERISK.str ++
            bytesOf " (" ++ bytesOf "12" ++ bytesOf " " ++ TokenType.PLUS.str ++ bytesOf " " ++
            bytesOf "y" ++ bytesOf "))") :=
  ⟨by rfl,
    (grouping_fixes_shape (bytesOf "x") (bytesOf "12") (bytesOf "y") .ASTERISK .PLUS 5 4
      (Or.inl ⟨by decide, by decide, by decide⟩) (Or.inr ⟨12, by decide, by decide, by decide⟩)
      (Or.inl ⟨by decide, by decide, by decide⟩) rfl rfl).2.1⟩

/-! ## Prefix operators -/

theorem precedences_le (t : TokenType) (k : Nat) (h : precedences t = some k) :
    LOWEST < k ∧ k ≤ PRODUCT := by
  cases t <;> simp [precedences] at h <;> subst h <;> exact ⟨by decide, by decide⟩

theorem IsAtom.head_ne {a : List Nat} {e : Expression} (h : IsAtom a e) (s : List Nat) :
    (a ++ s).headD 0 ≠ 61 := by
  have h1 := text_head_ne e h.wellFormed.1 s
  rwa [h.wellFormed.2.1] at h1

namespace Parser

/-- parseExpression on "p a op b", with or without a space after the prefix operator: the
prefix node holds the operand `a` only and is the left operand of the infix node. -/
theorem prefix_then_operator {a b : List Nat} {ea eb : Expression} (ha : IsAtom a ea)
    (hb : IsAtom b eb) {tp : Token} (htp : IsPrefixToken tp) {t : TokenType} {k : Nat}
    (h : precedences t = some k) {sp : List Nat} (hsp : sp = [] ∨ sp = [32]) {p : Parser}
    (hp : p.CurAt (tp.Literal ++ (sp ++ (a ++ 32 :: (t.str ++ 32 :: (b ++ []))))))
    (f : Nat) :
    ∃ p1, parseExpression (f + 6) LOWEST p
        = some (.InfixExpression ⟨t, t.str⟩ (.PrefixExpression tp tp.Literal ea) t.str eb, p1) ∧
      p1.errors = p.errors ∧ p1.PeekAt [] ∧ p.curToken = tp := by
  have ht := infix_token_of_precedence t k h
  obtain ⟨hk1, hk2⟩ := precedences_le t k h
  have hne : (sp ++ (a ++ 32 :: (t.str ++ 32 :: (b ++ [])))).headD 0 ≠ 61 := by
    rcases hsp with rfl | rfl
    · exact ha.head_ne _
    · simp
  have hsc := scan_prefix_token tp htp _ hne
  unfold CurAt at hp
  rw [hsc] at hp
  obtain ⟨hcur, hpeek⟩ := hp
  have hp1 : p.nextToken.CurAt (a ++ 32 :: (t.str ++ 32 :: (b ++ []))) := by
    rcases hsp with rfl | rfl
    · exact hpeek.nextToken_at
    · exact hpeek.nextToken_at.skip_space
  obtain ⟨a1, a2, _, _⟩ := atom_then_loop ha (delimited_space _) hp1 (f + 4) PREFIX
  obtain ⟨b1, b2, b3⟩ := a2.infix_token ht
  have hinner : parseExpression (f + 5) PREFIX p.nextToken = some (ea, p.nextToken) := by
    rw [a1]
    exact loop_infix_stop (f + 3) PREFIX ea b1 k h (by
      have : PRODUCT ≤ PREFIX := by decide
      omega)
  have hpre : prefixParseFns (parseExpression (f + 5)) p.curToken.Typ
      = some (parsePrefixExpression (parseExpression (f + 5))) := by
    rw [hcur]
    rcases htp.1 with h | h <;> rw [h] <;> rfl
  obtain ⟨e1, e2, _, _⟩ := atom_then_loop hb delimited_nil b2 (f + 3) k
  have hright : parseExpression (f + 4) k p.nextToken.nextToken.nextToken
      = some (eb, p.nextToken.nextToken.nextToken) := by
    rw [e1]
    exact loop_stop_eof (f + 2) k eb e2 (by omega)
  refine ⟨p.nextToken.nextToken.nextToken, ?_, by rw [b3]; rfl, e2, hcur⟩
  rw [parseExpression_succ, hpre]
  simp only [parsePrefixExpression, hinner, hcur]
  rw [loop_infix_step (f + 4) LOWEST _ b1 k h hk1 hright]
  exact loop_stop_eof (f + 3) LOWEST _ e2 (by decide)

end Parser

/-- C18: for a prefix operator of the kind `tp` (`!` or `-`), atomic operands `a`, `b` and
an infix operator of the kind `t`, the texts "p a op b" and "pa op b" parse without errors
to the one expression statement whose tree is the infix node with the prefix node of `a` as
its left operand, and whose string is "((pa) op b)"; "-a * b" gives "((-a) * b)". -/
theorem prefix_binds_operand (a b : List Nat) (tp t : TokenType) (k : Nat)
    (ha : IsOperand a) (hb : IsOperand b) (hp : tp = .BANG ∨ tp = .MINUS)
    (h : precedences t = some k) :
    (∃ ea eb, IsAtom a ea ∧ IsAtom b eb ∧
      parse (tp.str ++ bytesOf " " ++ a ++ bytesOf " " ++ t.str ++ bytesOf " " ++ b)
        = some (⟨[.ExpressionStatement ⟨tp, tp.str⟩
            (.InfixExpression ⟨t, t.str⟩ (.PrefixExpression ⟨tp, tp.str⟩ tp.str ea)
              t.str eb)]⟩, []) ∧
      parse (tp.str ++ a ++ bytesOf " " ++ t.str ++ bytesOf " " ++ b)
        = some (⟨[.ExpressionStatement ⟨tp, tp.str⟩
            (.InfixExpression ⟨t, t.str⟩ (.PrefixExpression ⟨tp, tp.str⟩ tp.str ea)
              t.str eb)]⟩, []) ∧
      (Expression.InfixExpression ⟨t, t.str⟩ (.PrefixExpression ⟨tp, tp.str⟩ tp.str ea)
          t.str eb).String
        = some (bytesOf "((" ++ tp.str ++ a ++ bytesOf ") " ++ t.str ++ bytesOf " " ++ b ++
            bytesOf ")")) ∧
    (∃ program, parse (bytesOf "-a * b") = some (program, []) ∧
      program.String = some (bytesOf "((-a) * b)")) := by
  obtain ⟨ea, hea, sa⟩ := ha.atom
  obtain ⟨eb, heb, sb⟩ := hb.atom
  have htp : IsPrefixToken ⟨tp, tp.str⟩ := ⟨hp, rfl⟩
  refine ⟨⟨ea, eb, hea, heb, ?_, ?_, ?_⟩,
    ⟨⟨[.ExpressionStatement ⟨.MINUS, bytesOf "-"⟩
      (binop .ASTERISK (unop .MINUS (ident "a")) (ident "b"))]⟩, by rfl, by rfl⟩⟩
  · have hsrc : tp.str ++ bytesOf " " ++ a ++ bytesOf " " ++ t.str ++ bytesOf " " ++ b
        = (⟨tp, tp.str⟩ : Token).Literal
          ++ ([32] ++ (a ++ 32 :: (t.str ++ 32 :: (b ++ [])))) := by
      simp [bytesOf_space]
    rw [hsrc]
    obtain ⟨hcur, herr, hin⟩ := Parser.New_at ((⟨tp, tp.str⟩ : Token).Literal
      ++ ([32] ++ (a ++ 32 :: (t.str ++ 32 :: (b ++ [])))))
    obtain ⟨p1, g1, g2, g3, g4⟩ := Parser.prefix_then_operator hea heb htp h (Or.inr rfl) hcur
      (2 * (Parser.New (Lexer.New ((⟨tp, tp.str⟩ : Token).Literal
        ++ ([32] ++ (a ++ 32 :: (t.str ++ 32 :: (b ++ []))))))).lex.input.length + 2)
    have hq := Parser.parse_single _ _ p1
      (by rw [g4]; rcases hp with h | h <;> rw [h] <;> decide)
      (by rw [g4]; rcases hp with h | h <;> rw [h] <;> decide) g1 g3.eof
    rw [g2, herr, g4] at hq
    exact hq
  · have hsrc : tp.str ++ a ++ bytesOf " " ++ t.str ++ bytesOf " " ++ b
        = (⟨tp, tp.str⟩ : Token).Literal
          ++ ([] ++ (a ++ 32 :: (t.str ++ 32 :: (b ++ [])))) := by
      simp [bytesOf_space]
    rw [hsrc]
    obtain ⟨hcur, herr, hin⟩ := Parser.New_at ((⟨tp, tp.str⟩ : Token).Literal
      ++ ([] ++ (a ++ 32 :: (t.str ++ 32 :: (b ++ [])))))
    obtain ⟨p1, g1, g2, g3, g4⟩ := Parser.prefix_then_operator hea heb htp h (Or.inl rfl) hcur
      (2 * (Parser.New (Lexer.New ((⟨tp, tp.str⟩ : Token).Literal
        ++ ([] ++ (a ++ 32 :: (t.str ++ 32 :: (b ++ []))))))).lex.input.length + 2)
    have hq := Parser.parse_single _ _ p1
      (by rw [g4]; rcases hp with h | h <;> rw [h] <;> decide)
      (by rw [g4]; rcases hp with h | h <;> rw [h] <;> decide) g1 g3.eof
    rw [g2, herr, g4] at hq
    exact hq
  · simp [Expression.String, sa, sb, bytesOf_space, bytesOf_lparen, bytesOf_rparen,
      show bytesOf "((" = [40, 40] from by decide, show bytesOf ") " = [41, 32] from by decide]

theorem prefix_binds_operand_witness :
    ∃ ea eb, IsAtom (bytesOf "x") ea ∧ IsAtom (bytesOf "12") eb ∧
      parse (TokenType.BANG.str ++ bytesOf " " ++ bytesOf "x" ++ bytesOf " " ++
          TokenType.EQ.str ++ bytesOf " " ++ bytesOf "12")
        = some (⟨[.ExpressionStatement ⟨.BANG, TokenType.BANG.str⟩
            (.InfixExpression ⟨.EQ, TokenType.EQ.str⟩
              (.PrefixExpression ⟨.BANG, TokenType.BANG.str⟩ TokenType.BANG.str ea)
              TokenType.EQ.str eb)]⟩, []) ∧
      parse (TokenType.BANG.str ++ bytesOf "x" ++ bytesOf " " ++ TokenType.EQ.str ++
          bytesOf " " ++ bytesOf "12")
        = some (⟨[.ExpressionStatement ⟨.BANG, TokenType.BANG.str⟩
            (.InfixExpression ⟨.EQ, TokenType.EQ.str⟩
              (.PrefixExpression ⟨.BANG, TokenType.BANG.str⟩ TokenType.BANG.str ea)
              TokenType.EQ.str eb)]⟩, []) ∧
      (Expression.InfixExpression ⟨.EQ, TokenType.EQ.str⟩
          (.PrefixExpression ⟨.BANG, TokenType.BANG.str⟩ TokenType.BANG.str ea)
          TokenType.EQ.str eb).String
        = some (bytesOf "((" ++ TokenType.BANG.str ++ bytesOf "x" ++ bytesOf ") " ++
            TokenType.EQ.str ++ bytesOf " " ++ bytesOf "12" ++ bytesOf ")") :=
  (prefix_binds_operand (bytesOf "x") (bytesOf "12") .BANG .EQ 2
    (Or.inl ⟨by decide, by decide, by decide⟩) (Or.inr ⟨12, by decide, by decide, by decide⟩)
    (Or.inl rfl) rfl).1

/-! ## The prefix operator minus -/

/-- C22: on an operand that evaluates to Integer `v` the prefix operator `-` gives the
Integer of `-v` reduced to 64 bits, which is `-v` itself unless `v` is the minimum `-2^63`,
whose negation is `-2^63` again; an operand that evaluates to an Error is returned as it is;
"-5" evaluates to Integer -5, "--5" to Integer 5, and "-(-9223372036854775807 - 1)" to the
minimum. -/
theorem minus_negates :
    (∀ (tok : Token) (e : Expression) (env env1 : Environment) (v : Int),
      EvalExpression e env = some (.Integer v, env1) →
        Eval (.Expression (.PrefixExpression tok (bytesOf "-") e)) env
          = some (.Integer (wrap64 (-v)), env1)) ∧
    (∀ v : Int, -2 ^ 63 < v → v < 2 ^ 63 → wrap64 (-v) = -v) ∧
    wrap64 (-(-2 ^ 63)) = -2 ^ 63 ∧
    (∀ (tok : Token) (e : Expression) (env env1 : Environment) (m : List Nat),
      EvalExpression e env = some (.Error m, env1) →
        Eval (.Expression (.PrefixExpression tok (bytesOf "-") e)) env
          = some (.Error m, env1)) ∧
    (parse (bytesOf "-5")).map (fun r => (r.2, Eval (.Program r.1) freshEnv))
      = some ([], some (.Integer (-5), freshEnv)) ∧
    (parse (bytesOf "--5")).map (fun r => (r.2, Eval (.Program r.1) freshEnv))
      = some ([], some (.Integer 5, freshEnv)) ∧
    (parse (bytesOf "-(-9223372036854775807 - 1)")).map
        (fun r => (r.2, Eval (.Program r.1) freshEnv))
      = some ([], some (.Integer (-9223372036854775808), freshEnv)) := by
  refine ⟨?_, ?_, by decide, ?_, by rfl, by rfl, by rfl⟩
  · intro tok e env env1 v h
    simp only [Eval, EvalExpression, h, isError, Bool.false_eq_true, if_false,
      evalPrefixExpression, evalMinusPrefixOperatorExpression]
    rfl
  · intro v h1 h2
    exact wrap64_of_range (-v) (by omega) (by omega)
  · intro tok e env env1 m h
    simp [Eval, EvalExpression, h, isError]

theorem minus_negates_witness :
    Eval (.Expression (.PrefixExpression ⟨.MINUS, bytesOf "-"⟩ (bytesOf "-") (intLit "7" 7)))
        freshEnv = some (.Integer (wrap64 (-7)), freshEnv) ∧
    wrap64 (-7) = -7 ∧
    Eval (.Expression (.PrefixExpression ⟨.MINUS, bytesOf "-"⟩ (bytesOf "-") (ident "x")))
        freshEnv = some (.Error (bytesOf "identifier not found: x"), freshEnv) :=
  ⟨minus_negates.1 _ (intLit "7" 7) freshEnv freshEnv 7 (by rfl),
    minus_negates.2.1 7 (by decide) (by decide),
    minus_negates.2.2.2.1 _ (ident "x") freshEnv freshEnv _ (by rfl)⟩

/-! ## No nil node without a syntax error -/

theorem wellFormed_noNil (e : Expression) (h : WellFormed e) : e.noNil = true := by
  induction e with
  | nil => exact absurd h (by simp [WellFormed])
  | Identifier tok v => rfl
  | IntegerLiteral tok v => rfl
  | PrefixExpression tok op r ih =>
    obtain ⟨_, _, hr⟩ := (h : IsPrefixToken tok ∧ op = tok.Literal ∧ WellFormed r)
    exact ih hr
  | InfixExpression tok l op r ihl ihr =>
    obtain ⟨_, _, hl, hr⟩ :=
      (h : IsInfixToken tok ∧ op = tok.Literal ∧ WellFormed l ∧ WellFormed r)
    simp [Expression.noNil, ihl hl, ihr hr]

theorem statementOK_noNil (s : Statement) (h : StatementOK s) : s.noNil = true := by
  cases s with
  | nil => exact absurd h (by simp [StatementOK])
  | nilLetStatement => exact absurd h (by simp [StatementOK])
  | LetStatement tok name value =>
    obtain ⟨_, ⟨x, hx, _⟩, hv⟩ := (h : tok.Typ = .LET ∧
      (∃ x, name = some ⟨⟨.IDENT, x⟩, x⟩ ∧ IsIdentText x) ∧ WellFormed value)
    simp [Statement.noNil, hx, wellFormed_noNil value hv]
  | ExpressionStatement tok e => exact wellFormed_noNil e h

/-- C23: when ParseProgram records no error, every statement of the program is a statement
without a nil node: no nil statement, every let statement with a name and a value, every
expression statement with an expression, and inside the expressions every operand of a
prefix or infix node present. -/
theorem error_free_parse_has_no_nil (src : List Nat) (program : Program)
    (h : parse src = some (program, [])) :
    ∀ s ∈ program.Statements, s.noNil = true :=
  fun s hs => statementOK_noNil s (Parser.parse_sound src program h s hs)

theorem error_free_parse_has_no_nil_witness :
    (letStmt "x" (binop .ASTERISK (unop .MINUS (ident "a"))
      (binop .PLUS (ident "b") (intLit "1" 1)))).noNil = true ∧
    (Statement.ExpressionStatement ⟨.IDENT, bytesOf "x"⟩ (ident "x")).noNil = true :=
  have h := error_free_parse_has_no_nil (bytesOf "let x = -a * (b + 1); x")
    ⟨[letStmt "x" (binop .ASTERISK (unop .MINUS (ident "a"))
        (binop .PLUS (ident "b") (intLit "1" 1))),
      Statement.ExpressionStatement ⟨.IDENT, bytesOf "x"⟩ (ident "x")]⟩ (by rfl)
  ⟨h _ (List.mem_cons_self _ _), h _ (List.mem_cons_of_mem _ (List.mem_cons_self _ _))⟩

/-! ## Termination -/

namespace Lexer

/-- The loops of the lexer end by their condition, not by the bound of the embedding. -/
theorem Inv.readWhile_exit {l : Lexer} (h : l.Inv) (cond : Nat → Bool) (h0 : cond 0 = false) :
    cond (readWhile cond (l.input.length + 1) l).ch = false := by
  have h1 := (h.at.readWhile_all h0).1
  rw [h1.ch_eq]
  exact headD_dropWhile cond h0 _

/-- A call of NextToken that returns another token than the end of the input moves the
cursor forward. -/
theorem Inv.NextToken_advance {l : Lexer} (h : l.Inv) (hne : l.NextToken.1.Typ ≠ .EOF) :
    l.position + 1 ≤ l.NextToken.2.position ∧ l.position + 1 ≤ l.input.length := by
  obtain ⟨l1, h1, h2⟩ := h.at.NextToken_scan
  rw [h1] at hne ⊢
  have hlen := (scan_length (l.input.drop l.position)).2 hne
  have e1 : l1.input = l.input := by
    have := NextToken_input l
    rw [h1] at this
    exact this
  have e2 := congrArg List.length h2.2
  rw [List.length_drop, e1] at e2
  rw [← e2, List.length_drop] at hlen
  show l.position + 1 ≤ l1.position ∧ _
  omega

end Lexer

namespace Parser

theorem Inv.weight_le {p : Parser} (_h : p.Inv) : p.weight ≤ p.lex.input.length + 2 := by
  have h1 : tokenWeight p.curToken ≤ 1 := by unfold tokenWeight; split <;> omega
  have h2 : tokenWeight p.peekToken ≤ 1 := by unfold tokenWeight; split <;> omega
  simp only [weight]
  omega

/-- One turn of the statement loop of ParseProgram returns and leaves less to parse. -/
theorem statement_turn {p : Parser} (hp : p.Inv) (hne : p.curToken.Typ ≠ .EOF) :
    ∃ r, parseStatement (budget p) p = some r ∧ r.2.nextToken.Inv ∧
      r.2.nextToken.weight + 1 ≤ p.weight := by
  have hw := hp.weight_le
  obtain ⟨⟨stmt, q⟩, g1, g2', g3'⟩ :=
    total_parseStatement (budget p) p hp (by simp only [budget]; omega)
  have g2 : q.Inv := g2'
  have g3 : Progress p q := g3'
  refine ⟨(stmt, q), g1, g2.nextToken_inv, ?_⟩
  have hq := nextToken_weight g2
  have hle : q.weight ≤ p.weight := g3.1
  show q.nextToken.weight + 1 ≤ p.weight
  rcases g3.2 hne with ⟨hc, hw⟩ | hlt
  · have := nextToken_lt g2 (by rw [hc]; exact hne)
    omega
  · omega

/-- One turn of the infix loop of parseExpression returns and leaves less to parse. -/
theorem infix_turn {p : Parser} (hp : p.Inv) (left : Expression)
    {handler : Expression → Parser → Parsed Expression}
    (hh : infixParseFns (parseExpression (budget p)) p.peekToken.Typ = some handler) :
    ∃ r, handler left p.nextToken = some r ∧ r.2.Inv ∧ r.2.weight + 1 ≤ p.weight := by
  have hw := hp.weight_le
  have hcall : TotalCall (parseExpression (budget p)) (p.lex.input.length + 3) := by
    intro precedence q hq hqw
    exact (total_expression (budget p)).1 precedence q hq (by simp only [budget]; omega)
  have hn := nextToken_weight hp
  obtain ⟨r, h1, h2, h3⟩ := total_infix_handler hcall hp.nextToken_inv (by omega)
    (by rw [nextToken_curToken]; exact hh) left
  exact ⟨r, h1, h2, by omega⟩

end Parser

/-- C24: lexing and parsing return on every source text. The budget of the parser is never
used up; the loops of the lexer end by their condition; a call of NextToken that returns
another token than the end of the input moves the cursor forward by at least one byte; one
turn of the statement loop and one turn of the infix loop each return and leave less of the
input (tokens held and bytes unread) than there was. -/
theorem parse_terminates :
    (∀ src : List Nat, ∃ program errors, parse src = some (program, errors)) ∧
    (∀ (src : List Nat) (n : Nat),
      isWhitespace ((Lexer.New src).afterCalls n).skipWhitespace.ch = false ∧
      isLetter ((Lexer.New src).afterCalls n).skipWhitespace.readIdentifier.2.ch = false ∧
      isDigit ((Lexer.New src).afterCalls n).skipWhitespace.readNumber.2.ch = false) ∧
    (∀ (src : List Nat) (n : Nat), ((Lexer.New src).tokenAt n).Typ ≠ .EOF →
      ((Lexer.New src).afterCalls n).position + 1
        ≤ ((Lexer.New src).afterCalls (n + 1)).position) ∧
    (∀ p : Parser, p.Inv → p.curToken.Typ ≠ .EOF →
      ∃ r, Parser.parseStatement p.budget p = some r ∧ r.2.nextToken.weight + 1 ≤ p.weight) ∧
    (∀ (p : Parser) (left : Expression) (handler : Expression → Parser → Parsed Expression),
      p.Inv → Parser.infixParseFns (Parser.parseExpression p.budget) p.peekToken.Typ = some handler →
      ∃ r, handler left p.nextToken = some r ∧ r.2.weight + 1 ≤ p.weight) := by
  refine ⟨Parser.parse_total, ?_, ?_, ?_, ?_⟩
  · intro src n
    have hinv := Lexer.afterCalls_New_inv src n
    have h1 := (hinv.at.skipWhitespace_at).1
    exact ⟨hinv.readWhile_exit isWhitespace (by decide),
      h1.readWhile_exit isLetter (by decide), h1.readWhile_exit isDigit (by decide)⟩
  · intro src n hne
    exact ((Lexer.afterCalls_New_inv src n).NextToken_advance hne).1
  · intro p hp hne
    obtain ⟨r, h1, _, h3⟩ := Parser.statement_turn hp hne
    exact ⟨r, h1, h3⟩
  · intro p left handler hp hh
    obtain ⟨r, h1, _, h3⟩ := Parser.infix_turn hp left hh
    exact ⟨r, h1, h3⟩

theorem parse_terminates_witness :
    ((Lexer.New (bytesOf "a @ (")).tokenAt 1).Typ ≠ .EOF ∧
    ((Lexer.New (bytesOf "a @ (")).afterCalls 1).position + 1
      ≤ ((Lexer.New (bytesOf "a @ (")).afterCalls (1 + 1)).position ∧
    ∃ r, Parser.parseStatement (Parser.New (Lexer.New (bytesOf "(a +"))).budget
        (Parser.New (Lexer.New (bytesOf "(a +"))) = some r ∧
      r.2.nextToken.weight + 1 ≤ (Parser.New (Lexer.New (bytesOf "(a +"))).weight :=
  ⟨by decide, parse_terminates.2.2.1 (bytesOf "a @ (") 1 (by decide),
    parse_terminates.2.2.2.1 _ (Parser.New_inv (bytesOf "(a +")) (by decide)⟩

/-! ## The values in the environment -/

theorem lookup_mem (store : Store) (n : List Nat) (v : Object)
    (h : store.lookup n = some v) : ∃ kv ∈ store, kv.2 = v := by
  induction store with
  | nil => simp [List.lookup] at h
  | cons kv rest ih =>
    obtain ⟨k, w⟩ := kv
    simp only [List.lookup] at h
    split at h
    · simp only [Option.some.injEq] at h
      exact ⟨(k, w), by simp, h⟩
    · obtain ⟨kv, h1, h2⟩ := ih h
      exact ⟨kv, by simp [h1], h2⟩

namespace Environment

theorem AllIntegers.fresh : freshEnv.AllIntegers := by
  intro store hs kv hkv
  simp only [freshEnv, NewEnvironment, scopes, List.mem_singleton] at hs
  subst hs
  simp at hkv

theorem AllIntegers.Get_Integer {env : Environment} (h : env.AllIntegers) (n : List Nat)
    (v : Object) (hg : env.Get n = some v) : ∃ i : Int, v = .Integer i := by
  rw [Get_scopes] at hg
  obtain ⟨store, hs, hl⟩ := List.exists_of_findSome?_eq_some hg
  obtain ⟨kv, h1, h2⟩ := lookup_mem store n v hl
  obtain ⟨i, hi⟩ := h store hs kv h1
  exact ⟨i, by rw [← h2, hi]⟩

theorem AllIntegers.Set_Integer {env : Environment} (h : env.AllIntegers) (n : List Nat)
    (i : Int) : (env.Set n (.Integer i)).AllIntegers := by
  cases env with
  | mk store outer =>
    have key : ∀ kv ∈ (n, Object.Integer i) :: store.filter (fun kv => kv.1 != n),
        ∃ j : Int, kv.2 = .Integer j := by
      intro kv hkv
      rcases List.mem_cons.mp hkv with e | e
      · exact ⟨i, by rw [e]⟩
      · have hm := (List.mem_filter.mp e).1
        cases outer with
        | none => exact h store (by simp [scopes]) kv hm
        | some o => exact h store (by simp [scopes]) kv hm
    cases outer with
    | none =>
      intro st hs kv hkv
      simp only [Set, scopes, List.mem_singleton] at hs
      subst hs
      exact key kv hkv
    | some o =>
      intro st hs kv hkv
      simp only [Set, scopes, List.mem_cons] at hs
      rcases hs with e | e
      · subst e
        exact key kv hkv
      · exact h st (by simp [scopes, e]) kv hkv

end Environment

/-- An expression without nil node evaluates, in an environment that holds Integers only,
to an Integer or to an Error. -/
theorem EvalExpression_value (e : Expression) :
    ∀ (env env1 : Environment) (v : Object), e.noNil = true → env.AllIntegers →
      EvalExpression e env = some (v, env1) →
        (∃ i : Int, v = .Integer i) ∨ (∃ m, v = .Error m) := by
  induction e with
  | nil => intro env env1 v h; exact absurd h (by simp [Expression.noNil])
  | Identifier tok n =>
    intro env env1 v _ hall h
    simp only [EvalExpression, Option.some.injEq, Prod.mk.injEq] at h
    obtain ⟨h1, _⟩ := h
    unfold evalIdentifier at h1
    cases hg : env.Get n with
    | none =>
      rw [hg] at h1
      exact Or.inr ⟨_, h1.symm⟩
    | some w =>
      rw [hg] at h1
      subst h1
      exact Or.inl (hall.Get_Integer n _ hg)
  | IntegerLiteral tok value =>
    intro env env1 v _ _ h
    simp only [EvalExpression, Option.some.injEq, Prod.mk.injEq] at h
    exact Or.inl ⟨value, h.1.symm⟩
  | PrefixExpression tok op r ih =>
    intro env env1 v hn hall h
    simp only [EvalExpression] at h
    cases hr : EvalExpression r env with
    | none => simp [hr] at h
    | some x =>
      obtain ⟨w, e1⟩ := x
      simp only [hr] at h
      rcases ih env e1 w hn hall hr with ⟨i, hi⟩ | ⟨m, hm⟩
      · subst hi
        simp only [isError, Bool.false_eq_true, if_false] at h
        cases hp : evalPrefixExpression op (.Integer i) with
        | none => simp [hp] at h
        | some u =>
          simp only [hp, Option.some.injEq, Prod.mk.injEq] at h
          rw [← h.1]
          unfold evalPrefixExpression at hp
          split at hp
          · simp only [evalBangOperatorExpression, Object.Typ, newError,
              Option.some.injEq] at hp
            exact Or.inr ⟨_, hp.symm⟩
          · split at hp
            · simp only [evalMinusPrefixOperatorExpression, Option.some.injEq] at hp
              exact Or.inl ⟨_, hp.symm⟩
            · simp only [Object.Typ, newError, Option.some.injEq] at hp
              exact Or.inr ⟨_, hp.symm⟩
      · subst hm
        simp only [isError, if_true, Option.some.injEq, Prod.mk.injEq] at h
        exact Or.inr ⟨m, h.1.symm⟩
  | InfixExpression tok l op r ihl ihr =>
    intro env env1 v hn hall h
    simp only [Expression.noNil, Bool.and_eq_true] at hn
    simp only [EvalExpression] at h
    cases hl : EvalExpression l env with
    | none => simp [hl] at h
    | some x =>
      obtain ⟨lv, e1⟩ := x
      simp only [hl] at h
      have he1 := EvalExpression_env l env lv e1 hl
      rw [he1] at h
      rcases ihl env e1 lv hn.1 hall hl with ⟨a, ha⟩ | ⟨m, hm⟩
      · subst ha
        simp only [isError, Bool.false_eq_true, if_false] at h
        cases hr : EvalExpression r env with
        | none => simp [hr] at h
        | some y =>
          obtain ⟨rv, e2⟩ := y
          simp only [hr] at h
          rcases ihr env e2 rv hn.2 hall hr with ⟨b, hb⟩ | ⟨m, hm⟩
          · subst hb
            simp only [isError, Bool.false_eq_true, if_false, evalInfixExpression] at h
            cases hi : evalIntegerInfixExpression op a b with
            | none => simp [hi] at h
            | some u =>
              simp only [hi, Option.some.injEq, Prod.mk.injEq] at h
              rw [← h.1]
              unfold evalIntegerInfixExpression at hi
              split at hi
              · exact Or.inl ⟨_, (Option.some.inj hi).symm⟩
              · split at hi
                · exact Or.inl ⟨_, (Option.some.inj hi).symm⟩
                · split at hi
                  · exact Or.inl ⟨_, (Option.some.inj hi).symm⟩
                  · split at hi
                    · split at hi
                      · cases hi
                      · exact Or.inl ⟨_, (Option.some.inj hi).symm⟩
                    · exact Or.inr ⟨_, (Option.some.inj hi).symm⟩
          · subst hm
            simp only [isError, if_true, Option.some.injEq, Prod.mk.injEq] at h
            exact Or.inr ⟨m, h.1.symm⟩
      · subst hm
        simp only [isError, if_true, Option.some.injEq, Prod.mk.injEq] at h
        exact Or.inr ⟨m, h.1.symm⟩

/-- A statement without nil node leaves an environment of Integers an environment of
Integers. -/
theorem EvalStatement_keeps (s : Statement) (env env1 : Environment) (v : Object)
    (hn : s.noNil = true) (hall : env.AllIntegers)
    (h : EvalStatement s env = some (v, env1)) : env1.AllIntegers := by
  cases s with
  | nil => exact absurd hn (by simp [Statement.noNil])
  | nilLetStatement => exact absurd hn (by simp [Statement.noNil])
  | ExpressionStatement tok e =>
    have he := EvalExpression_env e env v env1 h
    rw [he]
    exact hall
  | LetStatement tok name value =>
    simp only [Statement.noNil, Bool.and_eq_true] at hn
    simp only [EvalStatement] at h
    cases hv : EvalExpression value env with
    | none => simp [hv] at h
    | some x =>
      obtain ⟨w, e1⟩ := x
      simp only [hv] at h
      have he1 := EvalExpression_env value env w e1 hv
      rcases EvalExpression_value value env e1 w hn.2 hall hv with ⟨i, hi⟩ | ⟨m, hm⟩
      · subst hi
        simp only [isError, Bool.false_eq_true, if_false] at h
        cases name with
        | none => simp at h
        | some n =>
          simp only [Option.some.injEq, Prod.mk.injEq] at h
          rw [← h.2, he1]
          exact hall.Set_Integer n.Value i
      · subst hm
        simp only [isError, if_true, Option.some.injEq, Prod.mk.injEq] at h
        rw [← h.2, he1]
        exact hall

theorem evalProgramLoop_keeps (stmts : List Statement) :
    ∀ (result : Object) (env env1 : Environment) (v : Object),
      (∀ s ∈ stmts, s.noNil = true) → env.AllIntegers →
      evalProgramLoop result stmts env = some (v, env1) → env1.AllIntegers := by
  induction stmts with
  | nil =>
    intro result env env1 v _ hall h
    simp only [evalProgramLoop, Option.some.injEq, Prod.mk.injEq] at h
    rw [← h.2]
    exact hall
  | cons st rest ih =>
    intro result env env1 v hn hall h
    rw [evalProgramLoop] at h
    cases hs : EvalStatement st env with
    | none => simp [hs] at h
    | some x =>
      obtain ⟨r, e1⟩ := x
      have hk := EvalStatement_keeps st env e1 r (hn st (by simp)) hall hs
      have hrest : ∀ s ∈ rest, s.noNil = true := fun s hm => hn s (by simp [hm])
      cases r with
      | nil =>
        simp only [hs] at h
        exact ih _ _ _ _ hrest hk h
      | Integer i =>
        simp only [hs] at h
        exact ih _ _ _ _ hrest hk h
      | Error m =>
        simp only [hs, Option.some.injEq, Prod.mk.injEq] at h
        rw [← h.2]
        exact hk
      | ReturnValue w =>
        simp only [hs, Option.some.injEq, Prod.mk.injEq] at h
        rw [← h.2]
        exact hk

theorem startLoop_keeps (lines : List (List Nat)) :
    ∀ (env env1 : Environment) (out out1 : List Nat), env.AllIntegers →
      startLoop lines env out = some (out1, env1) → env1.AllIntegers := by
  induction lines with
  | nil =>
    intro env env1 out out1 hall h
    simp only [startLoop, Option.some.injEq, Prod.mk.injEq] at h
    rw [← h.2]
    exact hall
  | cons line rest ih =>
    intro env env1 out out1 hall h
    rw [startLoop] at h
    cases hp : parse line with
    | none => simp [hp] at h
    | some x =>
      obtain ⟨program, errors⟩ := x
      simp only [hp] at h
      by_cases he : errors.length ≠ 0
      · simp only [he, ne_eq, not_false_eq_true, if_true] at h
        exact ih _ _ _ _ hall h
      · have hnil : errors = [] := by
          cases errors with
          | nil => rfl
          | cons a b => simp at he
        subst hnil
        simp only [List.length_nil, ne_eq, not_true_eq_false, if_false] at h
        cases ht : program.String with
        | none => simp [ht] at h
        | some text =>
          simp only [ht] at h
          cases hv : Eval (.Program program) env with
          | none => simp [hv] at h
          | some y =>
            obtain ⟨evaluated, e1⟩ := y
            simp only [hv] at h
            have hk : e1.AllIntegers :=
              evalProgramLoop_keeps program.Statements .nil env e1 evaluated
                (fun s hs => statementOK_noNil s (Parser.parse_sound line program hp s hs))
                hall hv
            split at h
            · cases hi : evaluated.Inspect with
              | none => simp [hi] at h
              | some shown =>
                simp only [hi] at h
                exact ih _ _ _ _ hk h
            · exact ih _ _ _ _ hk h

/-- C25: the environments that the evaluator leaves hold Integers only. Evaluating a list
of statements without nil node (as every program parsed without an error is) in an
environment of Integers leaves an environment of Integers; so does the REPL, which starts
from the fresh environment and evaluates the lines that parse without an error one after the
other in the same environment; in such an environment every successful lookup of a name
gives an Integer. -/
theorem stored_values_are_integers :
    freshEnv.AllIntegers ∧
    (∀ (stmts : List Statement) (env env1 : Environment) (v : Object),
      (∀ s ∈ stmts, s.noNil = true) → env.AllIntegers →
      Eval (.Program ⟨stmts⟩) env = some (v, env1) → env1.AllIntegers) ∧
    (∀ (src : List Nat) (program : Program) (env env1 : Environment) (v : Object),
      parse src = some (program, []) → env.AllIntegers →
      Eval (.Program program) env = some (v, env1) → env1.AllIntegers) ∧
    (∀ (lines : List (List Nat)) (out : List Nat) (env : Environment),
      Start lines = some (out, env) → env.AllIntegers) ∧
    (∀ (env : Environment) (n : List Nat) (v : Object), env.AllIntegers →
      env.Get n = some v → ∃ i : Int, v = .Integer i) := by
  refine ⟨Environment.AllIntegers.fresh, ?_, ?_, ?_, ?_⟩
  · intro stmts env env1 v hn hall h
    exact evalProgramLoop_keeps stmts .nil env env1 v hn hall h
  · intro src program env env1 v hp hall h
    exact evalProgramLoop_keeps program.Statements .nil env env1 v
      (fun s hs => statementOK_noNil s (Parser.parse_sound src program hp s hs)) hall h
  · intro lines out env h
    exact startLoop_keeps lines _ env [] out Environment.AllIntegers.fresh h
  · intro env n v hall hg
    exact hall.Get_Integer n v hg

theorem stored_values_are_integers_witness :
    (freshEnv.Set (bytesOf "x") (.Integer 5)).AllIntegers ∧
    ∃ i : Int, Object.Integer 5 = .Integer i :=
  have h := stored_values_are_integers.2.2.1 (bytesOf "let x = 5; y")
    ⟨[letStmt "x" (intLit "5" 5),
      .ExpressionStatement ⟨.IDENT, bytesOf "y"⟩ (ident "y")]⟩
    freshEnv (freshEnv.Set (bytesOf "x") (.Integer 5))
    (.Error (bytesOf "identifier not found: y")) (by rfl) stored_values_are_integers.1
  ⟨h (by rfl), stored_values_are_integers.2.2.2.2 _ (bytesOf "x") _ (h (by rfl)) (by rfl)⟩

/-! ## Printing and reading back whole programs -/

theorem scan_assign (s : List Nat) : scan (61 :: 32 :: s) = (⟨.ASSIGN, [61]⟩, 32 :: s) := by
  simp [scan, List.dropWhile, isWhitespace]

theorem scan_semicolon (s : List Nat) : scan (59 :: s) = (⟨.SEMICOLON, [59]⟩, s) := by
  simp [scan, List.dropWhile, isWhitespace]

theorem scan_let (s : List Nat) :
    scan (bytesOf "let" ++ 32 :: s) = (⟨.LET, bytesOf "let"⟩, 32 :: s) :=
  scan_letters (bytesOf "let") (32 :: s) (by decide) (by decide) (by rfl)

/-- A text that starts with a letter, a digit or `(`, or is empty, starts a statement. -/
theorem startsStatement_of_head (s : List Nat)
    (h : s = [] ∨ isLetter (s.headD 0) = true ∨ isDigit (s.headD 0) = true ∨ s.headD 0 = 40) :
    StartsStatement s := by
  rcases h with h | h | h | h
  · subst h
    exact ⟨rfl, by decide⟩
  · have hs : s.takeWhile isLetter ++ s.dropWhile isLetter = s :=
      List.takeWhile_append_dropWhile _ _
    have hne : s.takeWhile isLetter ≠ [] := by
      cases s with
      | nil => exact absurd h (by decide)
      | cons c r =>
        simp only [List.headD_cons] at h
        simp [List.takeWhile_cons, h]
    have hsc := scan_letters (s.takeWhile isLetter) (s.dropWhile isLetter) hne
      (fun c hc => List.mem_takeWhile_imp hc) (headD_dropWhile isLetter (by decide) s)
    rw [hs] at hsc
    unfold StartsStatement
    rw [hsc]
    rcases LookupIdent_cases (s.takeWhile isLetter) with ⟨g, _⟩ | ⟨g, _⟩ | g <;>
      simp only [g] <;> exact ⟨rfl, by decide⟩
  · have hs : s.takeWhile isDigit ++ s.dropWhile isDigit = s :=
      List.takeWhile_append_dropWhile _ _
    have hne : s.takeWhile isDigit ≠ [] := by
      cases s with
      | nil => exact absurd h (by decide)
      | cons c r =>
        simp only [List.headD_cons] at h
        simp [List.takeWhile_cons, h]
    have hsc := scan_digits (s.takeWhile isDigit) (s.dropWhile isDigit) hne
      (fun c hc => List.mem_takeWhile_imp hc) (headD_dropWhile isDigit (by decide) s)
    rw [hs] at hsc
    unfold StartsStatement
    rw [hsc]
    exact ⟨rfl, by simp⟩
  · cases s with
    | nil => exact absurd h (by decide)
    | cons c r =>
      simp only [List.headD_cons] at h
      subst h
      unfold StartsStatement
      rw [scan_lparen]
      exact ⟨rfl, by simp⟩

namespace Parser

/-- Reading back the text of a well-formed expression before a text that may follow it:
the handler of its first token returns the expression itself, adds no error, and stops
right after the text. -/
theorem handler_text_open (e : Expression) (hwf : WellFormed e) (s : List Nat)
    (hb : Boundary e s) (p : Parser) (fuel : Nat) (hp : p.CurAt (e.text ++ s))
    (hf : 3 * e.depth + 1 ≤ fuel) :
    ∃ handler p1, prefixParseFns (parseExpression fuel) p.curToken.Typ = some handler ∧
      handler p = some (e, p1) ∧ p1.errors = p.errors ∧ p1.PeekAt s ∧
      p.curToken.Typ ≠ .EOF ∧ p.curToken.Typ ≠ .LET := by
  cases e with
  | nil => exact absurd hwf (by simp [WellFormed])
  | Identifier tok v =>
    obtain ⟨h1, h2⟩ := (hwf : tok = ⟨.IDENT, v⟩ ∧ IsIdentText v)
    subst h1
    obtain ⟨hc, hpk⟩ := hp
    have hsc : scan (v ++ s) = (⟨.IDENT, v⟩, s) := by
      rw [scan_letters v s h2.1 h2.2.1 hb, h2.2.2]
    have hc : p.curToken = ⟨.IDENT, v⟩ := by
      rw [hc]
      exact congrArg Prod.fst hsc
    have hpk : p.PeekAt s := by
      have := congrArg Prod.snd hsc
      simp only at this
      rw [← this]
      exact hpk
    refine ⟨parseIdentifier, p, by rw [hc]; rfl, ?_, rfl, hpk, by rw [hc]; simp,
      by rw [hc]; simp⟩
    simp [parseIdentifier, hc]
  | IntegerLiteral tok v =>
    obtain ⟨h1, h2⟩ := (hwf : tok.Typ = .INT ∧ IsIntText tok.Literal v)
    obtain ⟨ty, lit⟩ := tok
    simp only at h1 h2
    subst h1
    obtain ⟨hc, hpk⟩ := hp
    have hsc : scan (lit ++ s) = (⟨.INT, lit⟩, s) := scan_digits lit s h2.1 h2.2.1 hb
    have hc : p.curToken = ⟨.INT, lit⟩ := by
      rw [hc]
      exact congrArg Prod.fst hsc
    have hpk : p.PeekAt s := by
      have := congrArg Prod.snd hsc
      simp only at this
      rw [← this]
      exact hpk
    refine ⟨parseIntegerLiteral, p, by rw [hc]; rfl, ?_, rfl, hpk, by rw [hc]; simp,
      by rw [hc]; simp⟩
    simp [parseIntegerLiteral, hc, h2.2.2]
  | PrefixExpression tok op r =>
    obtain ⟨ht, hop, hr⟩ := (hwf : IsPrefixToken tok ∧ op = tok.Literal ∧ WellFormed r)
    subst hop
    obtain ⟨f, rfl⟩ : ∃ f, fuel = f + 3 := ⟨fuel - 3, by simp only [Expression.depth] at hf; omega⟩
    have hf1 : 3 * r.depth + 1 ≤ f + 1 := by simp only [Expression.depth] at hf; omega
    have htext : (Expression.PrefixExpression tok tok.Literal r).text ++ s
        = 40 :: (tok.Literal ++ (r.text ++ 41 :: s)) := by
      simp [Expression.text, bytesOf_lparen, bytesOf_rparen]
    rw [htext] at hp
    unfold CurAt at hp
    rw [scan_lparen] at hp
    obtain ⟨hcur, hpeek⟩ := hp
    have hp1 := hpeek.nextToken_at
    have hsc := scan_prefix_token tok ht (r.text ++ 41 :: s) (text_head_ne r hr _)
    have hp1' := hp1
    unfold CurAt at hp1'
    rw [hsc] at hp1'
    obtain ⟨hcur1, hpeek1⟩ := hp1'
    have hp2 := hpeek1.nextToken_at
    obtain ⟨hr_handler, p3, a, b, c, d, _, _⟩ :=
      handler_text r hr (41 :: s) p.nextToken.nextToken (f + 1) (delimited_rparen s) hp2 hf1
    have hinner : parseExpression (f + 2) PREFIX p.nextToken.nextToken = some (r, p3) := by
      rw [parseExpression_succ, a]
      simp only [b]
      exact loop_stop_rparen f PREFIX r d (by decide)
    have hpre : prefixParseFns (parseExpression (f + 2)) p.nextToken.curToken.Typ
        = some (parsePrefixExpression (parseExpression (f + 2))) := by
      rw [hcur1]
      rcases ht.1 with h | h <;> rw [h] <;> rfl
    have houter : parseExpression (f + 3) LOWEST p.nextToken
        = some (.PrefixExpression tok tok.Literal r, p3) := by
      rw [parseExpression_succ, hpre]
      simp only [parsePrefixExpression, hinner, hcur1]
      exact loop_stop_rparen (f + 1) LOWEST _ d (by decide)
    obtain ⟨g1, g2, g3⟩ := grouped_step (parseExpression (f + 3)) houter d
    refine ⟨parseGroupedExpression (parseExpression (f + 3)), p3.nextToken, by rw [hcur]; rfl,
      g1, ?_, g2, by rw [hcur]; simp, by rw [hcur]; simp⟩
    rw [g3, c]
    rfl
  | InfixExpression tok l op r =>
    obtain ⟨ht, hop, hl, hr⟩ :=
      (hwf : IsInfixToken tok ∧ op = tok.Literal ∧ WellFormed l ∧ WellFormed r)
    subst hop
    obtain ⟨f, rfl⟩ : ∃ f, fuel = f + 3 := ⟨fuel - 3, by simp only [Expression.depth] at hf; omega⟩
    have hfl : 3 * l.depth + 1 ≤ f + 2 := by simp only [Expression.depth] at hf; omega
    have hfr : 3 * r.depth + 1 ≤ f := by simp only [Expression.depth] at hf; omega
    obtain ⟨f0, rfl⟩ : ∃ f0, f = f0 + 1 := ⟨f - 1, by omega⟩
    have htext : (Expression.InfixExpression tok l tok.Literal r).text ++ s
        = 40 :: (l.text ++ 32 :: (tok.Literal ++ 32 :: (r.text ++ 41 :: s))) := by
      simp [Expression.text, bytesOf_lparen, bytesOf_rparen, bytesOf_space]
    rw [htext] at hp
    unfold CurAt at hp
    rw [scan_lparen] at hp
    obtain ⟨hcur, hpeek⟩ := hp
    have hp1 := hpeek.nextToken_at
    obtain ⟨hl_handler, p2, a, b, c, d, _, _⟩ :=
      handler_text l hl _ p.nextToken (f0 + 1 + 2) (delimited_space _) hp1 hfl
    obtain ⟨k, hk⟩ := Option.isSome_iff_exists.mp ht.1
    obtain ⟨i1, i2, i3⟩ := d.infix_token ht
    obtain ⟨hr_handler, p5, a', b', c', d', _, _⟩ :=
      handler_text r hr (41 :: s) p2.nextToken.nextToken (f0 + 1) (delimited_rparen s) i2 hfr
    have hklow := (infixParseFns_of_precedence (parseExpression 0) tok.Typ k hk).2.2
    have hright : parseExpression (f0 + 1 + 1) k p2.nextToken.nextToken = some (r, p5) := by
      rw [parseExpression_succ, a']
      simp only [b']
      exact loop_stop_rparen f0 k r d' (by omega)
    have houter : parseExpression (f0 + 1 + 3) LOWEST p.nextToken
        = some (.InfixExpression tok l tok.Literal r, p5) := by
      rw [parseExpression_succ, a]
      simp only [b]
      rw [loop_infix_step (f0 + 1 + 1) LOWEST l i1 k hk hklow hright]
      exact loop_stop_rparen (f0 + 1) LOWEST _ d' (by decide)
    obtain ⟨g1, g2, g3⟩ := grouped_step (parseExpression (f0 + 1 + 3)) houter d'
    refine ⟨parseGroupedExpression (parseExpression (f0 + 1 + 3)), p5.nextToken,
      by rw [hcur]; rfl, g1, ?_, g2, by rw [hcur]; simp, by rw [hcur]; simp⟩
    rw [g3, c', i3, c]
    rfl

end Parser

namespace Parser

/-- The statement rule on the text of a well-formed expression that is followed by the
start of another statement or by the end of the input: the expression statement, no error,
and the parser left before the text that follows. -/
theorem expression_statement_step (e : Expression) (hwf : WellFormed e) (s : List Nat)
    (hb : Boundary e s) (hs : StartsStatement s) (p : Parser) (hp : p.CurAt (e.text ++ s))
    (fuel : Nat) (hf : 3 * e.depth + 2 ≤ fuel) :
    ∃ p1, parseStatement fuel p = some (.ExpressionStatement p.curToken e, p1) ∧
      p1.errors = p.errors ∧ p1.nextToken.CurAt s ∧ p.curToken.Typ ≠ .EOF := by
  obtain ⟨f, rfl⟩ : ∃ f, fuel = f + 2 := ⟨fuel - 2, by omega⟩
  obtain ⟨handler, p1, h1, h2, h3, h4, h5, h6⟩ :=
    handler_text_open e hwf s hb p (f + 1) hp (by omega)
  have hpe : parseExpression (f + 2) LOWEST p = some (e, p1) := by
    rw [parseExpression_succ, h1]
    simp only [h2]
    apply parseExpressionLoop_stop
    rw [peekPrecedence_of_none (by rw [h4.1]; exact hs.1)]
  have hsemi : p1.peekTokenIs .SEMICOLON = false := by
    have := hs.2
    rw [← h4.1] at this
    simp [peekTokenIs, this]
  refine ⟨p1, ?_, h3, h4.nextToken_at, h5⟩
  simp [parseStatement, h6, parseExpressionStatement, hpe, hsemi]

/-- The statement rule on the text of a let statement: the let statement, no error, and
the parser left before the text that follows. -/
theorem let_statement_step (x : List Nat) (hx : IsIdentText x) (v : Expression)
    (hwf : WellFormed v) (s : List Nat) (p : Parser)
    (hp : p.CurAt (bytesOf "let" ++ 32 :: (x ++ 32 :: 61 :: 32 :: (v.text ++ 59 :: s))))
    (fuel : Nat) (hf : 3 * v.depth + 2 ≤ fuel) :
    ∃ p1, parseStatement fuel p
        = some (.LetStatement ⟨.LET, bytesOf "let"⟩ (some ⟨⟨.IDENT, x⟩, x⟩) v, p1) ∧
      p1.errors = p.errors ∧ p1.nextToken.CurAt s ∧ p.curToken.Typ ≠ .EOF := by
  obtain ⟨f, rfl⟩ : ∃ f, fuel = f + 2 := ⟨fuel - 2, by omega⟩
  unfold CurAt at hp
  rw [scan_let] at hp
  obtain ⟨hcur, hpeek⟩ := hp
  have hpeek1 := hpeek.space
  have hscx : scan (x ++ 32 :: 61 :: 32 :: (v.text ++ 59 :: s))
      = (⟨.IDENT, x⟩, 32 :: 61 :: 32 :: (v.text ++ 59 :: s)) := by
    rw [scan_letters x _ hx.1 hx.2.1 (by rfl), hx.2.2]
  have hc1 := hpeek1.nextToken_at
  unfold CurAt at hc1
  unfold PeekAt at hpeek1
  rw [hscx] at hpeek1 hc1
  obtain ⟨hcur1, hpeek2⟩ := hc1
  have hpeek3 := hpeek2.space
  have hc2 := hpeek3.nextToken_at
  unfold CurAt at hc2
  unfold PeekAt at hpeek3
  rw [scan_assign] at hpeek3 hc2
  obtain ⟨hcur2, hpeek4⟩ := hc2
  have hc3 := hpeek4.space.nextToken_at
  obtain ⟨q, a1, a2, a3, _, _⟩ :=
    text_then_loop hwf ⟨by rfl, by rfl⟩ hc3 (f + 1) LOWEST (by omega)
  have hq := a3
  unfold PeekAt at hq
  rw [scan_semicolon] at hq
  have hpe : parseExpression (f + 2) LOWEST p.nextToken.nextToken.nextToken = some (v, q) := by
    rw [a1]
    apply parseExpressionLoop_stop
    rw [peekPrecedence_of_none (by rw [hq.1]; rfl)]
  have h1 : p.peekTokenIs .IDENT = true := by simp [peekTokenIs, hpeek1.1]
  have h2 : p.nextToken.peekTokenIs .ASSIGN = true := by simp [peekTokenIs, hpeek3.1]
  have h3 : q.peekTokenIs .SEMICOLON = true := by simp [peekTokenIs, hq.1]
  have hc4 := a3.nextToken_at
  unfold CurAt at hc4
  rw [scan_semicolon] at hc4
  refine ⟨q.nextToken, ?_, ?_, hc4.2.nextToken_at, by rw [hcur]; simp⟩
  · simp [parseStatement, hcur, parseLetStatement, expectPeek, h1, h2, hpe, h3, hcur1]
  · rw [nextToken_errors, a2]
    rfl

end Parser

theorem getLastD_of_all (P : Nat → Prop) : ∀ (l : List Nat) (d : Nat),
    (∀ c ∈ l, P c) → P d → P (l.getLastD d)
  | [], d, _, hd => hd
  | a :: l, d, h, _ => by
    rw [List.getLastD_cons]
    exact getLastD_of_all P l a (fun c hc => h c (by simp [hc])) (h a (by simp))

theorem getLastD_of_all_ne (P : Nat → Prop) (l : List Nat) (d : Nat) (hne : l ≠ [])
    (h : ∀ c ∈ l, P c) : P (l.getLastD d) := by
  cases l with
  | nil => exact absurd rfl hne
  | cons a l =>
    rw [List.getLastD_cons]
    exact getLastD_of_all P l a (fun c hc => h c (by simp [hc])) (h a (by simp))

/-- A text that is separable from the text of an expression may follow it. -/
theorem boundary_of_separable (e : Expression) (hwf : WellFormed e) (a s : List Nat)
    (h : Separable e.text a = true) (hs : s.headD 0 = a.headD 0) : Boundary e s := by
  simp only [Separable, Bool.and_eq_true, Bool.not_eq_true', Bool.and_eq_false_imp] at h
  cases e with
  | nil => exact absurd hwf (by simp [WellFormed])
  | Identifier tok v =>
    obtain ⟨_, h2⟩ := (hwf : tok = ⟨.IDENT, v⟩ ∧ IsIdentText v)
    have hl : isLetter (v.getLastD 0) = true :=
      getLastD_of_all_ne (fun c => isLetter c = true) v 0 h2.1 h2.2.1
    show isLetter (s.headD 0) = false
    rw [hs]
    exact h.1 hl
  | IntegerLiteral tok v =>
    obtain ⟨_, h2⟩ := (hwf : tok.Typ = .INT ∧ IsIntText tok.Literal v)
    have hl : isDigit (tok.Literal.getLastD 0) = true :=
      getLastD_of_all_ne (fun c => isDigit c = true) tok.Literal 0 h2.1 h2.2.1
    show isDigit (s.headD 0) = false
    rw [hs]
    exact h.2 hl
  | PrefixExpression tok op r => trivial
  | InfixExpression tok l op r => trivial

theorem boundary_nil (e : Expression) (hwf : WellFormed e) : Boundary e [] := by
  cases e with
  | nil => exact absurd hwf (by simp [WellFormed])
  | Identifier tok v => rfl
  | IntegerLiteral tok v => rfl
  | PrefixExpression tok op r => trivial
  | InfixExpression tok l op r => trivial

theorem statement_string_text (s : Statement) (h : StatementOK s) :
    s.String = some s.text := by
  cases s with
  | nil => exact absurd h (by simp [StatementOK])
  | nilLetStatement => exact absurd h (by simp [StatementOK])
  | LetStatement tok name value =>
    obtain ⟨_, ⟨x, hx, _⟩, hv⟩ := (h : tok.Typ = .LET ∧
      (∃ x, name = some ⟨⟨.IDENT, x⟩, x⟩ ∧ IsIdentText x) ∧ WellFormed value)
    subst hx
    have hne : value ≠ .nil := by
      intro e
      rw [e] at hv
      exact hv
    simp [Statement.String, Statement.text, hne, String_eq_text value hv]
  | ExpressionStatement tok e =>
    have hv : WellFormed e := h
    have hne : e ≠ .nil := by
      intro e1
      rw [e1] at hv
      exact hv
    simp [Statement.String, Statement.text, hne, String_eq_text e hv]

/-- The text of a statement that the parser builds starts with a letter, a digit or `(`. -/
theorem statement_text_head (s : Statement) (h : StatementOK s) (hl : LetTokenOK s) :
    ∃ c t, s.text = c :: t ∧ (isLetter c = true ∨ isDigit c = true ∨ c = 40) := by
  cases s with
  | nil => exact absurd h (by simp [StatementOK])
  | nilLetStatement => exact absurd h (by simp [StatementOK])
  | LetStatement tok name value =>
    obtain ⟨_, ⟨x, hx, _⟩, hv⟩ := (h : tok.Typ = .LET ∧
      (∃ x, name = some ⟨⟨.IDENT, x⟩, x⟩ ∧ IsIdentText x) ∧ WellFormed value)
    subst hx
    have hlit : tok.Literal = bytesOf "let" := hl
    refine ⟨108, [101, 116] ++ bytesOf " " ++ x ++ bytesOf " = " ++ value.text ++ bytesOf ";",
      ?_, Or.inl (by decide)⟩
    simp only [Statement.text, hlit]
    rfl
  | ExpressionStatement tok e => exact text_head e h

theorem stringsConcat_text (stmts : List Statement)
    (h : ∀ s ∈ stmts, s.String = some s.text) :
    stringsConcat stmts = some (stmts.flatMap Statement.text) := by
  induction stmts with
  | nil => rfl
  | cons st rest ih =>
    have h1 := h st (by simp)
    have h2 := ih (fun s hs => h s (by simp [hs]))
    simp [stringsConcat, h1, h2]

theorem stringsConcat_congr : ∀ (a b : List Statement),
    a.map Statement.String = b.map Statement.String → stringsConcat a = stringsConcat b
  | [], [], _ => rfl
  | [], _ :: _, h => by simp at h
  | _ :: _, [], h => by simp at h
  | x :: a, y :: b, h => by
    simp only [List.map_cons, List.cons.injEq] at h
    have ih := stringsConcat_congr a b h.2
    simp only [stringsConcat, h.1, ih]

theorem flatMap_text_head (st : Statement) (rest : List Statement) (c : Nat) (t : List Nat)
    (h : st.text = c :: t) :
    ((st :: rest).flatMap Statement.text).headD 0 = st.text.headD 0 := by
  simp [List.flatMap_cons, h]

theorem length_text_le (stmts : List Statement) (s : Statement) (h : s ∈ stmts) :
    s.text.length ≤ (stmts.flatMap Statement.text).length := by
  induction stmts with
  | nil => simp at h
  | cons st rest ih =>
    simp only [List.flatMap_cons, List.length_append]
    rcases List.mem_cons.mp h with e | e
    · rw [e]; omega
    · have := ih e; omega

theorem length_le_text (stmts : List Statement)
    (h : ∀ s ∈ stmts, StatementOK s ∧ LetTokenOK s) :
    stmts.length ≤ (stmts.flatMap Statement.text).length := by
  induction stmts with
  | nil => simp
  | cons st rest ih =>
    obtain ⟨c, t, h1, _⟩ := statement_text_head st (h st (by simp)).1 (h st (by simp)).2
    have := ih (fun s hs => h s (by simp [hs]))
    simp only [List.flatMap_cons, List.length_append, List.length_cons, h1]
    omega

namespace Parser

/-- The statement rule keeps the keyword's text in the token of a let statement. -/
theorem letToken_parseStatement (fuel : Nat) (p : Parser) (r : Statement × Parser)
    (hp : p.Inv) (h : parseStatement fuel p = some r) : LetTokenOK r.1 := by
  simp only [parseStatement] at h
  split at h
  · rename_i hlet
    have hlit : p.curToken.Literal = bytesOf "let" := hp.2.1.2.2.1 hlet
    simp only [parseLetStatement] at h
    split at h
    · split at h
      · cases h3 : parseExpression fuel LOWEST
            ((p.expectPeek .IDENT).2.expectPeek .ASSIGN).2.nextToken with
        | none => simp [h3] at h
        | some r1 =>
          simp only [h3, Option.some.injEq] at h
          rw [← h]
          exact hlit
      · simp only [Option.some.injEq] at h
        rw [← h]
        trivial
    · simp only [Option.some.injEq] at h
      rw [← h]
      trivial
  · simp only [parseExpressionStatement] at h
    cases h1 : parseExpression fuel LOWEST p with
    | none => simp [h1] at h
    | some r1 =>
      simp only [h1, Option.some.injEq] at h
      rw [← h]
      trivial

theorem letToken_parseProgramLoop (fuel : Nat) (n : Nat) :
    ∀ (statements : List Statement) (p : Parser) (r : List Statement × Parser), p.Inv →
      (∀ s ∈ statements, LetTokenOK s) → parseProgramLoop fuel n statements p = some r →
        ∀ s ∈ r.1, LetTokenOK s := by
  induction n with
  | zero => intro statements p r _ _ h; simp [parseProgramLoop] at h
  | succ n ih =>
    intro statements p r hp hacc h
    rw [parseProgramLoop] at h
    split at h
    · cases h1 : parseStatement fuel p with
      | none => simp [h1] at h
      | some r1 =>
        obtain ⟨stmt, p1⟩ := r1
        simp only [h1] at h
        have s1 := sound_parseStatement fuel p _ hp h1
        have l1 : LetTokenOK stmt := letToken_parseStatement fuel p _ hp h1
        refine ih _ _ _ s1.1.nextToken_inv ?_ h
        intro s hs
        split at hs
        · rcases List.mem_append.mp hs with e | e
          · exact hacc s e
          · simp only [List.mem_singleton] at e
            rw [e]
            exact l1
        · exact hacc s hs
    · simp only [Option.some.injEq] at h
      rw [← h]
      exact hacc

/-- Every let statement of a parsed program carries the keyword's text in its token. -/
theorem parse_letToken (src : List Nat) (program : Program) (errors : List (List Nat))
    (h : parse src = some (program, errors)) : ∀ s ∈ program.Statements, LetTokenOK s := by
  unfold parse ParseProgram at h
  cases h1 : parseProgramLoop (budget (New (Lexer.New src))) (budget (New (Lexer.New src))) []
      (New (Lexer.New src)) with
  | none => simp [h1] at h
  | some r =>
    obtain ⟨statements, p1⟩ := r
    simp only [h1, Option.some.injEq, Prod.mk.injEq] at h
    have := letToken_parseProgramLoop _ _ _ _ _ (New_inv src) (by simp) h1
    rw [← h.1]
    exact this

end Parser

namespace Parser

/-- What follows a statement in the concatenated text: the start of the next statement,
separable from the statement's text, or nothing. -/
theorem rest_text (st : Statement) (rest : List Statement)
    (hok : ∀ s ∈ rest, StatementOK s ∧ LetTokenOK s)
    (hsep : SeparableTexts ((st :: rest).map Statement.text) = true) :
    StartsStatement (rest.flatMap Statement.text) ∧
      ∀ e, WellFormed e → st.text = e.text → Boundary e (rest.flatMap Statement.text) := by
  cases rest with
  | nil => exact ⟨startsStatement_of_head [] (Or.inl rfl), fun e hwf _ => boundary_nil e hwf⟩
  | cons r0 rest1 =>
    obtain ⟨c, t, h1, h2⟩ := statement_text_head r0 (hok r0 (by simp)).1 (hok r0 (by simp)).2
    have hh := flatMap_text_head r0 rest1 c t h1
    refine ⟨startsStatement_of_head _ (Or.inr ?_), fun e hwf he => ?_⟩
    · rw [hh, h1]
      exact h2
    · simp only [List.map_cons, SeparableTexts, Bool.and_eq_true] at hsep
      exact boundary_of_separable e hwf r0.text _ (he ▸ hsep.1) hh

/-- The statement loop on the concatenated texts of statements that the parser builds, each
separable from the next: it returns statements with the same strings and adds no error. -/
theorem program_loop_text (fuel : Nat) :
    ∀ (stmts : List Statement) (n : Nat) (acc : List Statement) (p : Parser),
      (∀ s ∈ stmts, StatementOK s ∧ LetTokenOK s) →
      SeparableTexts (stmts.map Statement.text) = true →
      (∀ s ∈ stmts, 2 * s.text.length + 2 ≤ fuel) →
      stmts.length + 1 ≤ n →
      p.CurAt (stmts.flatMap Statement.text) →
      ∃ out p1, parseProgramLoop fuel n acc p = some (acc ++ out, p1) ∧
        p1.errors = p.errors ∧ out.map Statement.String = stmts.map Statement.String := by
  intro stmts
  induction stmts with
  | nil =>
    intro n acc p _ _ _ hn hp
    obtain ⟨m, rfl⟩ : ∃ m, n = m + 1 := ⟨n - 1, by simp at hn; omega⟩
    have hc : p.curToken.Typ = .EOF := by rw [hp.1]; rfl
    refine ⟨[], p, ?_, rfl, rfl⟩
    rw [parseProgramLoop]
    simp [hc]
  | cons st rest ih =>
    intro n acc p hok hsep hfuel hn hp
    obtain ⟨m, rfl⟩ : ∃ m, n = m + 1 := ⟨n - 1, by simp at hn; omega⟩
    have hokrest : ∀ s ∈ rest, StatementOK s ∧ LetTokenOK s := fun s hs => hok s (by simp [hs])
    obtain ⟨hstart, hbound⟩ := rest_text st rest hokrest hsep
    have hseprest : SeparableTexts (rest.map Statement.text) = true := by
      cases rest with
      | nil => rfl
      | cons r0 rest1 =>
        simp only [List.map_cons, SeparableTexts, Bool.and_eq_true] at hsep
        exact hsep.2
    have hfst := hfuel st (by simp)
    rw [List.flatMap_cons] at hp
    have key : ∃ st1 p1, parseStatement fuel p = some (st1, p1) ∧ st1 ≠ .nil ∧
        st1.String = st.String ∧ p1.errors = p.errors ∧
        p1.nextToken.CurAt (rest.flatMap Statement.text) ∧ p.curToken.Typ ≠ .EOF := by
      obtain ⟨hst, hlt⟩ := hok st (by simp)
      cases st with
      | nil => exact absurd hst (by simp [StatementOK])
      | nilLetStatement => exact absurd hst (by simp [StatementOK])
      | ExpressionStatement tok e =>
        have hwf : WellFormed e := hst
        have hd := text_length e
        have hlen : (Statement.ExpressionStatement tok e).text = e.text := rfl
        rw [hlen] at hfst hp
        obtain ⟨p1, g1, g2, g3, g4⟩ := expression_statement_step e hwf _ (hbound e hwf rfl)
          hstart p hp fuel (by omega)
        exact ⟨_, p1, g1, by simp, rfl, g2, g3, g4⟩
      | LetStatement tok name value =>
        obtain ⟨hty, ⟨x, hx, hid⟩, hv⟩ := (hst : tok.Typ = .LET ∧
          (∃ x, name = some ⟨⟨.IDENT, x⟩, x⟩ ∧ IsIdentText x) ∧ WellFormed value)
        subst hx
        have hlit : tok.Literal = bytesOf "let" := hlt
        have htok : tok = ⟨.LET, bytesOf "let"⟩ := by
          obtain ⟨ty, lit⟩ := tok
          simp only at hty hlit
          rw [hty, hlit]
        subst htok
        have hd := text_length value
        have htext : (Statement.LetStatement ⟨.LET, bytesOf "let"⟩
            (some ⟨⟨.IDENT, x⟩, x⟩) value).text ++ rest.flatMap Statement.text
            = bytesOf "let" ++ 32 :: (x ++ 32 :: 61 :: 32 ::
              (value.text ++ 59 :: rest.flatMap Statement.text)) := by
          simp [Statement.text, bytesOf_space, show bytesOf " = " = [32, 61, 32] from by decide,
            show bytesOf ";" = [59] from by decide]
        have hlen : value.text.length ≤ (Statement.LetStatement ⟨.LET, bytesOf "let"⟩
            (some ⟨⟨.IDENT, x⟩, x⟩) value).text.length := by
          simp only [Statement.text, List.length_append]
          omega
        rw [htext] at hp
        obtain ⟨p1, g1, g2, g3, g4⟩ := let_statement_step x hid value hv _ p hp fuel (by omega)
        exact ⟨_, p1, g1, by simp, rfl, g2, g3, g4⟩
    obtain ⟨st1, p1, k1, k2, k3, k4, k5, k6⟩ := key
    obtain ⟨out, p2, i1, i2, i3⟩ := ih m (acc ++ [st1]) p1.nextToken hokrest hseprest
      (fun s hs => hfuel s (by simp [hs])) (by simp at hn; omega) k5
    refine ⟨st1 :: out, p2, ?_, by rw [i2, nextToken_errors, k4], by simp [k3, i3]⟩
    rw [parseProgramLoop]
    simp only [k6, ne_eq, not_false_eq_true, if_true, k1, k2]
    rw [i1]
    simp

end Parser

/-- C21 (amended): when a source text parses without errors and, in the program, no
statement's text ends in a letter right before a statement's text that starts with a
letter, nor in a digit right before one that starts with a digit, then the program's
String() parses without errors to a program with the same String() (statement by
statement). -/
theorem program_round_trip (src : List Nat) (program : Program)
    (h : parse src = some (program, []))
    (hsep : SeparableTexts (program.Statements.map Statement.text) = true) :
    (∀ s ∈ program.Statements, s.String = some s.text) ∧
    ∃ text, program.String = some text ∧
      ∃ program1, parse text = some (program1, []) ∧ program1.String = some text ∧
        program1.Statements.map Statement.String
          = program.Statements.map Statement.String := by
  have hok : ∀ s ∈ program.Statements, StatementOK s ∧ LetTokenOK s := fun s hs =>
    ⟨Parser.parse_sound src program h s hs, Parser.parse_letToken src program [] h s hs⟩
  have hstr : ∀ s ∈ program.Statements, s.String = some s.text :=
    fun s hs => statement_string_text s (hok s hs).1
  have htext : program.String = some (program.Statements.flatMap Statement.text) :=
    stringsConcat_text _ hstr
  refine ⟨hstr, _, htext, ?_⟩
  obtain ⟨hcur, herr, hin⟩ := Parser.New_at (program.Statements.flatMap Statement.text)
  have hlen := length_le_text program.Statements hok
  obtain ⟨out, p1, g1, g2, g3⟩ := Parser.program_loop_text
    (Parser.budget (Parser.New (Lexer.New (program.Statements.flatMap Statement.text))))
    program.Statements
    (Parser.budget (Parser.New (Lexer.New (program.Statements.flatMap Statement.text)))) []
    (Parser.New (Lexer.New (program.Statements.flatMap Statement.text))) hok hsep
    (fun s hs => by
      have := length_text_le program.Statements s hs
      simp only [Parser.budget, hin]
      omega)
    (by simp only [Parser.budget, hin]; omega) hcur
  refine ⟨⟨out⟩, ?_, ?_, g3⟩
  · simp only [parse, Parser.ParseProgram, g1, List.nil_append, Parser.Errors, g2, herr]
  · show stringsConcat out = _
    rw [stringsConcat_congr out program.Statements g3]
    exact htext

theorem program_round_trip_witness :
    ∃ text, Program.String ⟨[letStmt "x" (intLit "5" 5),
        .ExpressionStatement ⟨.IDENT, bytesOf "x"⟩ (binop .PLUS (ident "x") (intLit "1" 1)),
        .ExpressionStatement ⟨.INT, bytesOf "7"⟩ (intLit "7" 7),
        .ExpressionStatement ⟨.IDENT, bytesOf "y"⟩ (ident "y")]⟩ = some text ∧
      ∃ program1, parse text = some (program1, []) ∧ program1.String = some text ∧
        program1.Statements.map Statement.String
          = [some (bytesOf "let x = 5;"), some (bytesOf "(x + 1)"), some (bytesOf "7"),
              some (bytesOf "y")] :=
  (program_round_trip (bytesOf "let x = 5; x + 1; 7; y")
    ⟨[letStmt "x" (intLit "5" 5),
      .ExpressionStatement ⟨.IDENT, bytesOf "x"⟩ (binop .PLUS (ident "x") (intLit "1" 1)),
      .ExpressionStatement ⟨.INT, bytesOf "7"⟩ (intLit "7" 7),
      .ExpressionStatement ⟨.IDENT, bytesOf "y"⟩ (ident "y")]⟩ (by rfl) (by decide)).2

/-- C21 (as stated) fails: "y let x = 5" parses without errors to the two statements `y`
and `let x = 5;`, whose String() is "ylet x = 5;", and that text parses with the error
"no prefix parse function for = found"; "0; 8" parses without errors, its String() is "08",
and that text parses with the error that it is no integer. -/
theorem program_text_runs_together :
    parse (bytesOf "y let x = 5")
      = some (⟨[.ExpressionStatement ⟨.IDENT, bytesOf "y"⟩ (ident "y"),
          letStmt "x" (intLit "5" 5)]⟩, []) ∧
    Program.String ⟨[.ExpressionStatement ⟨.IDENT, bytesOf "y"⟩ (ident "y"),
        letStmt "x" (intLit "5" 5)]⟩ = some (bytesOf "ylet x = 5;") ∧
    (parse (bytesOf "ylet x = 5;")).map (fun r => r.2)
      = some [bytesOf "no prefix parse function for = found"] ∧
    (parse (bytesOf "0; 8")).map (fun r => (r.1.String, r.2))
      = some (some (bytesOf "08"), []) ∧
    (parse (bytesOf "08")).map (fun r => r.2)
      = some [bytesOf "could not parse \"08\" as integer"] := by
  refine ⟨by rfl, by rfl, by rfl, by rfl, by rfl⟩

end PunyGo
